import Mathlib

/-!
Verification of the index-based binomial heap from
`sandbox/heaps/include/origin/heaps/binomial_heap.hpp`.

The C++ template `binomial_heap<T, Compare, Item_Label>` is shallowly
embedded with the instantiation used throughout the specification's
scenarios: values are records carrying a stable integer handle (`id`,
what `Item_Label` extracts) and an integer `key`; `Compare` is
key-less-than, giving a min-oriented heap.

All `std::vector` accesses go through `getE` / `setE` / `modifyE`,
which return an error (in `Except String`) exactly when the C++ code
would index a vector out of bounds (undefined behaviour).  The C++
sentinel `(size_t)-1` for "no index" is rendered as `none : Option Nat`;
indexing a vector at the sentinel is an out-of-bounds access in C++ and
is an error here.  Each loop of the C++ code becomes a fuel-indexed
recursive function; the fuel supplied by the operations dominates every
terminating C++ execution, so fuel exhaustion models divergence.
-/

/-- A stored value: `id` is the stable handle extracted by the
`Item_Label` functor, `key` is the ordering key used by `Compare`. -/
structure Val where
  id : Nat
  key : Nat
deriving Repr, DecidableEq

/-- The comparator `compare_` of the instantiation: strict less-than on
keys (min-heap). -/
def compare_ (a b : Val) : Bool := a.key < b.key

/-- The handle functor `_id`. -/
def item_label (v : Val) : Nat := v.id

/-- `binomial_heap_node`: all links are indices into the node array,
with `none` for the C++ sentinel `(size_t)-1`. -/
structure BHNode where
  item_index : Nat
  parent : Option Nat
  child : Option Nat
  right_sibling : Option Nat
  degree : Nat
deriving Repr, DecidableEq

/-- The default-constructed `binomial_heap_node`: parent, child and
right_sibling are the sentinel; `degree(-1)` wraps to `2^64 - 1`;
`item_index` is left uninitialized in C++ and is never read on the one
path that uses a default node (the temporary dummy in `merge`), so it
is rendered as `0`. -/
def BHNode.mk0 : BHNode :=
  { item_index := 0, parent := none, child := none, right_sibling := none,
    degree := 18446744073709551615 }

/-- The heap state: the five data members of `binomial_heap`. -/
structure BHeap where
  elements_ : List Val
  data_ : List BHNode
  head_ : Option Nat
  top_ : Option Nat
  index_array : List Nat
deriving Repr, DecidableEq

/-- Bounds-checked vector read; the message names the access site. -/
def getE (msg : String) (l : List α) (i : Nat) : Except String α :=
  match l.get? i with
  | some a => .ok a
  | none => .error msg

/-- Read at an index that may be the `(size_t)-1` sentinel; in C++ this
is `v[i]` with `i == (size_t)-1`, an out-of-bounds access. -/
def getS (msg : String) (l : List α) (i : Option Nat) : Except String α :=
  match i with
  | none => .error msg
  | some k => getE msg l k

/-- Bounds-checked vector write. -/
def setE (msg : String) (l : List α) (i : Nat) (a : α) : Except String (List α) :=
  if i < l.length then .ok (l.set i a) else .error msg

/-- Bounds-checked read-modify-write of one vector slot. -/
def modifyE (msg : String) (l : List α) (i : Nat) (f : α → α) : Except String (List α) := do
  let a ← getE msg l i
  setE msg l i (f a)

/-- `binomial_link(data_, y, z)`: make `y` a child of `z`, in the field
order of the C++ function. -/
def binomial_link (data : List BHNode) (y z : Nat) : Except String (List BHNode) := do
  let data ← modifyE "link: parent write" data y (fun nd => { nd with parent := some z })
  let zn ← getE "link: child read" data z
  let data ← modifyE "link: sibling write" data y (fun nd => { nd with right_sibling := zn.child })
  let data ← modifyE "link: child write" data z (fun nd => { nd with child := some y })
  modifyE "link: degree write" data z (fun nd => { nd with degree := nd.degree + 1 })

/-- The `while (p != initial_size || q != initial_size)` loop of
`merge`, threading the write cursor `current`.  The branch condition
`q == initial_size || (p != initial_size && data_[p].degree <
data_[q].degree)` is rendered by the four-way case split on `p`, `q`,
with the degree reads happening exactly when both are live. -/
def mergeLoop : Nat → List BHNode → Option Nat → Option Nat → Nat →
    Except String (List BHNode)
  | 0, _, _, _, _ => .error "merge: loop fuel exhausted"
  | fuel+1, data, p, q, current =>
    match p, q with
    | none, none => .ok data
    | some pi, none => do
      let data2 ← modifyE "merge: current write p" data current
        (fun nd => { nd with right_sibling := some pi })
      let pn ← getE "merge: advance p" data2 pi
      mergeLoop fuel data2 pn.right_sibling none pi
    | none, some qi => do
      let data2 ← modifyE "merge: current write q" data current
        (fun nd => { nd with right_sibling := some qi })
      let qn ← getE "merge: advance q" data2 qi
      mergeLoop fuel data2 none qn.right_sibling qi
    | some pi, some qi => do
      let pn0 ← getE "merge: node p degree" data pi
      let qn0 ← getE "merge: node q degree" data qi
      if pn0.degree < qn0.degree then do
        let data2 ← modifyE "merge: current write p" data current
          (fun nd => { nd with right_sibling := some pi })
        let pn ← getE "merge: advance p" data2 pi
        mergeLoop fuel data2 pn.right_sibling (some qi) pi
      else do
        let data2 ← modifyE "merge: current write q" data current
          (fun nd => { nd with right_sibling := some qi })
        let qn ← getE "merge: advance q" data2 qi
        mergeLoop fuel data2 (some pi) qn.right_sibling qi

/-- `merge(index)`: splice the root list starting at `index` into the
one starting at `head_`, via a temporary dummy node pushed at the back
of the node array.  The initial `std::min(data_[p].degree,
data_[q].degree)` truthiness test computes a `new_head` that the rest
of the function never uses, but its reads of `data_[p]` and `data_[q]`
happen (and are out of bounds when either index is the sentinel). -/
def merge (h : BHeap) (index : Option Nat) : Except String BHeap := do
  let p := h.head_
  let q := index
  let pn ← getS "merge: initial degree read p" h.data_ p
  let qn ← getS "merge: initial degree read q" h.data_ q
  let _new_head := if Nat.min pn.degree qn.degree ≠ 0 then p else q
  let current := h.data_.length
  let data := h.data_ ++ [BHNode.mk0]
  let data ← mergeLoop (2 * data.length + 2) data p q current
  let last ← getE "merge: back read" data (data.length - 1)
  .ok { h with data_ := data.dropLast, head_ := last.right_sibling }

/-- The advance condition of the consolidation scan:
`data_[x].degree != data_[next_x].degree ||
(data_[next_x].right_sibling != -1 &&
data_[data_[next_x].right_sibling].degree == data_[x].degree)`. -/
def unionDefer (data : List BHNode) (xn nxn : BHNode) : Except String Bool :=
  if xn.degree ≠ nxn.degree then pure true
  else match nxn.right_sibling with
    | none => pure false
    | some nnx => do
      let nnxn ← getE "union: node after next" data nnx
      pure (decide (nnxn.degree = xn.degree))

/-- The root-list head / predecessor repair performed before linking
`x` under `next_x`: either `head_ = next_x` or
`data_[prev_x].right_sibling = next_x`. -/
def unionPrevFix (data : List BHNode) (head : Option Nat) (prev_x : Option Nat)
    (nx : Nat) : Except String (List BHNode × Option Nat) :=
  match prev_x with
  | none => pure (data, some nx)
  | some pv => do
    let d ← modifyE "union: prev relink" data pv
      (fun nd => { nd with right_sibling := some nx })
    pure (d, head)

/-- The consolidation scan of `binomial_heap_union`:
`while (next_x != -1)` with the three cursors `x`, `next_x`, `prev_x`.
Returns the final node array and root-list head. -/
def unionLoop : Nat → List Val → List BHNode → Option Nat → Nat →
    Option Nat → Option Nat → Except String (List BHNode × Option Nat)
  | 0, _, _, _, _, _, _ => .error "union: loop fuel exhausted"
  | fuel+1, elements, data, head, x, next_x, prev_x =>
    match next_x with
    | none => .ok (data, head)
    | some nx => do
      let xn ← getE "union: node x" data x
      let nxn ← getE "union: node next" data nx
      let deferStep ← unionDefer data xn nxn
      if deferStep then
        unionLoop fuel elements data head nx nxn.right_sibling (some x)
      else do
        let xv ← getE "union: value of x" elements xn.item_index
        let nxv ← getE "union: value of next" elements nxn.item_index
        if compare_ xv nxv then do
          let data2 ← modifyE "union: sibling bypass" data x
            (fun nd => { nd with right_sibling := nxn.right_sibling })
          let data3 ← binomial_link data2 nx x
          let xn2 ← getE "union: reread x" data3 x
          unionLoop fuel elements data3 head x xn2.right_sibling prev_x
        else do
          let pr ← unionPrevFix data head prev_x nx
          let data3 ← binomial_link pr.1 x nx
          let xn3 ← getE "union: reread next" data3 nx
          unionLoop fuel elements data3 pr.2 nx xn3.right_sibling prev_x

/-- `binomial_heap_union(index)`: merge the root lists, then
consolidate equal-degree roots. -/
def binomial_heap_union (h : BHeap) (index : Option Nat) : Except String BHeap := do
  let h ← merge h index
  match h.head_ with
  | none => .error "union: head sentinel after merge"
  | some x => do
    let hn ← getE "union: head node" h.data_ x
    match hn.right_sibling with
    | none => .ok h
    | some rs => do
      let (data, head) ←
        unionLoop (2 * h.data_.length + 4) h.elements_ h.data_ h.head_ x (some rs) none
      .ok { h with data_ := data, head_ := head }

/-- The scan of `get_new_top` over the root list. -/
def getNewTopLoop : Nat → List Val → List BHNode → Nat → Option Nat →
    Except String Nat
  | 0, _, _, _, _ => .error "new top: loop fuel exhausted"
  | fuel+1, elements, data, top_index, tmp =>
    match tmp with
    | none => .ok top_index
    | some t => do
      let tn ← getE "new top: node tmp" data t
      let bn ← getE "new top: node best" data top_index
      let tv ← getE "new top: value tmp" elements tn.item_index
      let bv ← getE "new top: value best" elements bn.item_index
      let best := if compare_ tv bv then t else top_index
      getNewTopLoop fuel elements data best tn.right_sibling

/-- `get_new_top()`: linear scan of the root list for the
comparator-extremal root; `none` when the forest is empty. -/
def get_new_top (h : BHeap) : Except String (Option Nat) := do
  match h.head_ with
  | none => .ok none
  | some hd => do
    let hn ← getE "new top: head node" h.data_ hd
    let r ← getNewTopLoop (h.data_.length + 2) h.elements_ h.data_ hd hn.right_sibling
    .ok (some r)

/-- The tail of `push` after the handle-index write: start a new
forest, or unite the singleton tree at `index` and refresh `top_`. -/
def pushFinish (h1 : BHeap) (index : Nat) : Except String BHeap :=
  match h1.head_ with
  | none => .ok { h1 with head_ := some index, top_ := some index }
  | some _ => do
    let h2 ← binomial_heap_union h1 (some index)
    let xn ← getE "push: new node" h2.data_ index
    let xv ← getE "push: new value" h2.elements_ xn.item_index
    let tn ← getS "push: top node" h2.data_ h2.top_
    let tv ← getE "push: top value" h2.elements_ tn.item_index
    .ok (if compare_ xv tv then { h2 with top_ := some index } else h2)

/-- `push(d)`: append the value and a fresh degree-0 node, record the
handle mapping (unchecked vector write in C++), then either start a new
forest or unite the singleton and refresh `top_`. -/
def push (h : BHeap) (d : Val) : Except String BHeap := do
  let elements := h.elements_ ++ [d]
  let obj : BHNode :=
    { item_index := elements.length - 1, parent := none, right_sibling := none,
      child := none, degree := 0 }
  let data := h.data_ ++ [obj]
  let index := data.length - 1
  let ia ← setE "push: handle index write" h.index_array (item_label d) index
  pushFinish
    { elements_ := elements, data_ := data, head_ := h.head_, top_ := h.top_,
      index_array := ia }
    index

/-- The upward swap walk of `update`. Returns the final value store,
handle index and stopping node. -/
def updateLoop : Nat → Val → List Val → List Nat → List BHNode → Nat →
    Option Nat → Except String (List Val × List Nat × Nat)
  | 0, _, _, _, _, _, _ => .error "update: loop fuel exhausted"
  | fuel+1, d, elements, ia, data, index, parent =>
    match parent with
    | none => .ok (elements, ia, index)
    | some par => do
      let pn ← getE "update: parent node" data par
      let pv ← getE "update: parent value" elements pn.item_index
      if compare_ d pv then do
        let xn ← getE "update: node" data index
        let elements ← setE "update: downward write" elements xn.item_index pv
        let elements ← setE "update: upward write" elements pn.item_index d
        let dv ← getE "update: moved value reread" elements xn.item_index
        let ia ← setE "update: handle fix" ia (item_label dv) index
        updateLoop fuel d elements ia data par pn.parent
      else .ok (elements, ia, index)

/-- `update(d)`: look the handle up, write the new value into the
node's slot, sift it toward the root (the triple `tr` carries the
value store, handle index and current node of the walk), then refresh
`top_` if the new value beats the current top. -/
def update (h : BHeap) (d : Val) : Except String BHeap := do
  let index ← getE "update: handle lookup" h.index_array (item_label d)
  let nd ← getE "update: node lookup" h.data_ index
  let elements ← setE "update: initial write" h.elements_ nd.item_index d
  let tr ← updateLoop (h.data_.length + 2) d elements h.index_array h.data_ index nd.parent
  let ia ← setE "update: final handle write" tr.2.1 (item_label d) tr.2.2
  let tn ← getS "update: top node" h.data_ h.top_
  let tv ← getE "update: top value" tr.1 tn.item_index
  .ok (if compare_ d tv then
    { h with elements_ := tr.1, index_array := ia, top_ := some tr.2.2 }
  else
    { h with elements_ := tr.1, index_array := ia })

/-- The child-list reversal loop of `pop`. -/
def popReverse : Nat → List BHNode → Option Nat → Option Nat →
    Except String (List BHNode × Option Nat)
  | 0, _, _, _ => .error "pop: reverse fuel exhausted"
  | fuel+1, data, tmp_head, new_head =>
    match tmp_head with
    | none => .ok (data, new_head)
    | some th => do
      let tn ← getE "pop: reverse node" data th
      let tmp_sibling := tn.right_sibling
      let data ← modifyE "pop: reverse write" data th
        (fun nd => { nd with parent := none, right_sibling := new_head })
      popReverse fuel data tmp_sibling (some th)

/-- The `while (data_[tmp].right_sibling != top_)` predecessor scan of
`pop`; stepping to the sentinel makes the next iteration read
`data_[(size_t)-1]`, an out-of-bounds access. -/
def popScan : Nat → List BHNode → Nat → Nat → Except String Nat
  | 0, _, _, _ => .error "pop: scan fuel exhausted"
  | fuel+1, data, tmp, tp => do
    let tn ← getE "pop: scan node" data tmp
    if tn.right_sibling = some tp then .ok tmp
    else
      match tn.right_sibling with
      | none => .error "pop: scan reached sentinel"
      | some nxt => popScan fuel data nxt tp

/-- The child-detachment step of `pop`: if the top node has children,
reverse them into a standalone root list (else the new list is empty).
Returns the node array and the new list's head. -/
def popChildren (h : BHeap) (tn : BHNode) : Except String (List BHNode × Option Nat) :=
  match tn.child with
  | none => pure (h.data_, (none : Option Nat))
  | some c => popReverse (h.data_.length + 2) h.data_ (some c) none

/-- The root-list surgery of `pop`: remove the top root from the root
list (three cases: it was the only root, it was the head, or it is
found by the predecessor scan) and, when other roots remain, unite the
reversed child list back in. -/
def popRelink (h : BHeap) (hd tp : Nat) (data : List BHNode)
    (new_head : Option Nat) : Except String BHeap := do
  let hn ← getE "pop: head node" data hd
  match hn.right_sibling with
  | none => pure { h with data_ := data, head_ := new_head }
  | some _ =>
    if hd = tp then
      binomial_heap_union { h with data_ := data, head_ := hn.right_sibling } new_head
    else do
      let pred ← popScan (data.length + 2) data hd tp
      let tn2 ← getE "pop: top reread" data tp
      let data2 ← modifyE "pop: splice" data pred
        (fun nd => { nd with right_sibling := tn2.right_sibling })
      binomial_heap_union { h with data_ := data2 } new_head

/-- The swap-with-last compaction of `pop`: `temp` is the node index
of the removed root; the C++ code writes the last value into
`elements_[temp]`, repairs `data_[index].item_index`, invalidates the
node at `temp` and truncates the value store. -/
def popCompact (h1 : BHeap) (temp : Nat) : Except String BHeap := do
  let lastVal ← getE "pop: last value read" h1.elements_ (h1.elements_.length - 1)
  let index ← getE "pop: handle of last" h1.index_array (item_label lastVal)
  let elements ← setE "pop: value store write" h1.elements_ temp lastVal
  let data3 ← modifyE "pop: item index repair" h1.data_ index
    (fun nd => { nd with item_index := temp })
  let data4 ← modifyE "pop: invalidate" data3 temp
    (fun nd => { nd with parent := none, child := none, right_sibling := none,
                         degree := 0 })
  pure { h1 with elements_ := elements.dropLast, data_ := data4 }

/-- `pop()`: detach the top root, reverse its children into a new root
list, unite, rescan for the new top, then compact the value store by
the swap-with-last step. -/
def pop (h : BHeap) : Except String BHeap :=
  match h.head_ with
  | none => .ok h
  | some hd =>
    match h.top_ with
    | none => .error "pop: top is sentinel"
    | some tp => do
      let tn ← getE "pop: top node" h.data_ tp
      let pr ← popChildren h tn
      let h1 ← popRelink h hd tp pr.1 pr.2
      let newtop ← get_new_top h1
      popCompact { h1 with top_ := newtop } tp

/-- `top()`: `elements_[data_[top_].item_index]`. -/
def top (h : BHeap) : Except String Val := do
  let tn ← getS "top: node read" h.data_ h.top_
  getE "top: value read" h.elements_ tn.item_index

/-- `empty()`: `elements_.size() == 0`. -/
def empty (h : BHeap) : Bool := h.elements_.length == 0

/-- `size()`: `elements_.size()`. -/
def size (h : BHeap) : Nat := h.elements_.length

/-- The three-argument constructor: capacity-`n` handle index
(zero-initialized by `std::vector`), empty stores, sentinel head and
top. -/
def mkHeap (n : Nat) : BHeap :=
  { elements_ := [], data_ := [], head_ := none, top_ := none,
    index_array := List.replicate n 0 }

/-- The default constructor: it initializes only the comparator and the
handle functor, so `head_` and `top_` hold indeterminate garbage
(modelled as parameters) and the handle index is empty. -/
def mkDefault (garbage_head garbage_top : Option Nat) : BHeap :=
  { elements_ := [], data_ := [], head_ := garbage_head, top_ := garbage_top,
    index_array := [] }

/-- One public mutating operation. -/
inductive Op where
  | pushOp (v : Val)
  | popOp
  | updateOp (v : Val)
deriving Repr, DecidableEq

/-- Apply one operation. -/
def stepOp (h : BHeap) : Op → Except String BHeap
  | .pushOp v => push h v
  | .popOp => pop h
  | .updateOp v => update h v

/-- Run a sequence of operations. -/
def runOps (h : BHeap) : List Op → Except String BHeap
  | [] => .ok h
  | op :: rest => do runOps (← stepOp h op) rest

/-- Number of insertions in an operation sequence. -/
def countPush : List Op → Nat
  | [] => 0
  | .pushOp _ :: r => countPush r + 1
  | .popOp :: r => countPush r
  | .updateOp _ :: r => countPush r

/-- Number of extractions in an operation sequence. -/
def countPop : List Op → Nat
  | [] => 0
  | .pushOp _ :: r => countPop r
  | .popOp :: r => countPop r + 1
  | .updateOp _ :: r => countPop r

/-- Checks that along the run every extraction is invoked on a state
with a non-empty forest (the "performed on non-empty states" side
condition); operations after a failing one are not constrained. -/
def popsSeeNonempty (h : BHeap) : List Op → Bool
  | [] => true
  | op :: rest =>
    (match op with
     | .popOp => h.head_.isSome
     | _ => true) &&
    (match stepOp h op with
     | .ok h' => popsSeeNonempty h' rest
     | .error _ => true)

/-- The chain of node indices obtained by repeatedly following the
link field selected by `f` (`right_sibling` for root and sibling
lists, `parent` for ancestor walks), starting at `o` and ending at the
sentinel. -/
inductive IsChainF (f : BHNode → Option Nat) (data : List BHNode) :
    Option Nat → List Nat → Prop
  | nil : IsChainF f data none []
  | cons {x : Nat} {rest : List Nat} (nd : BHNode)
      (hget : data.get? x = some nd)
      (hrest : IsChainF f data (f nd) rest) :
      IsChainF f data (some x) (x :: rest)

/-- The degree stored at node index `i` (dummy when out of range). -/
def degOf (data : List BHNode) (i : Nat) : Nat :=
  ((data.get? i).getD BHNode.mk0).degree

/-- The item slot stored at node index `i` (dummy when out of range). -/
def itemOf (data : List BHNode) (i : Nat) : Nat :=
  ((data.get? i).getD BHNode.mk0).item_index

/-- Binomial-tree shape: every node that has a parent has strictly
smaller degree than that parent. -/
def ParentDeg (data : List BHNode) : Prop :=
  ∀ i nd, data.get? i = some nd → ∀ p, nd.parent = some p →
    ∃ pn, data.get? p = some pn ∧ nd.degree < pn.degree

/-- A well-formed root list `rl`: it is the `right_sibling` chain
starting at `head`, its degrees strictly increase along the list, and
every root is parentless. -/
structure RootsWF (data : List BHNode) (head : Option Nat) (rl : List Nat) : Prop where
  chain : IsChainF BHNode.right_sibling data head rl
  strict : List.Chain' (· < ·) (rl.map (degOf data))
  rootpar : ∀ r ∈ rl, ∃ nd, data.get? r = some nd ∧ nd.parent = none

/-- The state invariant of every heap reachable from the three-argument
constructor by insertions only: stores in step, each node owning the
value slot of its own index, binomial-tree degrees, a well-formed root
list, `head_` at the sentinel exactly on the empty heap, all stored
handles within capacity, and `top_` naming a node whose value no stored
value beats under the comparator. -/
structure PushInv (h : BHeap) : Prop where
  len_eq : h.data_.length = h.elements_.length
  item_ix : ∀ i nd, h.data_.get? i = some nd → nd.item_index = i
  parent_deg : ParentDeg h.data_
  roots : ∃ rl, RootsWF h.data_ h.head_ rl
  head_iff : h.head_ = none ↔ h.elements_ = []
  ids_ok : ∀ v ∈ h.elements_, item_label v < h.index_array.length
  top_min : ∀ x, h.head_ = some x → ∃ t tn tv, h.top_ = some t ∧
    h.data_.get? t = some tn ∧ h.elements_.get? tn.item_index = some tv ∧
    ∀ v ∈ h.elements_, compare_ v tv = false

/-- The merged root-list order produced by `merge`: take from the
second list on ties (the C++ branch is `data_[p].degree <
data_[q].degree`). -/
def mergeIdx (data : List BHNode) : List Nat → List Nat → List Nat
  | [], lq => lq
  | pi :: lp, [] => pi :: lp
  | pi :: lp, qi :: lq =>
    if degOf data pi < degOf data qi then pi :: mergeIdx data lp (qi :: lq)
    else qi :: mergeIdx data (pi :: lp) lq
termination_by lp lq => lp.length + lq.length

/-- Degree lists produced by merging two strictly increasing lists:
runs of length one or two, strictly increasing across runs, all
bounded below. -/
inductive MergeShape : Nat → List Nat → Prop
  | nil (b : Nat) : MergeShape b []
  | one {b a : Nat} {l : List Nat} (hba : b ≤ a) (h : MergeShape (a + 1) l) :
      MergeShape b (a :: l)
  | two {b a : Nat} {l : List Nat} (hba : b ≤ a) (h : MergeShape (a + 1) l) :
      MergeShape b (a :: a :: l)

/-- Every node's child list is a well-formed sibling chain of strictly
decreasing degrees whose members point back at the node. -/
def ChildOK (data : List BHNode) : Prop :=
  ∀ i nd, data.get? i = some nd → ∃ cl,
    IsChainF BHNode.right_sibling data nd.child cl ∧
    List.Chain' (fun a b => b < a) (cl.map (degOf data)) ∧
    ∀ c ∈ cl, ∃ cn, data.get? c = some cn ∧ cn.parent = some i

/-- Every node's parent link is mirrored by membership in that
parent's child chain. -/
def ParentIn (data : List BHNode) : Prop :=
  ∀ w wn, data.get? w = some wn → ∀ p, wn.parent = some p →
    ∃ pn cl, data.get? p = some pn ∧
      IsChainF BHNode.right_sibling data pn.child cl ∧ w ∈ cl

/-- `data'` differs from `data` in `right_sibling` fields only. -/
def RsOnly (data data' : List BHNode) : Prop :=
  data'.length = data.length ∧
  ∀ i nd', data'.get? i = some nd' → ∃ nd, data.get? i = some nd ∧
    nd'.item_index = nd.item_index ∧ nd'.degree = nd.degree ∧
    nd'.parent = nd.parent ∧ nd'.child = nd.child

/-- The structural invariant of every reachable heap: a well-formed
strictly-increasing parentless root list, binomial parent degrees,
well-formed child chains, and parent/child coherence. -/
structure StructInv (h : BHeap) : Prop where
  roots : ∃ rl, RootsWF h.data_ h.head_ rl
  parent_deg : ParentDeg h.data_
  child_ok : ChildOK h.data_
  parent_in : ParentIn h.data_

/-- A chain segment: follow `f` from `o` through exactly the indices
of `l`, leaving the final link pointing at `o'` (not necessarily the
sentinel). -/
inductive SegF (f : BHNode → Option Nat) (data : List BHNode) :
    Option Nat → List Nat → Option Nat → Prop
  | nil (o : Option Nat) : SegF f data o [] o
  | cons {x : Nat} {rest : List Nat} {o' : Option Nat} (nd : BHNode)
      (hget : data.get? x = some nd)
      (hrest : SegF f data (f nd) rest o') :
      SegF f data (some x) (x :: rest) o'

/-- The head pointer of an index list (`none` when empty). -/
def mhead : List Nat → Option Nat
  | [] => none
  | m :: _ => some m

/-- Well-formed child chains, exempting the single node index `t`
(during an extraction the removed top's chain is temporarily broken and
repaired by the final invalidation): every other node's child chain is
a sibling chain of strictly decreasing degrees, all smaller than the
node's own degree. -/
def ChildWFx (data : List BHNode) (t : Nat) : Prop :=
  ∀ i nd, i ≠ t → data.get? i = some nd → ∃ cl,
    IsChainF BHNode.right_sibling data nd.child cl ∧
    List.Chain' (fun a b => b < a) (cl.map (degOf data)) ∧
    ∀ c ∈ cl, degOf data c < nd.degree

/-- No member of the index list `L` occurs in any node's child chain,
exempting chains owned by the node index `t`. -/
def SepListX (data : List BHNode) (L : List Nat) (t : Nat) : Prop :=
  ∀ o ond cl, o ≠ t → data.get? o = some ond →
    IsChainF BHNode.right_sibling data ond.child cl → ∀ w ∈ cl, w ∉ L

/-- Child chains of distinct owners are disjoint, exempting chains
owned by the node index `t`. -/
def SepCCX (data : List BHNode) (t : Nat) : Prop :=
  ∀ o1 on1 cl1 o2 on2 cl2, o1 ≠ t → o2 ≠ t → o1 ≠ o2 →
    data.get? o1 = some on1 → IsChainF BHNode.right_sibling data on1.child cl1 →
    data.get? o2 = some on2 → IsChainF BHNode.right_sibling data on2.child cl2 →
    ∀ w ∈ cl1, w ∉ cl2

/-- The structural invariant of every reachable heap: a root list of
strictly increasing degrees whose members are parentless, all child
chains well formed, and the root list and the child chains pairwise
disjoint.  The exemption index `data_.length` is out of range, so no
chain is actually exempted. -/
def HeapInv (h : BHeap) : Prop :=
  ∃ rl, RootsWF h.data_ h.head_ rl ∧
    SepListX h.data_ rl h.data_.length ∧
    ChildWFx h.data_ h.data_.length ∧
    SepCCX h.data_ h.data_.length

/-!
### Theorems
-/

/-- Inverting a successful `Except` bind. -/
theorem exceptBind_ok {α β : Type} {e : Except String α} {f : α → Except String β}
    {b : β} (h : (e >>= f) = Except.ok b) :
    ∃ a, e = Except.ok a ∧ f a = Except.ok b := by
  cases e with
  | error m => exact Except.noConfusion (h : (Except.error m : Except String β) = Except.ok b)
  | ok a => exact ⟨a, rfl, h⟩

theorem okBind {α β : Type} (a : α) (f : α → Except String β) :
    (Except.ok a >>= f : Except String β) = f a := rfl

theorem errBind {α β : Type} (m : String) (f : α → Except String β) :
    (Except.error m >>= f : Except String β) = Except.error m := rfl

theorem getE_ok {α : Type} {msg : String} {l : List α} {i : Nat} {a : α}
    (h : getE msg l i = Except.ok a) : l.get? i = some a := by
  unfold getE at h
  cases hg : l.get? i with
  | none => rw [hg] at h; exact Except.noConfusion h
  | some b => rw [hg] at h; injection h with h2; rw [h2]

theorem getE_ok_lt {α : Type} {msg : String} {l : List α} {i : Nat} {a : α}
    (h : getE msg l i = Except.ok a) : i < l.length := by
  have := getE_ok h
  exact List.get?_eq_some.mp this |>.1

theorem getE_of_get? {α : Type} (msg : String) {l : List α} {i : Nat} {a : α}
    (h : l.get? i = some a) : getE msg l i = Except.ok a := by
  unfold getE
  rw [h]

theorem setE_ok_length {α : Type} {msg : String} {l l' : List α} {i : Nat} {a : α}
    (h : setE msg l i a = Except.ok l') : l'.length = l.length := by
  unfold setE at h
  split at h
  · cases h; simp
  · exact Except.noConfusion h

theorem setE_ok_get {α : Type} {msg : String} {l l' : List α} {i : Nat} {a : α}
    (h : setE msg l i a = Except.ok l') : l' = l.set i a := by
  unfold setE at h
  split at h
  · cases h; rfl
  · exact Except.noConfusion h

theorem setE_of_lt {α : Type} (msg : String) {l : List α} {i : Nat} (a : α)
    (h : i < l.length) : setE msg l i a = Except.ok (l.set i a) := by
  unfold setE
  rw [if_pos h]

theorem modifyE_ok_length {α : Type} {msg : String} {l l' : List α} {i : Nat}
    {f : α → α} (h : modifyE msg l i f = Except.ok l') : l'.length = l.length := by
  unfold modifyE at h
  obtain ⟨a, _, h2⟩ := exceptBind_ok h
  exact setE_ok_length h2

theorem modifyE_ok_get {α : Type} {msg : String} {l l' : List α} {i : Nat}
    {f : α → α} (h : modifyE msg l i f = Except.ok l') :
    ∃ a, l.get? i = some a ∧ l' = l.set i (f a) := by
  unfold modifyE at h
  obtain ⟨a, h1, h2⟩ := exceptBind_ok h
  exact ⟨a, getE_ok h1, setE_ok_get h2⟩

theorem binomial_link_length {data data' : List BHNode} {y z : Nat}
    (h : binomial_link data y z = Except.ok data') : data'.length = data.length := by
  unfold binomial_link at h
  obtain ⟨d1, h1, h⟩ := exceptBind_ok h
  obtain ⟨zn, hz, h⟩ := exceptBind_ok h
  obtain ⟨d2, h2, h⟩ := exceptBind_ok h
  obtain ⟨d3, h3, h⟩ := exceptBind_ok h
  rw [modifyE_ok_length h, modifyE_ok_length h3, modifyE_ok_length h2,
    modifyE_ok_length h1]

theorem set_same {α : Type} : ∀ (l : List α) (i : Nat) (a : α),
    l.get? i = some a → l.set i a = l
  | [], _, _, h => by cases h
  | b :: l, 0, a, h => by
    injection h with h
    rw [List.set, h]
  | b :: l, i+1, a, h => by
    rw [List.set, set_same l i a h]

theorem modifyE_of_get? {α : Type} (msg : String) {l : List α} {i : Nat} {a : α}
    (h : l.get? i = some a) (f : α → α) :
    modifyE msg l i f = Except.ok (l.set i (f a)) := by
  unfold modifyE
  rw [getE_of_get? _ h, okBind, setE_of_lt _ _ (List.get?_eq_some.mp h).1]

theorem chainF_mem_lt {f : BHNode → Option Nat} {data : List BHNode}
    {o : Option Nat} {l : List Nat} (h : IsChainF f data o l) :
    ∀ i ∈ l, i < data.length := by
  induction h with
  | nil => intro i hi; cases hi
  | cons nd hget hrest ih =>
    intro i hi
    rcases List.mem_cons.mp hi with rfl | hi
    · exact (List.get?_eq_some.mp hget).1
    · exact ih i hi

theorem chainF_frame {f : BHNode → Option Nat} {data data' : List BHNode}
    {o : Option Nat} {l : List Nat} (h : IsChainF f data o l)
    (hfr : ∀ i ∈ l, data'.get? i = data.get? i) : IsChainF f data' o l := by
  induction h with
  | nil => exact IsChainF.nil
  | cons nd hget hrest ih =>
    refine IsChainF.cons nd ?_ (ih fun i hi => hfr i (List.mem_cons_of_mem _ hi))
    rw [hfr _ (List.mem_cons_self _ _)]
    exact hget

theorem chainF_append {f : BHNode → Option Nat} {data : List BHNode}
    {o : Option Nat} {l : List Nat} (h : IsChainF f data o l)
    (ext : List BHNode) : IsChainF f (data ++ ext) o l := by
  refine chainF_frame h fun i hi => ?_
  have hlt := chainF_mem_lt h i hi
  rw [List.get?_append hlt]

theorem chainF_set_outside {f : BHNode → Option Nat} {data : List BHNode}
    {o : Option Nat} {l : List Nat} (h : IsChainF f data o l)
    {j : Nat} (hj : j ∉ l) (a : BHNode) : IsChainF f (data.set j a) o l := by
  refine chainF_frame h fun i hi => ?_
  exact List.get?_set_ne a data fun hji => hj (hji ▸ hi)

theorem chain'_map_lt_nodup {g : Nat → Nat} : ∀ {l : List Nat},
    List.Chain' (· < ·) (l.map g) → l.Nodup := by
  intro l h
  have hp : (l.map g).Pairwise (· < ·) := List.chain'_iff_pairwise.mp h
  have hp2 : l.Pairwise (fun a b => g a < g b) := (List.pairwise_map).mp hp
  exact hp2.imp fun hab => by
    intro hEq
    rw [hEq] at hab
    exact Nat.lt_irrefl _ hab

theorem nodup_lt_length {l : List Nat} {n : Nat} (hnd : l.Nodup)
    (hlt : ∀ i ∈ l, i < n) : l.length ≤ n := by
  classical
  have hcard : l.toFinset.card = l.length := List.toFinset_card_of_nodup hnd
  have hsub : l.toFinset ⊆ Finset.range n := by
    intro i hi
    rw [Finset.mem_range]
    exact hlt i (List.mem_toFinset.mp hi)
  have := Finset.card_le_card hsub
  rw [hcard, Finset.card_range] at this
  exact this

/-- Once the `q` list of the `merge` loop is exhausted, the loop walks
the remaining `p` chain writing each node's successor back into it (a
no-op), so its only real effect is pointing `current` at `p`. -/
theorem mergeLoop_drain : ∀ {lp : List Nat} {fuel : Nat} {data : List BHNode}
    {p : Option Nat} {current : Nat} {cn : BHNode},
    IsChainF BHNode.right_sibling data p lp →
    data.get? current = some cn → current ∉ lp → lp.Nodup →
    lp.length + 1 ≤ fuel →
    mergeLoop fuel data p none current =
      Except.ok (match p with
        | none => data
        | some pi => data.set current { cn with right_sibling := some pi }) := by
  intro lp
  induction lp with
  | nil =>
    intro fuel data p current cn hch hcur hmem hnd hfuel
    cases hch
    cases fuel with
    | zero => omega
    | succ f => rfl
  | cons x rest ih =>
    intro fuel data p current cn hch hcur hmem hnd hfuel
    rw [List.length_cons] at hfuel
    cases hch with
    | cons nd hget hrest =>
      cases fuel with
      | zero => omega
      | succ f =>
        have hne_cx : current ≠ x := fun hEq => hmem (hEq ▸ List.mem_cons_self _ _)
        have hgetb : (data.set current { cn with right_sibling := some x }).get? x =
            some nd := by
          rw [List.get?_set_ne _ _ hne_cx]
          exact hget
        show mergeLoop (f+1) data (some x) none current =
          Except.ok (data.set current { cn with right_sibling := some x })
        unfold mergeLoop
        show (do
          let data2 ← modifyE "merge: current write p" data current
            (fun nd2 => { nd2 with right_sibling := some x })
          let pn ← getE "merge: advance p" data2 x
          mergeLoop f data2 pn.right_sibling none x) =
          Except.ok (data.set current { cn with right_sibling := some x })
        rw [modifyE_of_get? _ hcur, okBind, getE_of_get? _ hgetb, okBind]
        have hrest_nd : rest.Nodup := (List.nodup_cons.mp hnd).2
        have hx_rest : x ∉ rest := (List.nodup_cons.mp hnd).1
        have hcur_rest : current ∉ rest := fun hc => hmem (List.mem_cons_of_mem _ hc)
        have hch_b : IsChainF BHNode.right_sibling
            (data.set current { cn with right_sibling := some x })
            nd.right_sibling rest := chainF_set_outside hrest hcur_rest _
        rw [ih hch_b hgetb hx_rest hrest_nd (by omega)]
        cases hrs : nd.right_sibling with
        | none => rfl
        | some pi =>
          show Except.ok ((data.set current { cn with right_sibling := some x }).set x
            { nd with right_sibling := some pi }) = _
          have hnd_eq : ({ nd with right_sibling := some pi } : BHNode) = nd := by
            rw [← hrs]
          rw [hnd_eq, set_same _ _ _ hgetb]

theorem mergeLoop_length : ∀ {fuel : Nat} {data : List BHNode} {p q : Option Nat}
    {cur : Nat} {data' : List BHNode},
    mergeLoop fuel data p q cur = Except.ok data' → data'.length = data.length := by
  intro fuel
  induction fuel with
  | zero => intro data p q cur data' h; exact Except.noConfusion h
  | succ f ih =>
    intro data p q cur data' h
    unfold mergeLoop at h
    split at h
    · cases h; rfl
    · obtain ⟨d1, hm, h⟩ := exceptBind_ok h
      obtain ⟨pn, hg, h⟩ := exceptBind_ok h
      rw [ih h, modifyE_ok_length hm]
    · obtain ⟨d1, hm, h⟩ := exceptBind_ok h
      obtain ⟨qn, hg, h⟩ := exceptBind_ok h
      rw [ih h, modifyE_ok_length hm]
    · obtain ⟨pn0, h1, h⟩ := exceptBind_ok h
      obtain ⟨qn0, h2, h⟩ := exceptBind_ok h
      split at h
      · obtain ⟨d1, hm, h⟩ := exceptBind_ok h
        obtain ⟨pn, hg, h⟩ := exceptBind_ok h
        rw [ih h, modifyE_ok_length hm]
      · obtain ⟨d1, hm, h⟩ := exceptBind_ok h
        obtain ⟨qn, hg, h⟩ := exceptBind_ok h
        rw [ih h, modifyE_ok_length hm]

theorem getS_some (msg : String) {α : Type} (l : List α) (k : Nat) :
    getS msg l (some k) = getE msg l k := rfl

/-- `merge` with a singleton degree-0 list (the insertion path): the
fresh node is spliced in front of the existing root list and becomes
the new head; no other node changes. -/
theorem merge_singleton {h : BHeap} {h0 n : Nat} {obj : BHNode} {rl : List Nat}
    (hh : h.head_ = some h0)
    (hch : IsChainF BHNode.right_sibling h.data_ (some h0) rl)
    (hnd : rl.Nodup)
    (hobj : h.data_.get? n = some obj)
    (hdeg : obj.degree = 0)
    (hrs : obj.right_sibling = none)
    (hnotin : n ∉ rl) :
    merge h (some n) = Except.ok
      { h with data_ := h.data_.set n { obj with right_sibling := some h0 },
               head_ := some n } := by
  have hinv : ∃ h0n rest, rl = h0 :: rest ∧ h.data_.get? h0 = some h0n := by
    cases hch with | cons nd hget hrest => exact ⟨nd, _, rfl, hget⟩
  obtain ⟨h0n, rest, hrleq, hh0n⟩ := hinv
  have hL : n < h.data_.length := (List.get?_eq_some.mp hobj).1
  have hh0lt : h0 < h.data_.length := (List.get?_eq_some.mp hh0n).1
  have hp2 : (h.data_ ++ [BHNode.mk0]).get? h0 = some h0n := by
    rw [List.get?_append hh0lt]; exact hh0n
  have hq2 : (h.data_ ++ [BHNode.mk0]).get? n = some obj := by
    rw [List.get?_append hL]; exact hobj
  have hsent : (h.data_ ++ [BHNode.mk0]).get? h.data_.length = some BHNode.mk0 :=
    List.get?_concat_length _ _
  have hq3 : ((h.data_ ++ [BHNode.mk0]).set h.data_.length
      { BHNode.mk0 with right_sibling := some n }).get? n = some obj := by
    rw [List.get?_set_ne _ _ (Nat.ne_of_lt hL).symm]
    exact hq2
  have hchain2 : IsChainF BHNode.right_sibling
      ((h.data_ ++ [BHNode.mk0]).set h.data_.length
        { BHNode.mk0 with right_sibling := some n }) (some h0) rl := by
    refine chainF_set_outside (chainF_append hch _) ?_ _
    intro hm
    exact absurd (chainF_mem_lt hch _ hm) (Nat.lt_irrefl _)
  have hrll : rl.length ≤ h.data_.length :=
    nodup_lt_length hnd (chainF_mem_lt hch)
  have hdrain : mergeLoop (2 * h.data_.length + 3)
      ((h.data_ ++ [BHNode.mk0]).set h.data_.length
        { BHNode.mk0 with right_sibling := some n }) (some h0) none n =
      Except.ok (((h.data_ ++ [BHNode.mk0]).set h.data_.length
        { BHNode.mk0 with right_sibling := some n }).set n
        { obj with right_sibling := some h0 }) :=
    mergeLoop_drain hchain2 hq3 hnotin hnd (by omega)
  have hloop : mergeLoop (2 * h.data_.length + 3 + 1) (h.data_ ++ [BHNode.mk0])
      (some h0) (some n) h.data_.length =
      Except.ok (((h.data_ ++ [BHNode.mk0]).set h.data_.length
        { BHNode.mk0 with right_sibling := some n }).set n
        { obj with right_sibling := some h0 }) := by
    unfold mergeLoop
    show (do
      let pn0 ← getE "merge: node p degree" (h.data_ ++ [BHNode.mk0]) h0
      let qn0 ← getE "merge: node q degree" (h.data_ ++ [BHNode.mk0]) n
      if pn0.degree < qn0.degree then do
        let data2 ← modifyE "merge: current write p" (h.data_ ++ [BHNode.mk0])
          h.data_.length (fun nd => { nd with right_sibling := some h0 })
        let pn ← getE "merge: advance p" data2 h0
        mergeLoop (2 * h.data_.length + 3) data2 pn.right_sibling (some n) h0
      else do
        let data2 ← modifyE "merge: current write q" (h.data_ ++ [BHNode.mk0])
          h.data_.length (fun nd => { nd with right_sibling := some n })
        let qn ← getE "merge: advance q" data2 n
        mergeLoop (2 * h.data_.length + 3) data2 (some h0) qn.right_sibling n) = _
    rw [getE_of_get? _ hp2, okBind, getE_of_get? _ hq2, okBind,
      if_neg (show ¬ h0n.degree < obj.degree by rw [hdeg]; exact Nat.not_lt_zero _),
      modifyE_of_get? _ hsent, okBind, getE_of_get? _ hq3, okBind, hrs, hdrain]
  have hlen2 : (h.data_ ++ [BHNode.mk0]).length = h.data_.length + 1 := by
    simp
  have hfuel0 : 2 * (h.data_ ++ [BHNode.mk0]).length + 2 =
      2 * h.data_.length + 3 + 1 := by
    rw [hlen2]; omega
  have hset1 : (h.data_ ++ [BHNode.mk0]).set h.data_.length
      { BHNode.mk0 with right_sibling := some n } =
      h.data_ ++ [{ BHNode.mk0 with right_sibling := some n }] := by
    rw [List.set_append]
    simp
  have hset2 : (h.data_ ++ [{ BHNode.mk0 with right_sibling := some n }]).set n
      { obj with right_sibling := some h0 } =
      h.data_.set n { obj with right_sibling := some h0 } ++
        [{ BHNode.mk0 with right_sibling := some n }] :=
    List.set_append_left _ _ hL
  have hback : (h.data_.set n { obj with right_sibling := some h0 } ++
      [{ BHNode.mk0 with right_sibling := some n }]).get?
      ((h.data_.set n { obj with right_sibling := some h0 } ++
        [{ BHNode.mk0 with right_sibling := some n }]).length - 1) =
      some { BHNode.mk0 with right_sibling := some n } := by
    have : (h.data_.set n { obj with right_sibling := some h0 } ++
        [{ BHNode.mk0 with right_sibling := some n }]).length - 1 =
        (h.data_.set n { obj with right_sibling := some h0 }).length := by
      simp
    rw [this]
    exact List.get?_concat_length _ _
  unfold merge
  rw [hh]
  simp only []
  rw [getS_some, getE_of_get? _ hh0n, okBind, getS_some,
    getE_of_get? _ hobj, okBind, hfuel0, hloop, okBind, hset1, hset2,
    getE_of_get? _ hback, okBind]
  rw [List.dropLast_concat]

theorem degOf_eq {data : List BHNode} {i : Nat} {nd : BHNode}
    (h : data.get? i = some nd) : degOf data i = nd.degree := by
  unfold degOf
  rw [h]
  rfl

theorem itemOf_eq {data : List BHNode} {i : Nat} {nd : BHNode}
    (h : data.get? i = some nd) : itemOf data i = nd.item_index := by
  unfold itemOf
  rw [h]
  rfl

/-- Closed form of `binomial_link` when both nodes are in range and
distinct: `y` points up at `z` and into `z`'s old child list, `z`
gains `y` as first child and one degree. -/
theorem binomial_link_eq {data : List BHNode} {y z : Nat} {yn zn : BHNode}
    (hy : data.get? y = some yn) (hz : data.get? z = some zn) (hne : y ≠ z) :
    binomial_link data y z = Except.ok
      ((data.set y { yn with parent := some z, right_sibling := zn.child }).set z
        { zn with child := some y, degree := zn.degree + 1 }) := by
  have hz1 : (data.set y { yn with parent := some z }).get? z = some zn := by
    rw [List.get?_set_ne _ _ hne]; exact hz
  have hy1 : (data.set y { yn with parent := some z }).get? y =
      some { yn with parent := some z } := by
    rw [List.get?_set_eq_of_lt _ (List.get?_eq_some.mp hy).1]
  have hz2 : (data.set y
      { yn with parent := some z, right_sibling := zn.child }).get? z = some zn := by
    rw [List.get?_set_ne _ _ hne]; exact hz
  have hz3 : ((data.set y { yn with parent := some z, right_sibling := zn.child }).set z
      { zn with child := some y }).get? z = some { zn with child := some y } := by
    rw [List.get?_set_eq_of_lt]
    rw [List.length_set]
    exact (List.get?_eq_some.mp hz).1
  unfold binomial_link
  rw [modifyE_of_get? _ hy, okBind, getE_of_get? _ hz1, okBind,
    modifyE_of_get? _ hy1, okBind, List.set_set, modifyE_of_get? _ hz2, okBind,
    modifyE_of_get? _ hz3, List.set_set]

theorem unionDefer_ne {data : List BHNode} {xn nxn : BHNode}
    (h : xn.degree ≠ nxn.degree) : unionDefer data xn nxn = Except.ok true := by
  unfold unionDefer
  rw [if_pos h]
  rfl

theorem unionDefer_eq_none {data : List BHNode} {xn nxn : BHNode}
    (h : xn.degree = nxn.degree) (hrs : nxn.right_sibling = none) :
    unionDefer data xn nxn = Except.ok false := by
  unfold unionDefer
  rw [if_neg (by simpa using h), hrs]
  rfl

theorem unionDefer_eq_some {data : List BHNode} {xn nxn : BHNode} {nnx : Nat}
    {nnxn : BHNode} (h : xn.degree = nxn.degree)
    (hrs : nxn.right_sibling = some nnx) (hg : data.get? nnx = some nnxn)
    (hne : nnxn.degree ≠ xn.degree) :
    unionDefer data xn nxn = Except.ok false := by
  unfold unionDefer
  rw [if_neg (by simpa using h), hrs]
  show (do
    let nnxn2 ← getE "union: node after next" data nnx
    pure (decide (nnxn2.degree = xn.degree))) = _
  rw [getE_of_get? _ hg, okBind]
  rw [decide_eq_false hne]
  rfl

theorem unionPrevFix_none (data : List BHNode) (head : Option Nat) (nx : Nat) :
    unionPrevFix data head none nx = Except.ok (data, some nx) := rfl

/-- One consolidation step in which the root `x` absorbs `next_x` as a
new child (the comparator favours `x`). -/
theorem unionLoop_step_xwins {fuel : Nat} {elements : List Val}
    {data : List BHNode} {head : Option Nat} {x nx : Nat} {prev : Option Nat}
    {xn nxn : BHNode} {xv nxv : Val}
    (hx : data.get? x = some xn) (hnx : data.get? nx = some nxn) (hne : x ≠ nx)
    (hdef : unionDefer data xn nxn = Except.ok false)
    (hxv : elements.get? xn.item_index = some xv)
    (hnxv : elements.get? nxn.item_index = some nxv)
    (hcmp : compare_ xv nxv = true) :
    unionLoop (fuel+1) elements data head x (some nx) prev =
      unionLoop fuel elements
        ((data.set x
            { xn with right_sibling := nxn.right_sibling, child := some nx, degree := xn.degree + 1 }).set nx
          { nxn with parent := some x, right_sibling := xn.child })
        head x nxn.right_sibling prev := by
  have hxb : (data.set x { xn with right_sibling := nxn.right_sibling }).get? x =
      some { xn with right_sibling := nxn.right_sibling } :=
    List.get?_set_eq_of_lt _ (List.get?_eq_some.mp hx).1
  have hnxb : (data.set x { xn with right_sibling := nxn.right_sibling }).get? nx =
      some nxn := by
    rw [List.get?_set_ne _ _ hne]; exact hnx
  have hlink := binomial_link_eq hnxb hxb (fun hEq => hne hEq.symm)
  have hxfinal : ((data.set x
      { xn with right_sibling := nxn.right_sibling, child := some nx, degree := xn.degree + 1 }).set nx
      { nxn with parent := some x, right_sibling := xn.child }).get? x =
      some { xn with right_sibling := nxn.right_sibling, child := some nx, degree := xn.degree + 1 } := by
    rw [List.get?_set_ne _ _ (fun hEq => hne hEq.symm)]
    rw [List.get?_set_eq_of_lt]
    exact (List.get?_eq_some.mp hx).1
  show (do
    let xn2 ← getE "union: node x" data x
    let nxn2 ← getE "union: node next" data nx
    let deferStep ← unionDefer data xn2 nxn2
    if deferStep then unionLoop fuel elements data head nx nxn2.right_sibling (some x)
    else do
      let xv2 ← getE "union: value of x" elements xn2.item_index
      let nxv2 ← getE "union: value of next" elements nxn2.item_index
      if compare_ xv2 nxv2 then do
        let data2 ← modifyE "union: sibling bypass" data x
          (fun nd => { nd with right_sibling := nxn2.right_sibling })
        let data3 ← binomial_link data2 nx x
        let xn3 ← getE "union: reread x" data3 x
        unionLoop fuel elements data3 head x xn3.right_sibling prev
      else do
        let pr ← unionPrevFix data head prev nx
        let data3 ← binomial_link pr.1 x nx
        let xn3 ← getE "union: reread next" data3 nx
        unionLoop fuel elements data3 pr.2 nx xn3.right_sibling prev) = _
  rw [getE_of_get? _ hx, okBind, getE_of_get? _ hnx, okBind, hdef, okBind,
    if_neg (by simp : ¬ (false = true)), getE_of_get? _ hxv, okBind,
    getE_of_get? _ hnxv, okBind, hcmp, if_pos rfl, modifyE_of_get? _ hx, okBind,
    hlink, okBind, List.set_comm _ _ _ (fun hEq => hne hEq.symm), List.set_set,
    getE_of_get? _ hxfinal, okBind]

/-- One consolidation step in which `next_x` absorbs the list head `x`
(the comparator favours `next_x`, and `prev_x` is still the sentinel,
so `head_` moves to `next_x`). -/
theorem unionLoop_step_nxwins {fuel : Nat} {elements : List Val}
    {data : List BHNode} {head : Option Nat} {x nx : Nat}
    {xn nxn : BHNode} {xv nxv : Val}
    (hx : data.get? x = some xn) (hnx : data.get? nx = some nxn) (hne : x ≠ nx)
    (hdef : unionDefer data xn nxn = Except.ok false)
    (hxv : elements.get? xn.item_index = some xv)
    (hnxv : elements.get? nxn.item_index = some nxv)
    (hcmp : compare_ xv nxv = false) :
    unionLoop (fuel+1) elements data head x (some nx) none =
      unionLoop fuel elements
        ((data.set x { xn with parent := some nx, right_sibling := nxn.child }).set nx
          { nxn with child := some x, degree := nxn.degree + 1 })
        (some nx) nx nxn.right_sibling none := by
  have hlink := binomial_link_eq hx hnx hne
  have hnxfinal : ((data.set x { xn with parent := some nx, right_sibling := nxn.child }).set nx
      { nxn with child := some x, degree := nxn.degree + 1 }).get? nx =
      some { nxn with child := some x, degree := nxn.degree + 1 } := by
    rw [List.get?_set_eq_of_lt]
    rw [List.length_set]
    exact (List.get?_eq_some.mp hnx).1
  show (do
    let xn2 ← getE "union: node x" data x
    let nxn2 ← getE "union: node next" data nx
    let deferStep ← unionDefer data xn2 nxn2
    if deferStep then unionLoop fuel elements data head nx nxn2.right_sibling (some x)
    else do
      let xv2 ← getE "union: value of x" elements xn2.item_index
      let nxv2 ← getE "union: value of next" elements nxn2.item_index
      if compare_ xv2 nxv2 then do
        let data2 ← modifyE "union: sibling bypass" data x
          (fun nd => { nd with right_sibling := nxn2.right_sibling })
        let data3 ← binomial_link data2 nx x
        let xn3 ← getE "union: reread x" data3 x
        unionLoop fuel elements data3 head x xn3.right_sibling none
      else do
        let pr ← unionPrevFix data head none nx
        let data3 ← binomial_link pr.1 x nx
        let xn3 ← getE "union: reread next" data3 nx
        unionLoop fuel elements data3 pr.2 nx xn3.right_sibling none) = _
  rw [getE_of_get? _ hx, okBind, getE_of_get? _ hnx, okBind, hdef, okBind,
    if_neg (by simp : ¬ (false = true)), getE_of_get? _ hxv, okBind,
    getE_of_get? _ hnxv, okBind, hcmp,
    if_neg (by simp : ¬ (false = true)), unionPrevFix_none, okBind]
  show (do
    let data3 ← binomial_link data x nx
    let xn3 ← getE "union: reread next" data3 nx
    unionLoop fuel elements data3 (some nx) nx xn3.right_sibling none) = _
  rw [hlink, okBind, getE_of_get? _ hnxfinal, okBind]

/-- `merge` only rewrites node links and the root head: the value
store, top reference, handle index and node-array length survive. -/
theorem merge_ok_shape {h : BHeap} {idx : Option Nat} {h' : BHeap}
    (H : merge h idx = Except.ok h') :
    h'.elements_ = h.elements_ ∧ h'.top_ = h.top_ ∧
      h'.index_array = h.index_array ∧ h'.data_.length = h.data_.length := by
  unfold merge at H
  obtain ⟨pn, h1, H⟩ := exceptBind_ok H
  obtain ⟨qn, h2, H⟩ := exceptBind_ok H
  obtain ⟨data1, h3, H⟩ := exceptBind_ok H
  obtain ⟨last, h4, H⟩ := exceptBind_ok H
  cases H
  refine ⟨rfl, rfl, rfl, ?_⟩
  have hl := mergeLoop_length h3
  simp only [BHeap.mk.injEq, List.length_dropLast, hl, List.length_append,
    List.length_singleton]
  omega

theorem unionPrevFix_length {data : List BHNode} {head px : Option Nat} {nx : Nat}
    {pr : List BHNode × Option Nat}
    (h : unionPrevFix data head px nx = Except.ok pr) : pr.1.length = data.length := by
  unfold unionPrevFix at h
  split at h
  · cases h; rfl
  · obtain ⟨d, hm, h⟩ := exceptBind_ok h
    cases h
    exact modifyE_ok_length hm

theorem unionLoop_length : ∀ {fuel : Nat} {elems : List Val} {data : List BHNode}
    {head : Option Nat} {x : Nat} {nx px : Option Nat}
    {pr : List BHNode × Option Nat},
    unionLoop fuel elems data head x nx px = Except.ok pr →
      pr.1.length = data.length := by
  intro fuel
  induction fuel with
  | zero => intro _ _ _ _ _ _ _ h; exact Except.noConfusion h
  | succ f ih =>
    intro elems data head x nx px pr h
    unfold unionLoop at h
    split at h
    · cases h; rfl
    · obtain ⟨xn, h1, h⟩ := exceptBind_ok h
      obtain ⟨nxn, h2, h⟩ := exceptBind_ok h
      obtain ⟨deferStep, h3, h⟩ := exceptBind_ok h
      split at h
      · exact ih h
      · obtain ⟨xv, h4, h⟩ := exceptBind_ok h
        obtain ⟨nxv, h5, h⟩ := exceptBind_ok h
        split at h
        · obtain ⟨d1, hm, h⟩ := exceptBind_ok h
          obtain ⟨d2, hl, h⟩ := exceptBind_ok h
          obtain ⟨xn2, h6, h⟩ := exceptBind_ok h
          rw [ih h, binomial_link_length hl, modifyE_ok_length hm]
        · obtain ⟨pf, hp, h⟩ := exceptBind_ok h
          obtain ⟨d3, hl3, h⟩ := exceptBind_ok h
          obtain ⟨xn3, h7, h⟩ := exceptBind_ok h
          rw [ih h, binomial_link_length hl3, unionPrevFix_length hp]

/-- `binomial_heap_union` only relinks nodes: the value store, top
reference, handle index and node-array length survive. -/
theorem union_ok_shape {h : BHeap} {idx : Option Nat} {h' : BHeap}
    (H : binomial_heap_union h idx = Except.ok h') :
    h'.elements_ = h.elements_ ∧ h'.top_ = h.top_ ∧
      h'.index_array = h.index_array ∧ h'.data_.length = h.data_.length := by
  unfold binomial_heap_union at H
  obtain ⟨h1, Hm, H⟩ := exceptBind_ok H
  have shape1 := merge_ok_shape Hm
  split at H
  · exact Except.noConfusion H
  · obtain ⟨hn, Hg, H⟩ := exceptBind_ok H
    split at H
    · cases H; exact shape1
    · obtain ⟨pr, Hu, H⟩ := exceptBind_ok H
      obtain ⟨data2, head2⟩ := pr
      cases H
      exact ⟨shape1.1, shape1.2.1, shape1.2.2.1, by
        simpa [unionLoop_length Hu] using shape1.2.2.2⟩

/-- The tail of `push` keeps the store it was handed. -/
theorem pushFinish_elements {h1 : BHeap} {index : Nat} {h' : BHeap}
    (H : pushFinish h1 index = Except.ok h') : h'.elements_ = h1.elements_ := by
  unfold pushFinish at H
  split at H
  · cases H; rfl
  · obtain ⟨h2, Hu, H⟩ := exceptBind_ok H
    obtain ⟨xn, _, H⟩ := exceptBind_ok H
    obtain ⟨xv, _, H⟩ := exceptBind_ok H
    obtain ⟨tn, _, H⟩ := exceptBind_ok H
    obtain ⟨tv, _, H⟩ := exceptBind_ok H
    cases H
    have sh := union_ok_shape Hu
    split
    · exact sh.1
    · exact sh.1

/-- A successful `push` appends exactly the new value to the value
store. -/
theorem push_ok_elements {h : BHeap} {d : Val} {h' : BHeap}
    (H : push h d = Except.ok h') : h'.elements_ = h.elements_ ++ [d] := by
  unfold push at H
  obtain ⟨ia, Hs, H⟩ := exceptBind_ok H
  exact pushFinish_elements H

theorem updateLoop_lengths : ∀ {fuel : Nat} {d : Val} {elems : List Val}
    {ia : List Nat} {data : List BHNode} {index : Nat} {parent : Option Nat}
    {tr : List Val × List Nat × Nat},
    updateLoop fuel d elems ia data index parent = Except.ok tr →
      tr.1.length = elems.length ∧ tr.2.1.length = ia.length := by
  intro fuel
  induction fuel with
  | zero => intro _ _ _ _ _ _ _ h; exact Except.noConfusion h
  | succ f ih =>
    intro d elems ia data index parent tr h
    unfold updateLoop at h
    split at h
    · cases h; exact ⟨rfl, rfl⟩
    · obtain ⟨pn, h1, h⟩ := exceptBind_ok h
      obtain ⟨pv, h2, h⟩ := exceptBind_ok h
      split at h
      · obtain ⟨xn, h3, h⟩ := exceptBind_ok h
        obtain ⟨e1, he1, h⟩ := exceptBind_ok h
        obtain ⟨e2, he2, h⟩ := exceptBind_ok h
        obtain ⟨dv, h4, h⟩ := exceptBind_ok h
        obtain ⟨ia1, hia, h⟩ := exceptBind_ok h
        obtain ⟨hl1, hl2⟩ := ih h
        exact ⟨by rw [hl1, setE_ok_length he2, setE_ok_length he1],
          by rw [hl2, setE_ok_length hia]⟩
      · cases h; exact ⟨rfl, rfl⟩

/-- A successful `update` does not change the number of stored
values. -/
theorem update_ok_size {h : BHeap} {d : Val} {h' : BHeap}
    (H : update h d = Except.ok h') : h'.elements_.length = h.elements_.length := by
  unfold update at H
  obtain ⟨index, h1, H⟩ := exceptBind_ok H
  obtain ⟨nd, h2, H⟩ := exceptBind_ok H
  obtain ⟨e0, he0, H⟩ := exceptBind_ok H
  obtain ⟨tr, hloop, H⟩ := exceptBind_ok H
  obtain ⟨ia2, hia2, H⟩ := exceptBind_ok H
  obtain ⟨tn, h3, H⟩ := exceptBind_ok H
  obtain ⟨tv, h4, H⟩ := exceptBind_ok H
  cases H
  have hl := (updateLoop_lengths hloop).1
  have hl0 := setE_ok_length he0
  split
  · simpa [hl0] using hl
  · simpa [hl0] using hl

/-- The root-list surgery of `pop` never touches the value store. -/
theorem popRelink_elements {h : BHeap} {hd tp : Nat} {data : List BHNode}
    {nh : Option Nat} {h1 : BHeap}
    (H : popRelink h hd tp data nh = Except.ok h1) : h1.elements_ = h.elements_ := by
  unfold popRelink at H
  obtain ⟨hn, h3, H⟩ := exceptBind_ok H
  split at H
  · cases H; rfl
  · split at H
    · exact (union_ok_shape H).1
    · obtain ⟨pred, h5, H⟩ := exceptBind_ok H
      obtain ⟨tn2, h6, H⟩ := exceptBind_ok H
      obtain ⟨data2, h7, H⟩ := exceptBind_ok H
      exact (union_ok_shape H).1

/-- The swap-with-last compaction removes exactly one value slot. -/
theorem popCompact_size {h1 : BHeap} {temp : Nat} {h' : BHeap}
    (H : popCompact h1 temp = Except.ok h') :
    h'.elements_.length + 1 = h1.elements_.length := by
  unfold popCompact at H
  obtain ⟨lastVal, h10, H⟩ := exceptBind_ok H
  obtain ⟨index, h11, H⟩ := exceptBind_ok H
  obtain ⟨elements, h12, H⟩ := exceptBind_ok H
  obtain ⟨data3, h13, H⟩ := exceptBind_ok H
  obtain ⟨data4, h14, H⟩ := exceptBind_ok H
  cases H
  have hlt := getE_ok_lt h10
  have hse := setE_ok_length h12
  simp only [List.length_dropLast, hse]
  omega

/-- A successful `pop` on a state with a non-empty forest removes
exactly one stored value. -/
theorem pop_ok_size {h : BHeap} {h' : BHeap} {hd : Nat} (hh : h.head_ = some hd)
    (H : pop h = Except.ok h') : h'.elements_.length + 1 = h.elements_.length := by
  unfold pop at H
  cases ht : h.top_ with
  | none =>
    rw [hh, ht] at H
    exact Except.noConfusion H
  | some tp =>
    rw [hh, ht] at H
    obtain ⟨tn, h1, H⟩ := exceptBind_ok H
    obtain ⟨pr, h2, H⟩ := exceptBind_ok H
    obtain ⟨h1s, h4, H⟩ := exceptBind_ok H
    obtain ⟨newtop, h9, H⟩ := exceptBind_ok H
    have hel1 : h1s.elements_ = h.elements_ := popRelink_elements h4
    have hc0 := popCompact_size H
    have hc : h'.elements_.length + 1 = h1s.elements_.length := hc0
    have hlen : h1s.elements_.length = h.elements_.length := by rw [hel1]
    omega

/-- Claim C8 counterexample: for the sequence `push 4; push 6; pop;
pop` (k = 2 insertions, j = 2 extractions, both extractions on
non-empty states as the intermediate sizes 2 and 1 show), `size()`
does not end at `k - j = 0`: the second extraction performs an
out-of-bounds value-store write, so the run has no final state at
all. -/
theorem C8_size_trace_fails :
    ((runOps (mkHeap 8) [Op.pushOp ⟨0, 4⟩, Op.pushOp ⟨1, 6⟩]).map size =
      Except.ok 2) ∧
    ((runOps (mkHeap 8) [Op.pushOp ⟨0, 4⟩, Op.pushOp ⟨1, 6⟩, Op.popOp]).map size =
      Except.ok 1) ∧
    ((runOps (mkHeap 8) [Op.pushOp ⟨0, 4⟩, Op.pushOp ⟨1, 6⟩, Op.popOp,
        Op.popOp]).map size =
      Except.error "pop: value store write") := by
  exact ⟨by rfl, by rfl, by rfl⟩

/-- Claim C8 as amended: whenever a run of operations completes with
no out-of-bounds access and every extraction is invoked on a state
with a non-empty forest, the final `size()` satisfies
`size + #pops = initial size + #pushes` (so `k - j` from an empty
start), and `empty()` is true exactly when `size()` is `0`. -/
theorem C8_amended_size_accounting :
    (∀ (ops : List Op) (h h' : BHeap), popsSeeNonempty h ops = true →
      runOps h ops = Except.ok h' →
      size h' + countPop ops = size h + countPush ops) ∧
    (∀ h : BHeap, empty h = true ↔ size h = 0) := by
  constructor
  · intro ops
    induction ops with
    | nil =>
      intro h h' _ hr
      cases hr
      simp [countPop, countPush]
    | cons op rest ih =>
      intro h h' hps hr
      unfold runOps at hr
      obtain ⟨h1, hstep, hrest⟩ := exceptBind_ok hr
      unfold popsSeeNonempty at hps
      rw [hstep, Bool.and_eq_true] at hps
      obtain ⟨hps1, hps2⟩ := hps
      have ihrec := ih h1 h' hps2 hrest
      cases op with
      | pushOp v =>
        have : h1.elements_.length = h.elements_.length + 1 := by
          rw [push_ok_elements hstep]; simp
        simp only [countPop, countPush, size] at *
        omega
      | popOp =>
        obtain ⟨hd, hhd⟩ := Option.isSome_iff_exists.mp hps1
        have := pop_ok_size hhd hstep
        simp only [countPop, countPush, size] at *
        omega
      | updateOp v =>
        have := update_ok_size hstep
        simp only [countPop, countPush, size] at *
        omega
  · intro h
    unfold empty size
    simp

/-- Witness for `C8_amended_size_accounting`: a push then a pop from
an empty heap of capacity 1 ends at size `0 = 1 - 1`. -/
theorem C8_amended_size_accounting_witness :
    ∃ h' : BHeap, runOps (mkHeap 1) [Op.pushOp ⟨0, 1⟩, Op.popOp] = Except.ok h' ∧
      size h' + countPop [Op.pushOp ⟨0, 1⟩, Op.popOp] =
        size (mkHeap 1) + countPush [Op.pushOp ⟨0, 1⟩, Op.popOp] ∧
      (empty (mkHeap 1) = true ↔ size (mkHeap 1) = 0) :=
  ⟨_, rfl, C8_amended_size_accounting.1 [Op.pushOp ⟨0, 1⟩, Op.popOp] (mkHeap 1) _
      (by rfl) rfl, C8_amended_size_accounting.2 (mkHeap 1)⟩

/-- The first effect of `push` is the unchecked handle-index write
`index_array[_id(d)] = index`; with the handle at or beyond the
capacity it is an out-of-bounds vector write. -/
theorem push_handle_oob (h : BHeap) (d : Val)
    (hge : h.index_array.length ≤ item_label d) :
    push h d = Except.error "push: handle index write" := by
  have hnl : ¬ item_label d < h.index_array.length := Nat.not_lt.mpr hge
  simp only [push, setE, if_neg hnl, errBind]

/-- The first effect of `update` is the unchecked handle-index read
`index_array[_id(d)]`; with the handle at or beyond the capacity it is
an out-of-bounds vector read. -/
theorem update_handle_oob (h : BHeap) (d : Val)
    (hge : h.index_array.length ≤ item_label d) :
    update h d = Except.error "update: handle lookup" := by
  have : h.index_array.get? (item_label d) = none := List.get?_eq_none.mpr hge
  simp only [update, getE, this, errBind]

/-- With the handle within capacity, `push` on a freshly constructed
empty heap succeeds. -/
theorem push_mkHeap_ok (n : Nat) (d : Val) (hlt : item_label d < n) :
    (push (mkHeap n) d).isOk = true := by
  have hlen : item_label d < (List.replicate n (0 : Nat)).length := by
    simpa using hlt
  simp only [push, mkHeap, setE, if_pos hlen, okBind, pushFinish]
  rfl

theorem modifyE_of_lt {α : Type} (msg : String) {l : List α} {i : Nat} (f : α → α)
    (hi : i < l.length) :
    modifyE msg l i f = Except.ok (l.set i (f (l.get ⟨i, hi⟩))) := by
  unfold modifyE
  rw [getE_of_get? _ (List.get?_eq_get hi), okBind, setE_of_lt _ _ hi]

/-- Claim C1 (code bug in `pop`'s compaction): the swap-with-last step
writes the last value into `elements_[temp]` where `temp = top_` is the
*node* index of the removed root, not the value slot
`data_[top_].item_index` it vacated.  On the run below the final `pop`
removes the top value `{id 1, key 5}` (slot 0, node 1): the code
self-overwrites slot 1 and truncates, so the heap ends up holding the
extracted value `{id 1, key 5}` while the live value `{id 2, key 8}`
is destroyed, and the surviving node's `item_index` dangles. -/
theorem C1_pop_compaction_misdirected :
    (runOps (mkHeap 16) [Op.pushOp ⟨0, 3⟩, Op.pushOp ⟨1, 5⟩, Op.popOp,
        Op.pushOp ⟨2, 8⟩, Op.popOp]).map BHeap.elements_ =
      Except.ok [⟨1, 5⟩] := by rfl

/-- Claim C2 (code bug): on the spec's concrete scenario
`[5, 3, 8, 1, 9, 2]` the extremal query returns key `1` and the first
extraction removes it (top becomes key `2`), but already the second
extraction performs an out-of-bounds value-store write (the compaction
bug of `pop`), so repeated extraction does not yield
`1, 2, 3, 5, 8, 9` and the heap is never emptied by six extractions. -/
theorem C2_heapsort_trace_fails :
    ((runOps (mkHeap 16) [Op.pushOp ⟨0, 5⟩, Op.pushOp ⟨1, 3⟩, Op.pushOp ⟨2, 8⟩,
        Op.pushOp ⟨3, 1⟩, Op.pushOp ⟨4, 9⟩, Op.pushOp ⟨5, 2⟩]).bind top =
      Except.ok ⟨3, 1⟩) ∧
    ((runOps (mkHeap 16) [Op.pushOp ⟨0, 5⟩, Op.pushOp ⟨1, 3⟩, Op.pushOp ⟨2, 8⟩,
        Op.pushOp ⟨3, 1⟩, Op.pushOp ⟨4, 9⟩, Op.pushOp ⟨5, 2⟩, Op.popOp]).bind top =
      Except.ok ⟨5, 2⟩) ∧
    (runOps (mkHeap 16) [Op.pushOp ⟨0, 5⟩, Op.pushOp ⟨1, 3⟩, Op.pushOp ⟨2, 8⟩,
        Op.pushOp ⟨3, 1⟩, Op.pushOp ⟨4, 9⟩, Op.pushOp ⟨5, 2⟩, Op.popOp,
        Op.popOp] =
      Except.error "pop: value store write") := by
  exact ⟨by rfl, by rfl, by rfl⟩

/-- Claim C3 (code bug): extraction of a childless top root from a
multi-root forest calls `binomial_heap_union` with the empty reversed
child list, and `merge` immediately evaluates
`std::min(data_[p].degree, data_[q].degree)` with `q == (size_t)-1`,
an out-of-bounds node-array read — so a union invocation arising from
extraction on a reachable well-formed state does perform an
out-of-bounds access. -/
theorem C3_union_sentinel_read :
    runOps (mkHeap 16) [Op.pushOp ⟨0, 5⟩, Op.pushOp ⟨1, 8⟩, Op.pushOp ⟨2, 3⟩,
        Op.popOp] =
      Except.error "merge: initial degree read q" := by rfl

/-- Claim C4 counterexample: extraction on an empty heap is *not*
reported as a caller-detectable failure — `pop` hits the
`if (head_ == -1) return;` early exit and silently returns the heap
unchanged, indistinguishable from a successful extraction. -/
theorem C4_empty_pop_silently_recovers :
    pop (mkHeap 4) = Except.ok (mkHeap 4) := by rfl

/-- Claim C4 as amended: on an empty heap (sentinel `head_` and
`top_`), extraction silently returns the unchanged heap with no
failure indication, and the extremal query evaluates
`elements_[data_[top_].item_index]` with `top_ == (size_t)-1`, an
out-of-bounds node-array read (undefined behaviour in C++, an error in
the embedding) rather than a valid result. -/
theorem C4_amended_empty_behavior (h : BHeap) (hh : h.head_ = none)
    (ht : h.top_ = none) :
    pop h = Except.ok h ∧ top h = Except.error "top: node read" := by
  constructor
  · simp [pop, hh]
  · simp only [top, getS, ht]
    rfl

/-- Witness for `C4_amended_empty_behavior` at the freshly constructed
empty heap. -/
theorem C4_amended_empty_behavior_witness :
    pop (mkHeap 0) = Except.ok (mkHeap 0) ∧
      top (mkHeap 0) = Except.error "top: node read" :=
  C4_amended_empty_behavior (mkHeap 0) rfl rfl

/-- Claim C9 counterexample: the state reached by
`push 3; push 5; pop` holds exactly one element, but its sole live
node sits at node index 1 with `item_index` 1 pointing into a value
store of size 1 after the earlier compaction; extracting this sole
element then performs an out-of-bounds value-store write
(`elements_[temp]` with `temp = 1`, size 1) instead of leaving an
empty heap with sentinel `head_` and `top_`. -/
theorem C9_singleton_pop_oob :
    ((runOps (mkHeap 8) [Op.pushOp ⟨0, 3⟩, Op.pushOp ⟨1, 5⟩, Op.popOp]).map size =
      Except.ok 1) ∧
    (runOps (mkHeap 8) [Op.pushOp ⟨0, 3⟩, Op.pushOp ⟨1, 5⟩, Op.popOp, Op.popOp] =
      Except.error "pop: value store write") := by
  exact ⟨by rfl, by rfl⟩

/-- Claim C9 as amended: on any heap holding exactly one value whose
sole live node is a childless, siblingless root stored at node index 0
(so the node index coincides with the one valid value slot) and whose
handle entry points into the node array, extraction succeeds and
leaves the value store empty and both the root-list head and the top
reference at the `none` sentinel.  (Without the index-0 proviso the
compaction writes out of bounds — see the counterexample.) -/
theorem C9_amended_singleton_pop (h : BHeap) (v : Val) (n0 : BHNode) (j : Nat)
    (he : h.elements_ = [v]) (hh : h.head_ = some 0) (ht : h.top_ = some 0)
    (hn : h.data_.get? 0 = some n0) (hc : n0.child = none)
    (hrs : n0.right_sibling = none) (hj : h.index_array.get? (item_label v) = some j)
    (hjlen : j < h.data_.length) :
    ∃ data', pop h = Except.ok
      { elements_ := [], data_ := data', head_ := none, top_ := none,
        index_array := h.index_array } := by
  have hlen0 : 0 < h.data_.length := (List.get?_eq_some.mp hn).1
  have e1 : getE "pop: top node" h.data_ 0 = Except.ok n0 := getE_of_get? _ hn
  have e1b : getE "pop: head node" h.data_ 0 = Except.ok n0 := getE_of_get? _ hn
  have e2 : popChildren h n0 = Except.ok (h.data_, (none : Option Nat)) := by
    unfold popChildren
    rw [hc]
    rfl
  have e3 : popRelink h 0 0 h.data_ none =
      Except.ok { elements_ := h.elements_, data_ := h.data_, head_ := none, top_ := some 0, index_array := h.index_array } := by
    unfold popRelink
    rw [e1b, okBind, hrs, ht]
    rfl
  have e5 : getE "pop: last value read" h.elements_ (h.elements_.length - 1) =
      Except.ok v := by
    rw [he]
    rfl
  have e6 : getE "pop: handle of last" h.index_array (item_label v) = Except.ok j :=
    getE_of_get? _ hj
  have e7 : setE "pop: value store write" h.elements_ 0 v =
      Except.ok (h.elements_.set 0 v) := by
    refine setE_of_lt _ _ ?_
    rw [he]
    exact Nat.zero_lt_one
  have e8 := modifyE_of_lt "pop: item index repair"
    (fun nd => { nd with item_index := 0 }) hjlen
  have hd3len : 0 <
      (h.data_.set j { h.data_.get ⟨j, hjlen⟩ with item_index := 0 }).length := by
    simpa using hlen0
  have e9 := modifyE_of_lt "pop: invalidate"
    (fun nd => { nd with parent := none, child := none, right_sibling := none, degree := 0 })
    hd3len
  have e4 : get_new_top { elements_ := h.elements_, data_ := h.data_, head_ := none, top_ := some 0, index_array := h.index_array } = Except.ok none := rfl
  have hdrop : (h.elements_.set 0 v).dropLast = [] := by rw [he]; rfl
  apply Exists.intro
  unfold pop
  simp only [hh, ht, e1, okBind, e2, e3, e4]
  unfold popCompact
  simp only [e5, okBind, e6, e7, e8, e9, hdrop]
  rfl

/-- Witness for `C9_amended_singleton_pop`: the one-element heap built
by a single push into a fresh capacity-1 heap. -/
theorem C9_amended_singleton_pop_witness :
    ∃ data',
      pop { elements_ := [⟨0, 5⟩],
            data_ := [{ item_index := 0, parent := none, child := none,
                        right_sibling := none, degree := 0 }],
            head_ := some 0, top_ := some 0, index_array := [0] } = Except.ok
        { elements_ := [], data_ := data', head_ := none, top_ := none,
          index_array := [0] } :=
  C9_amended_singleton_pop _ ⟨0, 5⟩
    { item_index := 0, parent := none, child := none, right_sibling := none,
      degree := 0 } 0 rfl rfl rfl rfl rfl rfl rfl (by decide)

/-- Claim C10: insertion and update index the handle array at
`_id(v)` with no bounds check, so the access is in bounds exactly when
the handle is below the constructed capacity: a fresh capacity-`n`
heap accepts an insertion iff the handle is `< n`, any handle at or
beyond the capacity makes insertion or update fail at the
handle-index access, and the default-constructed heap (capacity 0)
admits no handle at all. -/
theorem C10_handle_capacity_bound :
    (∀ (n : Nat) (d : Val), (push (mkHeap n) d).isOk = true ↔ item_label d < n) ∧
    (∀ (h : BHeap) (d : Val), h.index_array.length ≤ item_label d →
      push h d = Except.error "push: handle index write") ∧
    (∀ (h : BHeap) (d : Val), h.index_array.length ≤ item_label d →
      update h d = Except.error "update: handle lookup") ∧
    (∀ (gh gt : Option Nat) (d : Val),
      push (mkDefault gh gt) d = Except.error "push: handle index write") := by
  refine ⟨?_, push_handle_oob, update_handle_oob, ?_⟩
  · intro n d
    constructor
    · intro hok
      by_contra hge
      rw [push_handle_oob (mkHeap n) d (by simpa [mkHeap] using Nat.le_of_not_lt hge)] at hok
      simp [Except.isOk, Except.toBool] at hok
    · exact push_mkHeap_ok n d
  · intro gh gt d
    exact push_handle_oob _ d (by simp [mkDefault])

/-- Witness for `C10_handle_capacity_bound` at concrete inputs:
capacity 2 admits handle 1, capacity 0 (also the default constructor)
rejects handle 0. -/
theorem C10_handle_capacity_bound_witness :
    ((push (mkHeap 2) ⟨1, 7⟩).isOk = true ↔ (1 : Nat) < 2) ∧
    push (mkHeap 0) ⟨0, 7⟩ = Except.error "push: handle index write" ∧
    update (mkHeap 0) ⟨0, 7⟩ = Except.error "update: handle lookup" ∧
    push (mkDefault (some 3) (some 4)) ⟨0, 7⟩ =
      Except.error "push: handle index write" :=
  ⟨C10_handle_capacity_bound.1 2 ⟨1, 7⟩,
    C10_handle_capacity_bound.2.1 (mkHeap 0) ⟨0, 7⟩ (by simp [mkHeap]),
    C10_handle_capacity_bound.2.2.1 (mkHeap 0) ⟨0, 7⟩ (by simp [mkHeap]),
    C10_handle_capacity_bound.2.2.2 (some 3) (some 4) ⟨0, 7⟩⟩

/-- An empty chain starts at the sentinel. -/
theorem chainF_nil_inv {f : BHNode → Option Nat} {data : List BHNode}
    {o : Option Nat} (h : IsChainF f data o []) : o = none := by
  cases h
  rfl

/-- Inverting a nonempty chain. -/
theorem chainF_cons_inv {f : BHNode → Option Nat} {data : List BHNode}
    {o : Option Nat} {x : Nat} {rest : List Nat}
    (h : IsChainF f data o (x :: rest)) :
    o = some x ∧ ∃ nd, data.get? x = some nd ∧ IsChainF f data (f nd) rest := by
  cases h with
  | cons nd hget hrest => exact ⟨rfl, nd, hget, hrest⟩

/-- The consolidation scan stops as soon as `next_x` is the
sentinel. -/
theorem unionLoop_none (fuel : Nat) (elements : List Val) (data : List BHNode)
    (head : Option Nat) (x : Nat) (prev : Option Nat) :
    unionLoop (fuel+1) elements data head x none prev = Except.ok (data, head) := rfl

/-- One consolidation step in which the advance condition holds: the
cursors move one node to the right and nothing is written. -/
theorem unionLoop_step_defer {fuel : Nat} {elements : List Val}
    {data : List BHNode} {head : Option Nat} {x nx : Nat} {prev : Option Nat}
    {xn nxn : BHNode}
    (hx : data.get? x = some xn) (hnx : data.get? nx = some nxn)
    (hdef : unionDefer data xn nxn = Except.ok true) :
    unionLoop (fuel+1) elements data head x (some nx) prev =
      unionLoop fuel elements data head nx nxn.right_sibling (some x) := by
  show (do
    let xn2 ← getE "union: node x" data x
    let nxn2 ← getE "union: node next" data nx
    let deferStep ← unionDefer data xn2 nxn2
    if deferStep then unionLoop fuel elements data head nx nxn2.right_sibling (some x)
    else do
      let xv2 ← getE "union: value of x" elements xn2.item_index
      let nxv2 ← getE "union: value of next" elements nxn2.item_index
      if compare_ xv2 nxv2 then do
        let data2 ← modifyE "union: sibling bypass" data x
          (fun nd => { nd with right_sibling := nxn2.right_sibling })
        let data3 ← binomial_link data2 nx x
        let xn3 ← getE "union: reread x" data3 x
        unionLoop fuel elements data3 head x xn3.right_sibling prev
      else do
        let pr ← unionPrevFix data head prev nx
        let data3 ← binomial_link pr.1 x nx
        let xn3 ← getE "union: reread next" data3 nx
        unionLoop fuel elements data3 pr.2 nx xn3.right_sibling prev) = _
  rw [getE_of_get? _ hx, okBind, getE_of_get? _ hnx, okBind, hdef, okBind,
    if_pos rfl]

/-- When the degrees along the remainder of the root list strictly
increase, the consolidation scan only defers: it walks to the end of
the list and returns the node array and the head unchanged. -/
theorem unionWalk : ∀ {l : List Nat} {fuel : Nat} {elements : List Val}
    {data : List BHNode} {head : Option Nat} {x : Nat} {xn : BHNode}
    {prev : Option Nat},
    data.get? x = some xn →
    IsChainF BHNode.right_sibling data xn.right_sibling l →
    List.Chain' (· < ·) ((x :: l).map (degOf data)) →
    l.length + 1 ≤ fuel →
    unionLoop fuel elements data head x xn.right_sibling prev =
      Except.ok (data, head) := by
  intro l
  induction l with
  | nil =>
    intro fuel elements data head x xn prev hx hch hstrict hfuel
    have hrs := chainF_nil_inv hch
    rw [hrs]
    cases fuel with
    | zero => simp at hfuel
    | succ f => exact unionLoop_none f elements data head x prev
  | cons y l' ih =>
    intro fuel elements data head x xn prev hx hch hstrict hfuel
    obtain ⟨hrs, yn, hy, hch'⟩ := chainF_cons_inv hch
    cases fuel with
    | zero =>
      rw [List.length_cons] at hfuel
      omega
    | succ f =>
      rw [hrs]
      have hdeg : degOf data x < degOf data y := by
        have h2 := hstrict
        rw [List.map_cons, List.map_cons] at h2
        exact (List.chain'_cons.mp h2).1
      have hne : xn.degree ≠ yn.degree := by
        rw [degOf_eq hx, degOf_eq hy] at hdeg
        omega
      rw [unionLoop_step_defer hx hy (unionDefer_ne hne)]
      refine ih hy hch' ?_ ?_
      · have h2 := hstrict
        rw [List.map_cons] at h2
        exact h2.tail
      · rw [List.length_cons] at hfuel
        omega

/-- A chain from the sentinel is empty. -/
theorem chainF_none_inv {f : BHNode → Option Nat} {data : List BHNode}
    {l : List Nat} (h : IsChainF f data none l) : l = [] := by
  cases h
  rfl

/-- Double-update frame: reading away from both written slots. -/
theorem get?_set2_ne {α : Type} {data : List α} {a b i : Nat} (A B : α)
    (ha : a ≠ i) (hb : b ≠ i) :
    ((data.set a A).set b B).get? i = data.get? i := by
  rw [List.get?_set_ne _ _ hb, List.get?_set_ne _ _ ha]

/-- In-range indices have a stored element. -/
theorem get?_of_lt {α : Type} {l : List α} {i : Nat} (h : i < l.length) :
    ∃ a, l.get? i = some a := by
  cases hg : l.get? i with
  | none => exact absurd (List.get?_eq_none.mp hg) (Nat.not_le_of_lt h)
  | some a => exact ⟨a, rfl⟩

/-- The consolidation cascade of `binomial_heap_union` on the insert
path: the scan starts the root list at a root `x` whose degree is at
most the first degree of the strictly increasing remainder `l`; it
succeeds and returns a well-formed nonempty root list over a node
array of the same length with every `item_index` unchanged, and keeps
the binomial degree shape. -/
theorem unionCascade : ∀ {l : List Nat} {fuel : Nat} {elements : List Val}
    {data : List BHNode} {x : Nat} {xn : BHNode},
    data.get? x = some xn →
    IsChainF BHNode.right_sibling data xn.right_sibling l →
    List.Chain' (· < ·) (l.map (degOf data)) →
    (∀ y, l.head? = some y → xn.degree ≤ degOf data y) →
    (x :: l).Nodup →
    (∀ r ∈ x :: l, ∃ nd, data.get? r = some nd ∧ nd.parent = none) →
    ParentDeg data →
    (∀ i nd, data.get? i = some nd → nd.item_index < elements.length) →
    2 * l.length + 1 ≤ fuel →
    ∃ data' head' rl',
      unionLoop fuel elements data (some x) x xn.right_sibling none =
        Except.ok (data', head') ∧
      data'.length = data.length ∧
      (∀ i, itemOf data' i = itemOf data i) ∧
      ParentDeg data' ∧
      rl' ≠ [] ∧
      RootsWF data' head' rl' := by
  intro l
  induction l with
  | nil =>
    intro fuel elements data x xn hx hch hstrict hle hnd hroots hpd hitem hfuel
    have hrs := chainF_nil_inv hch
    cases fuel with
    | zero => simp at hfuel
    | succ f =>
      refine ⟨data, some x, [x], ?_, rfl, fun i => rfl, hpd,
        List.cons_ne_nil x [], ?_, ?_, hroots⟩
      · rw [hrs]
        exact unionLoop_none f elements data (some x) x none
      · refine IsChainF.cons xn hx ?_
        rw [hrs]
        exact IsChainF.nil
      · simp
  | cons l0 l' ih =>
    intro fuel elements data x xn hx hch hstrict hle hnd hroots hpd hitem hfuel
    obtain ⟨hrs, l0n, hl0, hchl'⟩ := chainF_cons_inv hch
    cases fuel with
    | zero =>
      rw [List.length_cons] at hfuel
      omega
    | succ f =>
      have hxlt : x < data.length := (List.get?_eq_some.mp hx).1
      have hl0lt : l0 < data.length := (List.get?_eq_some.mp hl0).1
      have hxnotl : x ∉ l0 :: l' := (List.nodup_cons.mp hnd).1
      have hndtail : (l0 :: l').Nodup := (List.nodup_cons.mp hnd).2
      have hxne : x ≠ l0 := fun hEq => hxnotl (hEq ▸ List.mem_cons_self _ _)
      have hxnotl' : x ∉ l' := fun hm => hxnotl (List.mem_cons_of_mem _ hm)
      have hl0notl' : l0 ∉ l' := (List.nodup_cons.mp hndtail).1
      have hdx_le : xn.degree ≤ degOf data l0 := hle l0 rfl
      rcases Nat.lt_or_ge xn.degree (degOf data l0) with hlt | hge
      · -- strictly smaller degree: the whole remainder strictly grows,
        -- the scan walks to the end and changes nothing
        have hstrict2 : List.Chain' (· < ·) ((x :: l0 :: l').map (degOf data)) := by
          rw [List.map_cons, List.map_cons]
          rw [List.map_cons] at hstrict
          exact List.Chain'.cons (by rw [degOf_eq hx]; exact hlt) hstrict
        refine ⟨data, some x, x :: l0 :: l', ?_, rfl, fun i => rfl, hpd,
          List.cons_ne_nil _ _, IsChainF.cons xn hx hch, hstrict2, hroots⟩
        refine unionWalk hx hch hstrict2 ?_
        rw [List.length_cons] at hfuel ⊢
        omega
      · -- equal degree (the chain forbids larger): link x with l0
        have hdeg_eq : xn.degree = l0n.degree := by
          rw [degOf_eq hl0] at hdx_le hge
          omega
        -- the advance condition is false
        have hdef : unionDefer data xn l0n = Except.ok false := by
          cases hl0rs : l0n.right_sibling with
          | none => exact unionDefer_eq_none hdeg_eq hl0rs
          | some l1 =>
            have hch1 : IsChainF BHNode.right_sibling data (some l1) l' := by
              rw [hl0rs] at hchl'
              exact hchl'
            cases l' with
            | nil => cases hch1
            | cons y l'' =>
              obtain ⟨hyeq, l1n, hl1, _⟩ := chainF_cons_inv hch1
              have hyl1 : y = l1 := Option.some.inj hyeq.symm
              have hdlt : degOf data l0 < degOf data y := by
                rw [List.map_cons, List.map_cons] at hstrict
                exact (List.chain'_cons.mp hstrict).1
              rw [hyl1] at hl1
              refine unionDefer_eq_some hdeg_eq hl0rs hl1 ?_
              rw [degOf_eq hl0, hyl1, degOf_eq hl1] at hdlt
              omega
        obtain ⟨xv, hxv⟩ := get?_of_lt (hitem x xn hx)
        obtain ⟨l0v, hl0v⟩ := get?_of_lt (hitem l0 l0n hl0)
        have hl0parent : l0n.parent = none := by
          obtain ⟨nd, hget, hp⟩ := hroots l0 (List.mem_cons_of_mem _ (List.mem_cons_self _ _))
          rw [hl0] at hget
          rw [← Option.some.inj hget] at hp
          exact hp
        have hxparent : xn.parent = none := by
          obtain ⟨nd, hget, hp⟩ := hroots x (List.mem_cons_self _ _)
          rw [hx] at hget
          rw [← Option.some.inj hget] at hp
          exact hp
        rw [List.length_cons] at hfuel
        cases hcmp : compare_ xv l0v with
        | true =>
          -- x absorbs l0 and keeps its place at the head
          rw [hrs, unionLoop_step_xwins hx hl0 hxne hdef hxv hl0v hcmp]

          have hgx : ((data.set x { xn with right_sibling := l0n.right_sibling, child := some l0, degree := xn.degree + 1 }).set l0 { l0n with parent := some x, right_sibling := xn.child }).get? x = some { xn with right_sibling := l0n.right_sibling, child := some l0, degree := xn.degree + 1 } := by
            rw [List.get?_set_ne _ _ (fun hEq => hxne hEq.symm)]
            exact List.get?_set_eq_of_lt _ hxlt
          have hgl0 : ((data.set x { xn with right_sibling := l0n.right_sibling, child := some l0, degree := xn.degree + 1 }).set l0 { l0n with parent := some x, right_sibling := xn.child }).get? l0 = some { l0n with parent := some x, right_sibling := xn.child } :=
            List.get?_set_eq_of_lt _ (by rw [List.length_set]; exact hl0lt)
          have hfr : ∀ i, x ≠ i → l0 ≠ i → ((data.set x { xn with right_sibling := l0n.right_sibling, child := some l0, degree := xn.degree + 1 }).set l0 { l0n with parent := some x, right_sibling := xn.child }).get? i = data.get? i :=
            fun i h1 h2 => get?_set2_ne _ _ h1 h2
          have hch2 : IsChainF BHNode.right_sibling ((data.set x { xn with right_sibling := l0n.right_sibling, child := some l0, degree := xn.degree + 1 }).set l0 { l0n with parent := some x, right_sibling := xn.child }) l0n.right_sibling l' :=
            chainF_frame hchl' (fun i hi =>
              hfr i (fun hEq => hxnotl' (hEq ▸ hi)) (fun hEq => hl0notl' (hEq ▸ hi)))
          have hmapeq : l'.map (degOf ((data.set x { xn with right_sibling := l0n.right_sibling, child := some l0, degree := xn.degree + 1 }).set l0 { l0n with parent := some x, right_sibling := xn.child })) = l'.map (degOf data) := by
            refine List.map_congr_left ?_
            intro a ha
            unfold degOf
            rw [hfr a (fun hEq => hxnotl' (hEq ▸ ha)) (fun hEq => hl0notl' (hEq ▸ ha))]
          have hstrict2 : List.Chain' (· < ·) (l'.map (degOf ((data.set x { xn with right_sibling := l0n.right_sibling, child := some l0, degree := xn.degree + 1 }).set l0 { l0n with parent := some x, right_sibling := xn.child }))) := by
            rw [hmapeq]
            rw [List.map_cons] at hstrict
            exact hstrict.tail
          have hle2 : ∀ y, l'.head? = some y → xn.degree + 1 ≤ degOf ((data.set x { xn with right_sibling := l0n.right_sibling, child := some l0, degree := xn.degree + 1 }).set l0 { l0n with parent := some x, right_sibling := xn.child }) y := by
            intro y hy
            cases l' with
            | nil => exact absurd hy (by simp)
            | cons l1 l'' =>
              have hyl1 : l1 = y := Option.some.inj hy
              have hdlt : degOf data l0 < degOf data l1 := by
                rw [List.map_cons, List.map_cons] at hstrict
                exact (List.chain'_cons.mp hstrict).1
              rw [← hyl1]
              unfold degOf
              rw [hfr l1 (fun hEq => hxnotl' (hEq ▸ List.mem_cons_self _ _))
                (fun hEq => hl0notl' (hEq ▸ List.mem_cons_self _ _))]
              rw [degOf_eq hl0] at hdlt
              unfold degOf at hdlt
              omega
          have hnd2 : (x :: l').Nodup :=
            List.Nodup.sublist (List.Sublist.cons₂ _ (List.sublist_cons_self _ _)) hnd
          have hroots2 : ∀ r ∈ x :: l', ∃ nd, ((data.set x { xn with right_sibling := l0n.right_sibling, child := some l0, degree := xn.degree + 1 }).set l0 { l0n with parent := some x, right_sibling := xn.child }).get? r = some nd ∧ nd.parent = none := by
            intro r hr
            rcases List.mem_cons.mp hr with rfl | hr'
            · exact ⟨_, hgx, hxparent⟩
            · obtain ⟨nd, hget, hp⟩ := hroots r
                (List.mem_cons_of_mem _ (List.mem_cons_of_mem _ hr'))
              refine ⟨nd, ?_, hp⟩
              rw [hfr r (fun hEq => hxnotl' (hEq ▸ hr'))
                (fun hEq => hl0notl' (hEq ▸ hr'))]
              exact hget
          have hpd2 : ParentDeg ((data.set x { xn with right_sibling := l0n.right_sibling, child := some l0, degree := xn.degree + 1 }).set l0 { l0n with parent := some x, right_sibling := xn.child }) := by
            intro i nd hget p hpar
            by_cases hil0 : i = l0
            · subst hil0
              rw [hgl0] at hget
              rw [← Option.some.inj hget] at hpar
              have hpar2 : some x = some p := hpar
              rw [← Option.some.inj hpar2]
              refine ⟨_, hgx, ?_⟩
              rw [← Option.some.inj hget]
              show l0n.degree < xn.degree + 1
              omega
            · by_cases hix : i = x
              · subst hix
                rw [hgx] at hget
                rw [← Option.some.inj hget] at hpar
                have hpar2 : xn.parent = some p := hpar
                rw [hxparent] at hpar2
                exact Option.noConfusion hpar2
              · rw [hfr i (fun hEq => hix hEq.symm) (fun hEq => hil0 hEq.symm)] at hget
                obtain ⟨pn0, hp0, hdlt0⟩ := hpd i nd hget p hpar
                by_cases hpl0 : p = l0
                · subst hpl0
                  rw [hl0] at hp0
                  refine ⟨_, hgl0, ?_⟩
                  show nd.degree < l0n.degree
                  rw [Option.some.inj hp0]
                  exact hdlt0
                · by_cases hpx : p = x
                  · subst hpx
                    rw [hx] at hp0
                    refine ⟨_, hgx, ?_⟩
                    show nd.degree < xn.degree + 1
                    rw [← Option.some.inj hp0] at hdlt0
                    omega
                  · refine ⟨pn0, ?_, hdlt0⟩
                    rw [hfr p (fun hEq => hpx hEq.symm) (fun hEq => hpl0 hEq.symm)]
                    exact hp0
          have hitem2 : ∀ i nd, ((data.set x { xn with right_sibling := l0n.right_sibling, child := some l0, degree := xn.degree + 1 }).set l0 { l0n with parent := some x, right_sibling := xn.child }).get? i = some nd → nd.item_index < elements.length := by
            intro i nd hget
            by_cases hil0 : i = l0
            · rw [hil0, hgl0] at hget
              rw [← Option.some.inj hget]
              show l0n.item_index < elements.length
              exact hitem l0 l0n hl0
            · by_cases hix : i = x
              · rw [hix, hgx] at hget
                rw [← Option.some.inj hget]
                show xn.item_index < elements.length
                exact hitem x xn hx
              · rw [hfr i (fun hEq => hix hEq.symm) (fun hEq => hil0 hEq.symm)] at hget
                exact hitem i nd hget
          obtain ⟨data', head', rl', hrun, hlen, hitem', hpd', hrlne, hwf'⟩ :=
            ih hgx hch2 hstrict2 hle2 hnd2 hroots2 hpd2 hitem2
              (show 2 * l'.length + 1 ≤ f by omega)
          refine ⟨data', head', rl', hrun, ?_, ?_, hpd', hrlne, hwf'⟩
          · rw [hlen, List.length_set, List.length_set]
          · intro i
            rw [hitem' i]
            by_cases hil0 : i = l0
            · rw [hil0, itemOf_eq hgl0, itemOf_eq hl0]
            · by_cases hix : i = x
              · rw [hix, itemOf_eq hgx, itemOf_eq hx]
              · unfold itemOf
                rw [hfr i (fun hEq => hix hEq.symm) (fun hEq => hil0 hEq.symm)]
        | false =>
          -- l0 absorbs x and becomes the new head of the root list
          rw [hrs, unionLoop_step_nxwins hx hl0 hxne hdef hxv hl0v hcmp]

          have hgx : ((data.set x { xn with parent := some l0, right_sibling := l0n.child }).set l0 { l0n with child := some x, degree := l0n.degree + 1 }).get? x = some { xn with parent := some l0, right_sibling := l0n.child } := by
            rw [List.get?_set_ne _ _ (fun hEq => hxne hEq.symm)]
            exact List.get?_set_eq_of_lt _ hxlt
          have hgl0 : ((data.set x { xn with parent := some l0, right_sibling := l0n.child }).set l0 { l0n with child := some x, degree := l0n.degree + 1 }).get? l0 = some { l0n with child := some x, degree := l0n.degree + 1 } :=
            List.get?_set_eq_of_lt _ (by rw [List.length_set]; exact hl0lt)
          have hfr : ∀ i, x ≠ i → l0 ≠ i → ((data.set x { xn with parent := some l0, right_sibling := l0n.child }).set l0 { l0n with child := some x, degree := l0n.degree + 1 }).get? i = data.get? i :=
            fun i h1 h2 => get?_set2_ne _ _ h1 h2
          have hch2 : IsChainF BHNode.right_sibling ((data.set x { xn with parent := some l0, right_sibling := l0n.child }).set l0 { l0n with child := some x, degree := l0n.degree + 1 }) l0n.right_sibling l' :=
            chainF_frame hchl' (fun i hi =>
              hfr i (fun hEq => hxnotl' (hEq ▸ hi)) (fun hEq => hl0notl' (hEq ▸ hi)))
          have hmapeq : l'.map (degOf ((data.set x { xn with parent := some l0, right_sibling := l0n.child }).set l0 { l0n with child := some x, degree := l0n.degree + 1 })) = l'.map (degOf data) := by
            refine List.map_congr_left ?_
            intro a ha
            unfold degOf
            rw [hfr a (fun hEq => hxnotl' (hEq ▸ ha)) (fun hEq => hl0notl' (hEq ▸ ha))]
          have hstrict2 : List.Chain' (· < ·) (l'.map (degOf ((data.set x { xn with parent := some l0, right_sibling := l0n.child }).set l0 { l0n with child := some x, degree := l0n.degree + 1 }))) := by
            rw [hmapeq]
            rw [List.map_cons] at hstrict
            exact hstrict.tail
          have hle2 : ∀ y, l'.head? = some y → l0n.degree + 1 ≤ degOf ((data.set x { xn with parent := some l0, right_sibling := l0n.child }).set l0 { l0n with child := some x, degree := l0n.degree + 1 }) y := by
            intro y hy
            cases l' with
            | nil => exact absurd hy (by simp)
            | cons l1 l'' =>
              have hyl1 : l1 = y := Option.some.inj hy
              have hdlt : degOf data l0 < degOf data l1 := by
                rw [List.map_cons, List.map_cons] at hstrict
                exact (List.chain'_cons.mp hstrict).1
              rw [← hyl1]
              unfold degOf
              rw [hfr l1 (fun hEq => hxnotl' (hEq ▸ List.mem_cons_self _ _))
                (fun hEq => hl0notl' (hEq ▸ List.mem_cons_self _ _))]
              rw [degOf_eq hl0] at hdlt
              unfold degOf at hdlt
              omega
          have hroots2 : ∀ r ∈ l0 :: l', ∃ nd, ((data.set x { xn with parent := some l0, right_sibling := l0n.child }).set l0 { l0n with child := some x, degree := l0n.degree + 1 }).get? r = some nd ∧ nd.parent = none := by
            intro r hr
            rcases List.mem_cons.mp hr with rfl | hr'
            · exact ⟨_, hgl0, hl0parent⟩
            · obtain ⟨nd, hget, hp⟩ := hroots r
                (List.mem_cons_of_mem _ (List.mem_cons_of_mem _ hr'))
              refine ⟨nd, ?_, hp⟩
              rw [hfr r (fun hEq => hxnotl' (hEq ▸ hr'))
                (fun hEq => hl0notl' (hEq ▸ hr'))]
              exact hget
          have hpd2 : ParentDeg ((data.set x { xn with parent := some l0, right_sibling := l0n.child }).set l0 { l0n with child := some x, degree := l0n.degree + 1 }) := by
            intro i nd hget p hpar
            by_cases hil0 : i = l0
            · subst hil0
              rw [hgl0] at hget
              rw [← Option.some.inj hget] at hpar
              have hpar2 : l0n.parent = some p := hpar
              rw [hl0parent] at hpar2
              exact Option.noConfusion hpar2
            · by_cases hix : i = x
              · subst hix
                rw [hgx] at hget
                rw [← Option.some.inj hget] at hpar
                have hpar2 : some l0 = some p := hpar
                rw [← Option.some.inj hpar2]
                refine ⟨_, hgl0, ?_⟩
                rw [← Option.some.inj hget]
                show xn.degree < l0n.degree + 1
                omega
              · rw [hfr i (fun hEq => hix hEq.symm) (fun hEq => hil0 hEq.symm)] at hget
                obtain ⟨pn0, hp0, hdlt0⟩ := hpd i nd hget p hpar
                by_cases hpl0 : p = l0
                · subst hpl0
                  rw [hl0] at hp0
                  refine ⟨_, hgl0, ?_⟩
                  show nd.degree < l0n.degree + 1
                  rw [← Option.some.inj hp0] at hdlt0
                  omega
                · by_cases hpx : p = x
                  · subst hpx
                    rw [hx] at hp0
                    refine ⟨_, hgx, ?_⟩
                    show nd.degree < xn.degree
                    rw [← Option.some.inj hp0] at hdlt0
                    exact hdlt0
                  · refine ⟨pn0, ?_, hdlt0⟩
                    rw [hfr p (fun hEq => hpx hEq.symm) (fun hEq => hpl0 hEq.symm)]
                    exact hp0
          have hitem2 : ∀ i nd, ((data.set x { xn with parent := some l0, right_sibling := l0n.child }).set l0 { l0n with child := some x, degree := l0n.degree + 1 }).get? i = some nd → nd.item_index < elements.length := by
            intro i nd hget
            by_cases hil0 : i = l0
            · rw [hil0, hgl0] at hget
              rw [← Option.some.inj hget]
              show l0n.item_index < elements.length
              exact hitem l0 l0n hl0
            · by_cases hix : i = x
              · rw [hix, hgx] at hget
                rw [← Option.some.inj hget]
                show xn.item_index < elements.length
                exact hitem x xn hx
              · rw [hfr i (fun hEq => hix hEq.symm) (fun hEq => hil0 hEq.symm)] at hget
                exact hitem i nd hget
          obtain ⟨data', head', rl', hrun, hlen, hitem', hpd', hrlne, hwf'⟩ :=
            ih hgl0 hch2 hstrict2 hle2 hndtail hroots2 hpd2 hitem2
              (show 2 * l'.length + 1 ≤ f by omega)
          refine ⟨data', head', rl', hrun, ?_, ?_, hpd', hrlne, hwf'⟩
          · rw [hlen, List.length_set, List.length_set]
          · intro i
            rw [hitem' i]
            by_cases hil0 : i = l0
            · rw [hil0, itemOf_eq hgl0, itemOf_eq hl0]
            · by_cases hix : i = x
              · rw [hix, itemOf_eq hgx, itemOf_eq hx]
              · unfold itemOf
                rw [hfr i (fun hEq => hix hEq.symm) (fun hEq => hil0 hEq.symm)]

/-- The comparator decides strict key order. -/
theorem compare_true_iff (a b : Val) : compare_ a b = true ↔ a.key < b.key := by
  unfold compare_
  simp

/-- Failing the comparator means the key is not smaller. -/
theorem compare_false_iff (a b : Val) : compare_ a b = false ↔ ¬ a.key < b.key := by
  unfold compare_
  simp

/-- The comparator is irreflexive. -/
theorem compare_self (a : Val) : compare_ a a = false := by
  unfold compare_
  simp

/-- Closed form of the front half of `push`: the value and the fresh
node are appended, the handle slot is written, and control passes to
the tail of `push`. -/
theorem push_eq (h : BHeap) (d : Val) (hlt : item_label d < h.index_array.length) :
    push h d = pushFinish
      { elements_ := h.elements_ ++ [d],
        data_ := h.data_ ++ [({ item_index := (h.elements_ ++ [d]).length - 1, parent := none, right_sibling := none, child := none, degree := 0 } : BHNode)],
        head_ := h.head_, top_ := h.top_,
        index_array := h.index_array.set (item_label d) ((h.data_ ++ [({ item_index := (h.elements_ ++ [d]).length - 1, parent := none, right_sibling := none, child := none, degree := 0 } : BHNode)]).length - 1) }
      ((h.data_ ++ [({ item_index := (h.elements_ ++ [d]).length - 1, parent := none, right_sibling := none, child := none, degree := 0 } : BHNode)]).length - 1) := by
  show (do
    let ia ← setE "push: handle index write" h.index_array (item_label d) ((h.data_ ++ [({ item_index := (h.elements_ ++ [d]).length - 1, parent := none, right_sibling := none, child := none, degree := 0 } : BHNode)]).length - 1)
    pushFinish { elements_ := h.elements_ ++ [d], data_ := h.data_ ++ [({ item_index := (h.elements_ ++ [d]).length - 1, parent := none, right_sibling := none, child := none, degree := 0 } : BHNode)], head_ := h.head_, top_ := h.top_, index_array := ia } ((h.data_ ++ [({ item_index := (h.elements_ ++ [d]).length - 1, parent := none, right_sibling := none, child := none, degree := 0 } : BHNode)]).length - 1) : Except String BHeap) = _
  rw [setE_of_lt _ _ hlt, okBind]

/-- The tail of `push` on an empty forest only installs the new
head and top. -/
theorem pushFinish_none {h1 : BHeap} {index : Nat} (hh : h1.head_ = none) :
    pushFinish h1 index = Except.ok { h1 with head_ := some index, top_ := some index } := by
  unfold pushFinish
  rw [hh]

/-- The tail of `push` on a nonempty forest unites and refreshes
`top_`. -/
theorem pushFinish_some {h1 : BHeap} {index h0 : Nat} (hh : h1.head_ = some h0) :
    pushFinish h1 index = (do
      let h2 ← binomial_heap_union h1 (some index)
      let xn ← getE "push: new node" h2.data_ index
      let xv ← getE "push: new value" h2.elements_ xn.item_index
      let tn ← getS "push: top node" h2.data_ h2.top_
      let tv ← getE "push: top value" h2.elements_ tn.item_index
      Except.ok (if compare_ xv tv then { h2 with top_ := some index } else h2)) := by
  unfold pushFinish
  rw [hh]

/-- Closed form of `binomial_heap_union` when the merge result and the
consolidation loop are known. -/
theorem binomial_heap_union_eq {h1 h2 : BHeap} {idx : Option Nat} {x rs : Nat}
    {xn : BHNode} {dataOut : List BHNode} {headOut : Option Nat}
    (hm : merge h1 idx = Except.ok h2)
    (hh : h2.head_ = some x)
    (hx : h2.data_.get? x = some xn)
    (hrs : xn.right_sibling = some rs)
    (hloop : unionLoop (2 * h2.data_.length + 4) h2.elements_ h2.data_ (some x)
      x (some rs) none = Except.ok (dataOut, headOut)) :
    binomial_heap_union h1 idx =
      Except.ok { h2 with data_ := dataOut, head_ := headOut } := by
  unfold binomial_heap_union
  rw [hm, okBind]
  simp only []
  rw [hh]
  simp only []
  rw [getE_of_get? _ hx, okBind]
  rw [hrs]
  simp only []
  rw [hloop, okBind]

/-- The freshly constructed heap satisfies the insertion invariant. -/
theorem mkHeap_inv (n : Nat) : PushInv (mkHeap n) := by
  refine ⟨rfl, fun i nd h => Option.noConfusion h, fun i nd h => Option.noConfusion h,
    ⟨[], IsChainF.nil, List.chain'_nil, fun r hr => absurd hr (List.not_mem_nil r)⟩,
    ⟨fun _ => rfl, fun _ => rfl⟩,
    fun v hv => absurd hv (List.not_mem_nil v), fun x hx => Option.noConfusion hx⟩

/-- Closed form of the tail of `push` when the union result and all
subsequent reads are known. -/
theorem pushFinish_eq {h1 : BHeap} {index h0 : Nat} {h3 : BHeap} {xn tn : BHNode}
    {xv tv : Val} {t : Nat}
    (hh : h1.head_ = some h0)
    (hu : binomial_heap_union h1 (some index) = Except.ok h3)
    (hxn : h3.data_.get? index = some xn)
    (hxv : h3.elements_.get? xn.item_index = some xv)
    (htop : h3.top_ = some t)
    (htn : h3.data_.get? t = some tn)
    (htv : h3.elements_.get? tn.item_index = some tv) :
    pushFinish h1 index =
      Except.ok (if compare_ xv tv then { h3 with top_ := some index } else h3) := by
  rw [pushFinish_some hh, hu, okBind, getE_of_get? _ hxn, okBind,
    getE_of_get? _ hxv, okBind, htop, getS_some, getE_of_get? _ htn, okBind,
    getE_of_get? _ htv, okBind]

/-- One insertion with an in-capacity handle preserves the insertion
invariant; the value store gains exactly the new value at the end, the
handle slot is overwritten with the fresh node index, and the node
array grows by one. -/
theorem push_preserves_inv {h : BHeap} (inv : PushInv h) (d : Val)
    (hlt : item_label d < h.index_array.length) :
    ∃ h', push h d = Except.ok h' ∧
      h'.elements_ = h.elements_ ++ [d] ∧
      h'.index_array = h.index_array.set (item_label d) h.data_.length ∧
      h'.data_.length = h.data_.length + 1 ∧
      PushInv h' := by
  cases hh : h.head_ with
  | none =>
    -- empty forest: the new node starts a fresh one-root heap
    have helem : h.elements_ = [] := inv.head_iff.mp hh
    have hdatanil : h.data_ = [] := by
      have hlen0 : h.data_.length = 0 := by rw [inv.len_eq, helem]; rfl
      exact List.length_eq_zero.mp hlen0
    have hpf0 : pushFinish ({ elements_ := (h.elements_ ++ [d]), data_ := (h.data_ ++ [({ item_index := h.elements_.length, parent := none, right_sibling := none, child := none, degree := 0 } : BHNode)]), head_ := h.head_, top_ := h.top_, index_array := (h.index_array.set (item_label d) h.data_.length) } : BHeap) h.data_.length =
        Except.ok { ({ elements_ := (h.elements_ ++ [d]), data_ := (h.data_ ++ [({ item_index := h.elements_.length, parent := none, right_sibling := none, child := none, degree := 0 } : BHNode)]), head_ := h.head_, top_ := h.top_, index_array := (h.index_array.set (item_label d) h.data_.length) } : BHeap) with head_ := some h.data_.length, top_ := some h.data_.length } :=
      pushFinish_none (hh : (({ elements_ := (h.elements_ ++ [d]), data_ := (h.data_ ++ [({ item_index := h.elements_.length, parent := none, right_sibling := none, child := none, degree := 0 } : BHNode)]), head_ := h.head_, top_ := h.top_, index_array := (h.index_array.set (item_label d) h.data_.length) } : BHeap)).head_ = none)
    have hpush : push h d = Except.ok
        { ({ elements_ := (h.elements_ ++ [d]), data_ := (h.data_ ++ [({ item_index := h.elements_.length, parent := none, right_sibling := none, child := none, degree := 0 } : BHNode)]), head_ := h.head_, top_ := h.top_, index_array := (h.index_array.set (item_label d) h.data_.length) } : BHeap) with head_ := some h.data_.length, top_ := some h.data_.length } := by
      rw [push_eq h d hlt]
      simp only [List.length_append, List.length_singleton, Nat.add_sub_cancel]
      exact hpf0
    refine ⟨_, hpush, rfl, rfl, by simp, ?_, ?_, ?_, ?_, ?_, ?_, ?_⟩
    · -- len_eq
      show (h.data_ ++ [({ item_index := h.elements_.length, parent := none, right_sibling := none, child := none, degree := 0 } : BHNode)]).length = (h.elements_ ++ [d]).length
      simp [inv.len_eq]
    · -- item_ix
      intro i nd hget
      have hget2 : (h.data_ ++ [({ item_index := h.elements_.length, parent := none, right_sibling := none, child := none, degree := 0 } : BHNode)]).get? i = some nd := hget
      rw [hdatanil] at hget2
      cases i with
      | zero =>
        have h2 : some ({ item_index := h.elements_.length, parent := none, right_sibling := none, child := none, degree := 0 } : BHNode) = some nd := hget2
        rw [← Option.some.inj h2]
        show h.elements_.length = 0
        rw [helem]
        rfl
      | succ j => exact Option.noConfusion hget2
    · -- parent_deg
      intro i nd hget p hpar
      have hget2 : (h.data_ ++ [({ item_index := h.elements_.length, parent := none, right_sibling := none, child := none, degree := 0 } : BHNode)]).get? i = some nd := hget
      rw [hdatanil] at hget2
      cases i with
      | zero =>
        have h2 : some ({ item_index := h.elements_.length, parent := none, right_sibling := none, child := none, degree := 0 } : BHNode) = some nd := hget2
        rw [← Option.some.inj h2] at hpar
        exact Option.noConfusion (hpar : (none : Option Nat) = some p)
      | succ j => exact Option.noConfusion hget2
    · -- roots
      refine ⟨[h.data_.length], IsChainF.cons ({ item_index := h.elements_.length, parent := none, right_sibling := none, child := none, degree := 0 } : BHNode) (List.get?_concat_length _ _) IsChainF.nil, by simp, ?_⟩
      intro r hr
      rw [List.mem_singleton] at hr
      refine ⟨({ item_index := h.elements_.length, parent := none, right_sibling := none, child := none, degree := 0 } : BHNode), ?_, rfl⟩
      rw [hr]
      exact List.get?_concat_length _ _
    · -- head_iff
      exact ⟨fun hc => Option.noConfusion hc, fun hc => absurd hc (by simp)⟩
    · -- ids_ok
      intro v hv
      show item_label v < (h.index_array.set (item_label d) h.data_.length).length
      rw [List.length_set]
      rcases List.mem_append.mp hv with h1 | h1
      · exact inv.ids_ok v h1
      · rw [List.mem_singleton.mp h1]
        exact hlt
    · -- top_min
      intro x hx
      refine ⟨h.data_.length, ({ item_index := h.elements_.length, parent := none, right_sibling := none, child := none, degree := 0 } : BHNode), d, rfl, List.get?_concat_length _ _, List.get?_concat_length _ _, ?_⟩
      intro v hv
      rcases List.mem_append.mp hv with h1 | h1
      · rw [helem] at h1
        exact absurd h1 (List.not_mem_nil v)
      · rw [List.mem_singleton.mp h1]
        exact compare_self d
  | some h0 =>
    -- nonempty forest: splice the singleton in front and consolidate
    obtain ⟨rl, wf⟩ := inv.roots
    have hc : IsChainF BHNode.right_sibling h.data_ (some h0) rl := by
      have hc0 := wf.chain
      rw [hh] at hc0
      exact hc0
    have hrlnd : rl.Nodup := chain'_map_lt_nodup wf.strict
    have hrl_lt : ∀ r ∈ rl, r < h.data_.length := chainF_mem_lt hc
    have hnotin : h.data_.length ∉ rl :=
      fun hm => absurd (hrl_lt _ hm) (Nat.lt_irrefl _)
    have hrllen : rl.length ≤ h.data_.length := nodup_lt_length hrlnd hrl_lt
    have hdata3len : (h.data_ ++ [({ item_index := h.elements_.length, parent := none, right_sibling := some h0, child := none, degree := 0 } : BHNode)]).length = h.data_.length + 1 := by simp
    -- merge: the fresh node becomes the new head of the root list
    have hset : (h.data_ ++ [({ item_index := h.elements_.length, parent := none, right_sibling := none, child := none, degree := 0 } : BHNode)]).set h.data_.length ({ item_index := h.elements_.length, parent := none, right_sibling := some h0, child := none, degree := 0 } : BHNode) = (h.data_ ++ [({ item_index := h.elements_.length, parent := none, right_sibling := some h0, child := none, degree := 0 } : BHNode)]) := by
      rw [List.set_append]
      simp
    have hmerge := @merge_singleton ({ elements_ := (h.elements_ ++ [d]), data_ := (h.data_ ++ [({ item_index := h.elements_.length, parent := none, right_sibling := none, child := none, degree := 0 } : BHNode)]), head_ := h.head_, top_ := h.top_, index_array := (h.index_array.set (item_label d) h.data_.length) } : BHeap) h0 h.data_.length ({ item_index := h.elements_.length, parent := none, right_sibling := none, child := none, degree := 0 } : BHNode) rl hh
      (chainF_append hc [({ item_index := h.elements_.length, parent := none, right_sibling := none, child := none, degree := 0 } : BHNode)]) hrlnd (List.get?_concat_length h.data_ ({ item_index := h.elements_.length, parent := none, right_sibling := none, child := none, degree := 0 } : BHNode))
      rfl rfl hnotin
    simp only [] at hmerge
    rw [hset] at hmerge
    -- consolidation by the cascade
    have hx3 : (h.data_ ++ [({ item_index := h.elements_.length, parent := none, right_sibling := some h0, child := none, degree := 0 } : BHNode)]).get? h.data_.length = some ({ item_index := h.elements_.length, parent := none, right_sibling := some h0, child := none, degree := 0 } : BHNode) := List.get?_concat_length _ _
    have hstrict3 : List.Chain' (· < ·) (rl.map (degOf (h.data_ ++ [({ item_index := h.elements_.length, parent := none, right_sibling := some h0, child := none, degree := 0 } : BHNode)]))) := by
      have hmap3 : rl.map (degOf (h.data_ ++ [({ item_index := h.elements_.length, parent := none, right_sibling := some h0, child := none, degree := 0 } : BHNode)])) = rl.map (degOf h.data_) :=
        List.map_congr_left (fun r hr => by
          unfold degOf
          rw [List.get?_append (hrl_lt r hr)])
      rw [hmap3]
      exact wf.strict
    have hnd3 : (h.data_.length :: rl).Nodup := List.nodup_cons.mpr ⟨hnotin, hrlnd⟩
    have hroots3 : ∀ r ∈ h.data_.length :: rl, ∃ nd,
        (h.data_ ++ [({ item_index := h.elements_.length, parent := none, right_sibling := some h0, child := none, degree := 0 } : BHNode)]).get? r = some nd ∧ nd.parent = none := by
      intro r hr
      rcases List.mem_cons.mp hr with rfl | hr'
      · exact ⟨({ item_index := h.elements_.length, parent := none, right_sibling := some h0, child := none, degree := 0 } : BHNode), hx3, rfl⟩
      · obtain ⟨nd, hget, hp⟩ := wf.rootpar r hr'
        exact ⟨nd, by rw [List.get?_append (hrl_lt r hr')]; exact hget, hp⟩
    have hpd3 : ParentDeg (h.data_ ++ [({ item_index := h.elements_.length, parent := none, right_sibling := some h0, child := none, degree := 0 } : BHNode)]) := by
      intro i nd hget p hpar
      rcases Nat.lt_trichotomy i h.data_.length with h1 | h1 | h1
      · rw [List.get?_append h1] at hget
        obtain ⟨pn, hp, hdg⟩ := inv.parent_deg i nd hget p hpar
        exact ⟨pn, by rw [List.get?_append (List.get?_eq_some.mp hp).1]; exact hp, hdg⟩
      · rw [h1, List.get?_concat_length] at hget
        rw [← Option.some.inj hget] at hpar
        exact Option.noConfusion (hpar : (none : Option Nat) = some p)
      · have hge2 : (h.data_ ++ [({ item_index := h.elements_.length, parent := none, right_sibling := some h0, child := none, degree := 0 } : BHNode)]).length ≤ i := by rw [hdata3len]; omega
        rw [List.get?_eq_none.mpr hge2] at hget
        exact Option.noConfusion hget
    have hitem3 : ∀ i nd, (h.data_ ++ [({ item_index := h.elements_.length, parent := none, right_sibling := some h0, child := none, degree := 0 } : BHNode)]).get? i = some nd → nd.item_index < (h.elements_ ++ [d]).length := by
      intro i nd hget
      have hE2len : (h.elements_ ++ [d]).length = h.elements_.length + 1 := by simp
      rcases Nat.lt_trichotomy i h.data_.length with h1 | h1 | h1
      · rw [List.get?_append h1] at hget
        have hix := inv.item_ix i nd hget
        rw [hix, hE2len]
        rw [inv.len_eq] at h1
        omega
      · rw [h1, List.get?_concat_length] at hget
        rw [← Option.some.inj hget, hE2len]
        show h.elements_.length < h.elements_.length + 1
        omega
      · have hge2 : (h.data_ ++ [({ item_index := h.elements_.length, parent := none, right_sibling := some h0, child := none, degree := 0 } : BHNode)]).length ≤ i := by rw [hdata3len]; omega
        rw [List.get?_eq_none.mpr hge2] at hget
        exact Option.noConfusion hget
    have hfuel3 : 2 * rl.length + 1 ≤ 2 * (h.data_ ++ [({ item_index := h.elements_.length, parent := none, right_sibling := some h0, child := none, degree := 0 } : BHNode)]).length + 4 := by
      rw [hdata3len]
      omega
    obtain ⟨data4, head4, rl4, hrun, hlen4, hitem4, hpd4, hrlne4, hwf4⟩ :=
      unionCascade hx3 (chainF_append hc [({ item_index := h.elements_.length, parent := none, right_sibling := some h0, child := none, degree := 0 } : BHNode)]) hstrict3
        (fun y hy => Nat.zero_le _) hnd3 hroots3 hpd3 hitem3 hfuel3
    have hlen4' : data4.length = h.data_.length + 1 := by rw [hlen4]; exact hdata3len
    -- read back the new node and the remembered top
    obtain ⟨xnF, hxnF⟩ := get?_of_lt (show h.data_.length < data4.length by omega)
    have hxitem : xnF.item_index = h.elements_.length := by
      have e1 := itemOf_eq hxnF
      have e2 := hitem4 h.data_.length
      have e3 : itemOf (h.data_ ++ [({ item_index := h.elements_.length, parent := none, right_sibling := some h0, child := none, degree := 0 } : BHNode)]) h.data_.length = h.elements_.length := by
        rw [itemOf_eq (List.get?_concat_length _ _)]
      rw [← e1, e2, e3]
    obtain ⟨t, tn, tv, htop, htn, htv, hmin⟩ := inv.top_min h0 hh
    have htlt : t < h.data_.length := (List.get?_eq_some.mp htn).1
    have htvix : tn.item_index < h.elements_.length := (List.get?_eq_some.mp htv).1
    obtain ⟨tnF, htnF⟩ := get?_of_lt (show t < data4.length by omega)
    have htnFitem : tnF.item_index = tn.item_index := by
      have e1 := itemOf_eq htnF
      have e2 := hitem4 t
      have e3 : itemOf (h.data_ ++ [({ item_index := h.elements_.length, parent := none, right_sibling := some h0, child := none, degree := 0 } : BHNode)]) t = tn.item_index := by
        unfold itemOf
        rw [List.get?_append htlt, htn]
        rfl
      rw [← e1, e2, e3]
    have hxv3 : (h.elements_ ++ [d]).get? xnF.item_index = some d := by
      rw [hxitem]
      exact List.get?_concat_length _ _
    have htv3 : (h.elements_ ++ [d]).get? tnF.item_index = some tv := by
      rw [htnFitem, List.get?_append htvix]
      exact htv
    -- the union and the tail of push
    have hu := binomial_heap_union_eq hmerge rfl hx3 rfl hrun
    have hpf := @pushFinish_eq ({ elements_ := (h.elements_ ++ [d]), data_ := (h.data_ ++ [({ item_index := h.elements_.length, parent := none, right_sibling := none, child := none, degree := 0 } : BHNode)]), head_ := h.head_, top_ := h.top_, index_array := (h.index_array.set (item_label d) h.data_.length) } : BHeap) h.data_.length h0 _ _ _ _ _ _ hh hu hxnF hxv3 htop htnF htv3
    -- invariant fields common to both top outcomes
    have hA : data4.length = (h.elements_ ++ [d]).length := by
      rw [hlen4', inv.len_eq]
      simp
    have hB : ∀ i nd, data4.get? i = some nd → nd.item_index = i := by
      intro i nd hget
      have e1 : nd.item_index = itemOf data4 i := (itemOf_eq hget).symm
      rw [e1, hitem4 i]
      rcases Nat.lt_trichotomy i h.data_.length with h1 | h1 | h1
      · obtain ⟨ndo, hndo⟩ := get?_of_lt h1
        have hd3 : (h.data_ ++ [({ item_index := h.elements_.length, parent := none, right_sibling := some h0, child := none, degree := 0 } : BHNode)]).get? i = some ndo := by
          rw [List.get?_append h1]
          exact hndo
        rw [itemOf_eq hd3]
        exact inv.item_ix i ndo hndo
      · rw [h1, itemOf_eq (List.get?_concat_length _ _)]
        show h.elements_.length = h.data_.length
        exact inv.len_eq.symm
      · have hge2 : data4.length ≤ i := by omega
        rw [List.get?_eq_none.mpr hge2] at hget
        exact Option.noConfusion hget
    have hhead4 : ∃ r0, head4 = some r0 := by
      cases hrl4 : rl4 with
      | nil => exact absurd hrl4 hrlne4
      | cons r0 rest =>
        have hcc := hwf4.chain
        rw [hrl4] at hcc
        exact ⟨r0, (chainF_cons_inv hcc).1⟩
    have hE : head4 = none ↔ (h.elements_ ++ [d]) = [] := by
      obtain ⟨r0, hr0⟩ := hhead4
      constructor
      · intro hcn
        rw [hr0] at hcn
        exact Option.noConfusion hcn
      · intro hcn
        exact absurd hcn (by simp)
    have hF : ∀ v ∈ (h.elements_ ++ [d]), item_label v < (h.index_array.set (item_label d) h.data_.length).length := by
      intro v hv
      rw [List.length_set]
      rcases List.mem_append.mp hv with h1 | h1
      · exact inv.ids_ok v h1
      · rw [List.mem_singleton.mp h1]
        exact hlt
    cases hcomp : compare_ d tv with
    | true =>
      rw [hcomp, if_pos rfl] at hpf
      have hpush := push_eq h d hlt
      simp only [List.length_append, List.length_singleton, Nat.add_sub_cancel] at hpush
      rw [hpf] at hpush
      refine ⟨_, hpush, rfl, rfl,
        (show data4.length = h.data_.length + 1 from hlen4'), hA, hB, hpd4,
        ⟨rl4, hwf4⟩, hE, hF, ?_⟩
      intro x' hx'
      refine ⟨h.data_.length, xnF, d, rfl, hxnF, hxv3, ?_⟩
      have hdk : d.key < tv.key := (compare_true_iff _ _).mp hcomp
      intro v hv
      rcases List.mem_append.mp hv with h1 | h1
      · have hvtv := hmin v h1
        rw [compare_false_iff] at hvtv
        rw [compare_false_iff]
        omega
      · rw [List.mem_singleton.mp h1]
        exact compare_self d
    | false =>
      rw [hcomp, if_neg (by simp : ¬ (false = true))] at hpf
      have hpush := push_eq h d hlt
      simp only [List.length_append, List.length_singleton, Nat.add_sub_cancel] at hpush
      rw [hpf] at hpush
      refine ⟨_, hpush, rfl, rfl,
        (show data4.length = h.data_.length + 1 from hlen4'), hA, hB, hpd4,
        ⟨rl4, hwf4⟩, hE, hF, ?_⟩
      intro x' hx'
      refine ⟨t, tnF, tv, htop, htnF, htv3, ?_⟩
      intro v hv
      rcases List.mem_append.mp hv with h1 | h1
      · exact hmin v h1
      · rw [List.mem_singleton.mp h1]
        exact hcomp

/-- Running a list of insertions from any state satisfying the
insertion invariant succeeds, appends exactly the pushed values, and
preserves the invariant. -/
theorem pushRun : ∀ (vs : List Val) (h : BHeap), PushInv h →
    (∀ v ∈ vs, item_label v < h.index_array.length) →
    ∃ h', runOps h (vs.map Op.pushOp) = Except.ok h' ∧
      h'.elements_ = h.elements_ ++ vs ∧
      h'.index_array.length = h.index_array.length ∧
      PushInv h' := by
  intro vs
  induction vs with
  | nil =>
    intro h inv hids
    exact ⟨h, rfl, by simp, rfl, inv⟩
  | cons v vs' ih =>
    intro h inv hids
    obtain ⟨h1, hp, he, hia, hdl, inv1⟩ :=
      push_preserves_inv inv v (hids v (List.mem_cons_self _ _))
    have hialen : h1.index_array.length = h.index_array.length := by
      rw [hia, List.length_set]
    obtain ⟨h2, hr, he2, hia2, inv2⟩ := ih h1 inv1
      (fun w hw => by rw [hialen]; exact hids w (List.mem_cons_of_mem _ hw))
    refine ⟨h2, ?_, ?_, ?_, inv2⟩
    · show (push h v >>= fun h' => runOps h' (vs'.map Op.pushOp)) = Except.ok h2
      rw [hp, okBind]
      exact hr
    · rw [he2, he]
      simp
    · rw [hia2, hialen]

/-- Claim C6: for every nonempty sequence of insertions into a freshly
constructed heap whose handles are within capacity, the run succeeds,
the store holds exactly the inserted values, and the extremal query
returns a stored value that no stored value beats under the
comparator — i.e. the comparator-extremal (minimal-key) element of all
currently-inserted values. -/
theorem C6_top_is_min (n : Nat) (vs : List Val)
    (hids : ∀ v ∈ vs, item_label v < n) (hne : vs ≠ []) :
    ∃ h' tv, runOps (mkHeap n) (vs.map Op.pushOp) = Except.ok h' ∧
      h'.elements_ = vs ∧
      top h' = Except.ok tv ∧ tv ∈ vs ∧
      ∀ v ∈ vs, compare_ v tv = false := by
  obtain ⟨h', hrun, he, hia, inv⟩ := pushRun vs (mkHeap n) (mkHeap_inv n)
    (fun v hv => by simpa [mkHeap] using hids v hv)
  have he' : h'.elements_ = vs := by
    rw [he]
    rfl
  have hnonempty : h'.elements_ ≠ [] := by
    rw [he']
    exact hne
  have hhead : ∃ x, h'.head_ = some x := by
    cases hd : h'.head_ with
    | none => exact absurd (inv.head_iff.mp hd) hnonempty
    | some x => exact ⟨x, rfl⟩
  obtain ⟨x, hx⟩ := hhead
  obtain ⟨t, tn, tv, htop, htn, htv, hmin⟩ := inv.top_min x hx
  refine ⟨h', tv, hrun, he', ?_, ?_, ?_⟩
  · unfold top
    rw [htop, getS_some, getE_of_get? _ htn, okBind]
    exact getE_of_get? _ htv
  · rw [← he']
    exact List.get?_mem htv
  · intro v hv
    rw [← he'] at hv
    exact hmin v hv

/-- Witness for `C6_top_is_min`: inserting keys 5, 3, 7 under handles
0, 1, 2 into a capacity-4 heap; the extremal query must return a
stored value no stored value beats. -/
theorem C6_top_is_min_witness :
    (∀ v ∈ [(⟨0, 5⟩ : Val), ⟨1, 3⟩, ⟨2, 7⟩], item_label v < 4) ∧
    ([(⟨0, 5⟩ : Val), ⟨1, 3⟩, ⟨2, 7⟩] ≠ []) ∧
    ∃ h' tv, runOps (mkHeap 4) ([(⟨0, 5⟩ : Val), ⟨1, 3⟩, ⟨2, 7⟩].map Op.pushOp) =
        Except.ok h' ∧
      h'.elements_ = [⟨0, 5⟩, ⟨1, 3⟩, ⟨2, 7⟩] ∧
      top h' = Except.ok tv ∧ tv ∈ [(⟨0, 5⟩ : Val), ⟨1, 3⟩, ⟨2, 7⟩] ∧
      ∀ v ∈ [(⟨0, 5⟩ : Val), ⟨1, 3⟩, ⟨2, 7⟩], compare_ v tv = false :=
  ⟨by decide, by decide,
    C6_top_is_min 4 [⟨0, 5⟩, ⟨1, 3⟩, ⟨2, 7⟩] (by decide) (by decide)⟩

/-- Following `parent` links from any node reaches a parentless node:
the number of nodes of strictly larger degree shrinks at every step
(`ParentDeg`), so the walk terminates; the visited degrees strictly
increase. -/
theorem parent_chain_exists {data : List BHNode} (hpd : ParentDeg data) :
    ∀ (fuel : Nat) (i : Nat) (nd : BHNode), data.get? i = some nd →
    ((Finset.range data.length).filter (fun j => nd.degree < degOf data j)).card < fuel →
    ∃ L, IsChainF BHNode.parent data nd.parent L ∧
      List.Chain' (· < ·) ((i :: L).map (degOf data)) := by
  intro fuel
  induction fuel with
  | zero =>
    intro i nd hget hcard
    exact absurd hcard (Nat.not_lt_zero _)
  | succ f ih =>
    intro i nd hget hcard
    cases hp : nd.parent with
    | none =>
      exact ⟨[], IsChainF.nil, by simp⟩
    | some p =>
      obtain ⟨pn, hpn, hdeg⟩ := hpd i nd hget p hp
      have hplt : p < data.length := (List.get?_eq_some.mp hpn).1
      have hsub : (Finset.range data.length).filter (fun j => pn.degree < degOf data j) ⊂
          (Finset.range data.length).filter (fun j => nd.degree < degOf data j) := by
        constructor
        · intro j hj
          rw [Finset.mem_filter] at hj ⊢
          exact ⟨hj.1, lt_trans hdeg hj.2⟩
        · intro hcon
          have hpin : p ∈ (Finset.range data.length).filter
              (fun j => nd.degree < degOf data j) := by
            rw [Finset.mem_filter, Finset.mem_range]
            exact ⟨hplt, by rw [degOf_eq hpn]; exact hdeg⟩
          have hpnotin : p ∉ (Finset.range data.length).filter
              (fun j => pn.degree < degOf data j) := by
            rw [Finset.mem_filter]
            intro hcc
            rw [degOf_eq hpn] at hcc
            exact Nat.lt_irrefl _ hcc.2
          exact hpnotin (hcon hpin)
      have hcard2 : ((Finset.range data.length).filter
          (fun j => pn.degree < degOf data j)).card < f := by
        have hlt2 := Finset.card_lt_card hsub
        omega
      obtain ⟨L, hchL, hstrictL⟩ := ih p pn hpn hcard2
      refine ⟨p :: L, ?_, ?_⟩
      · exact IsChainF.cons pn hpn hchL
      · have h1 : degOf data i < degOf data p := by
          rw [degOf_eq hget, degOf_eq hpn]
          exact hdeg
        rw [List.map_cons, List.map_cons]
        rw [List.map_cons] at hstrictL
        exact List.Chain'.cons h1 hstrictL

/-- Running a concatenation of operation lists is running them in
sequence. -/
theorem runOps_append : ∀ (l1 : List Op) (h : BHeap) (l2 : List Op),
    runOps h (l1 ++ l2) = (runOps h l1 >>= fun h' => runOps h' l2) := by
  intro l1
  induction l1 with
  | nil => intro h l2; rfl
  | cons op l1' ih =>
    intro h l2
    show (stepOp h op >>= fun h' => runOps h' (l1' ++ l2)) =
      ((stepOp h op >>= fun h' => runOps h' l1') >>= fun h' => runOps h' l2)
    cases hst : stepOp h op with
    | error m => rfl
    | ok h1 =>
      rw [okBind, okBind]
      exact ih h1 l2

/-- Closed form of `update` when the handle lookup, the sift walk and
the top reads are known. -/
theorem update_eq {h : BHeap} {d : Val} {index : Nat} {nd : BHNode}
    {E1 elements' : List Val} {ia' ia2 : List Nat} {root t : Nat} {tn : BHNode}
    {tv : Val}
    (hidx : h.index_array.get? (item_label d) = some index)
    (hnd : h.data_.get? index = some nd)
    (hE1 : setE "update: initial write" h.elements_ nd.item_index d = Except.ok E1)
    (hloop : updateLoop (h.data_.length + 2) d E1 h.index_array h.data_ index
      nd.parent = Except.ok (elements', ia', root))
    (hia2 : setE "update: final handle write" ia' (item_label d) root = Except.ok ia2)
    (htop : h.top_ = some t)
    (htn : h.data_.get? t = some tn)
    (htv : elements'.get? tn.item_index = some tv) :
    update h d = Except.ok (if compare_ d tv then
      { h with elements_ := elements', index_array := ia2, top_ := some root }
    else
      { h with elements_ := elements', index_array := ia2 }) := by
  unfold update
  rw [getE_of_get? _ hidx, okBind, getE_of_get? _ hnd, okBind, hE1, okBind,
    hloop, okBind]
  simp only []
  rw [hia2, okBind, htop, getS_some, getE_of_get? _ htn, okBind,
    getE_of_get? _ htv, okBind]

/-- The sift walk of `update` when the written value beats every other
stored value: it swaps all the way to the root of the tree, leaving
the new value in the root's slot and a permutation of the old values
elsewhere. -/
theorem updateWalk : ∀ {L : List Nat} {fuel : Nat} {d : Val} {elements : List Val}
    {ia : List Nat} {data : List BHNode} {i : Nat} {ni : BHNode} {elems0 : List Val},
    data.get? i = some ni →
    IsChainF BHNode.parent data ni.parent L →
    List.Chain' (· < ·) ((i :: L).map (degOf data)) →
    (∀ j nd, data.get? j = some nd → nd.item_index = j) →
    elements.length = data.length →
    elements.get? i = some d →
    (∀ j, j < elements.length → j ≠ i → ∃ v, elements.get? j = some v ∧ v ∈ elems0) →
    (∀ v ∈ elems0, compare_ d v = true) →
    (∀ v ∈ elems0, item_label v < ia.length) →
    L.length + 1 ≤ fuel →
    ∃ elements' ia' root,
      updateLoop fuel d elements ia data i ni.parent =
        Except.ok (elements', ia', root) ∧
      root < data.length ∧
      elements'.length = elements.length ∧
      ia'.length = ia.length ∧
      elements'.get? root = some d ∧
      (∀ j, j < elements'.length → j ≠ root →
        ∃ v, elements'.get? j = some v ∧ v ∈ elems0) := by
  intro L
  induction L with
  | nil =>
    intro fuel d elements ia data i ni elems0 hget hch hstrict hix hlen hself
      helems hbeats hids hfuel
    have hp := chainF_nil_inv hch
    cases fuel with
    | zero => simp at hfuel
    | succ f =>
      rw [hp]
      exact ⟨elements, ia, i, rfl, (List.get?_eq_some.mp hget).1, rfl, rfl,
        hself, helems⟩
  | cons p L' ih =>
    intro fuel d elements ia data i ni elems0 hget hch hstrict hix hlen hself
      helems hbeats hids hfuel
    obtain ⟨hpar, pn, hpn, hch'⟩ := chainF_cons_inv hch
    cases fuel with
    | zero =>
      rw [List.length_cons] at hfuel
      omega
    | succ f =>
      have hilt : i < data.length := (List.get?_eq_some.mp hget).1
      have hplt : p < data.length := (List.get?_eq_some.mp hpn).1
      have hnd := chain'_map_lt_nodup hstrict
      have hip : i ≠ p :=
        fun hEq => (List.nodup_cons.mp hnd).1 (hEq ▸ List.mem_cons_self _ _)
      have hnii : ni.item_index = i := hix i ni hget
      have hpii : pn.item_index = p := hix p pn hpn
      obtain ⟨pv, hpv, hpvmem⟩ := helems p (by rw [hlen]; exact hplt)
        (fun hEq => hip hEq.symm)
      have hcdp : compare_ d pv = true := hbeats pv hpvmem
      have hilt' : i < elements.length := by rw [hlen]; exact hilt
      have hplt' : p < elements.length := by rw [hlen]; exact hplt
      have hE1 : setE "update: downward write" elements ni.item_index pv =
          Except.ok (elements.set i pv) := by
        rw [hnii]
        exact setE_of_lt _ _ hilt'
      have hE2 : setE "update: upward write" (elements.set i pv) pn.item_index d =
          Except.ok ((elements.set i pv).set p d) := by
        rw [hpii]
        exact setE_of_lt _ _ (by rw [List.length_set]; exact hplt')
      have hdv : ((elements.set i pv).set p d).get? ni.item_index = some pv := by
        rw [hnii, List.get?_set_ne _ _ (fun hEq => hip hEq.symm)]
        exact List.get?_set_eq_of_lt _ hilt'
      have hia1 : setE "update: handle fix" ia (item_label pv) i =
          Except.ok (ia.set (item_label pv) i) :=
        setE_of_lt _ _ (hids pv hpvmem)
      have hstr2 : List.Chain' (· < ·) ((p :: L').map (degOf data)) := by
        rw [List.map_cons] at hstrict
        exact hstrict.tail
      have hlen2 : ((elements.set i pv).set p d).length = data.length := by
        rw [List.length_set, List.length_set]
        exact hlen
      have hself2 : ((elements.set i pv).set p d).get? p = some d :=
        List.get?_set_eq_of_lt _ (by rw [List.length_set]; exact hplt')
      have helems2 : ∀ j, j < ((elements.set i pv).set p d).length → j ≠ p →
          ∃ v, ((elements.set i pv).set p d).get? j = some v ∧ v ∈ elems0 := by
        intro j hj hjp
        by_cases hji : j = i
        · refine ⟨pv, ?_, hpvmem⟩
          rw [hji, List.get?_set_ne _ _ (fun hEq => hjp (hji ▸ hEq.symm))]
          exact List.get?_set_eq_of_lt _ hilt'
        · obtain ⟨v, hv, hvmem⟩ := helems j
            (by rw [List.length_set, List.length_set] at hj; exact hj) hji
          refine ⟨v, ?_, hvmem⟩
          rw [get?_set2_ne _ _ (fun hEq => hji hEq.symm) (fun hEq => hjp hEq.symm)]
          exact hv
      have hids2 : ∀ v ∈ elems0, item_label v < (ia.set (item_label pv) i).length := by
        intro v hv
        rw [List.length_set]
        exact hids v hv
      have hfuel2 : L'.length + 1 ≤ f := by
        rw [List.length_cons] at hfuel
        omega
      obtain ⟨elements', ia', root, hrun', hrootlt, hlen', hialen', hroot', helems'⟩ :=
        ih hpn hch' hstr2 hix hlen2 hself2 helems2 hbeats hids2 hfuel2
      refine ⟨elements', ia', root, ?_, hrootlt, ?_, ?_, hroot', helems'⟩
      · rw [hpar]
        show (do
          let pn2 ← getE "update: parent node" data p
          let pv2 ← getE "update: parent value" elements pn2.item_index
          if compare_ d pv2 then do
            let xn ← getE "update: node" data i
            let e2 ← setE "update: downward write" elements xn.item_index pv2
            let e3 ← setE "update: upward write" e2 pn2.item_index d
            let dv ← getE "update: moved value reread" e3 xn.item_index
            let ia2 ← setE "update: handle fix" ia (item_label dv) i
            updateLoop f d e3 ia2 data p pn2.parent
          else Except.ok (elements, ia, i)) = Except.ok (elements', ia', root)
        rw [getE_of_get? _ hpn, okBind]
        rw [show getE "update: parent value" elements pn.item_index = Except.ok pv
          from by rw [hpii]; exact getE_of_get? _ hpv]
        rw [okBind, hcdp, if_pos rfl, getE_of_get? _ hget, okBind, hE1, okBind,
          hE2, okBind, getE_of_get? _ hdv, okBind, hia1, okBind]
        exact hrun'
      · rw [hlen', List.length_set, List.length_set]
      · rw [hialen', List.length_set]

/-- Closed form of `top` when the reads are known. -/
theorem top_eq {h : BHeap} {t : Nat} {tn : BHNode} {tv : Val}
    (htop : h.top_ = some t) (htn : h.data_.get? t = some tn)
    (htv : h.elements_.get? tn.item_index = some tv) :
    top h = Except.ok tv := by
  unfold top
  rw [htop, getS_some, getE_of_get? _ htn, okBind]
  exact getE_of_get? _ htv

/-- Insertion followed immediately by an update to a key more extreme
than every stored key succeeds, sifts the value to a root, and makes
the extremal query return that value. -/
theorem insert_then_update_moves_top (n : Nat) (vs : List Val) (d d' : Val)
    (hvs : ∀ v ∈ vs, item_label v < n) (hd : item_label d < n)
    (hid : item_label d' = item_label d)
    (hbeats : ∀ v ∈ vs, compare_ d' v = true) (hbd : compare_ d' d = true) :
    ∃ h1 h2, runOps (mkHeap n) ((vs ++ [d]).map Op.pushOp) = Except.ok h1 ∧
      update h1 d' = Except.ok h2 ∧ top h2 = Except.ok d' := by
  obtain ⟨hA, hrunA, heA, hiaA, invA⟩ := pushRun vs (mkHeap n) (mkHeap_inv n)
    (fun v hv => by simpa [mkHeap] using hvs v hv)
  have heA' : hA.elements_ = vs := by
    rw [heA]
    rfl
  have hiaA' : hA.index_array.length = n := by
    rw [hiaA]
    simp [mkHeap]
  obtain ⟨h1, hp1, he1, hia1, hdl1, inv1⟩ :=
    push_preserves_inv invA d (by rw [hiaA']; exact hd)
  have hrun : runOps (mkHeap n) ((vs ++ [d]).map Op.pushOp) = Except.ok h1 := by
    rw [List.map_append, runOps_append, hrunA, okBind]
    show (push hA d >>= fun h' => runOps h' []) = Except.ok h1
    rw [hp1, okBind]
    rfl
  have hlen_eqA : hA.data_.length = hA.elements_.length := invA.len_eq
  have hidx : h1.index_array.get? (item_label d') = some hA.data_.length := by
    rw [hid, hia1]
    exact List.get?_set_eq_of_lt _ (by rw [hiaA']; exact hd)
  have hn1lt : hA.data_.length < h1.data_.length := by
    rw [hdl1]
    omega
  obtain ⟨nd1, hnd1⟩ := get?_of_lt hn1lt
  have hnd1ix : nd1.item_index = hA.data_.length := inv1.item_ix _ nd1 hnd1
  have hE1set : (hA.elements_ ++ [d]).set hA.elements_.length d' =
      hA.elements_ ++ [d'] := by
    rw [List.set_append]
    simp
  have hE1 : setE "update: initial write" h1.elements_ nd1.item_index d' =
      Except.ok (hA.elements_ ++ [d']) := by
    rw [hnd1ix, he1, hlen_eqA, setE_of_lt _ _ (by simp), hE1set]
  obtain ⟨L, hchL, hstrictL⟩ := parent_chain_exists inv1.parent_deg
    (((Finset.range h1.data_.length).filter
      (fun j => nd1.degree < degOf h1.data_ j)).card + 1)
    hA.data_.length nd1 hnd1 (Nat.lt_succ_self _)
  have hndL := chain'_map_lt_nodup hstrictL
  have hLmem : ∀ r ∈ L, r < h1.data_.length := chainF_mem_lt hchL
  have hLlen : L.length ≤ h1.data_.length :=
    nodup_lt_length (List.nodup_cons.mp hndL).2 hLmem
  have hE1len : (hA.elements_ ++ [d']).length = h1.data_.length := by
    rw [hdl1, hlen_eqA]
    simp
  have hself : (hA.elements_ ++ [d']).get? hA.data_.length = some d' := by
    rw [hlen_eqA]
    exact List.get?_concat_length _ _
  have helems0 : ∀ j, j < (hA.elements_ ++ [d']).length → j ≠ hA.data_.length →
      ∃ v, (hA.elements_ ++ [d']).get? j = some v ∧ v ∈ vs := by
    intro j hj hjne
    have hlenE : (hA.elements_ ++ [d']).length = hA.elements_.length + 1 := by simp
    have hjlt : j < hA.elements_.length := by
      rw [hlenE] at hj
      rw [hlen_eqA] at hjne
      omega
    obtain ⟨v, hv⟩ := get?_of_lt hjlt
    refine ⟨v, ?_, ?_⟩
    · rw [List.get?_append hjlt]
      exact hv
    · rw [← heA']
      exact List.get?_mem hv
  have hids' : ∀ v ∈ vs, item_label v < h1.index_array.length := by
    intro v hv
    rw [hia1, List.length_set, hiaA']
    exact hvs v hv
  have hfuelW : L.length + 1 ≤ h1.data_.length + 2 := by omega
  obtain ⟨elements', ia', root, hrunW, hrootlt, hlenW, hialenW, hrootval, helemsW⟩ :=
    updateWalk hnd1 hchL hstrictL inv1.item_ix hE1len hself helems0 hbeats
      hids' hfuelW
  have hia2 : setE "update: final handle write" ia' (item_label d') root =
      Except.ok (ia'.set (item_label d') root) :=
    setE_of_lt _ _ (by rw [hialenW, hia1, List.length_set, hiaA', hid]; exact hd)
  have hne1 : h1.elements_ ≠ [] := by
    rw [he1]
    simp
  have hhead1 : ∃ x, h1.head_ = some x := by
    cases hd1 : h1.head_ with
    | none => exact absurd (inv1.head_iff.mp hd1) hne1
    | some x => exact ⟨x, rfl⟩
  obtain ⟨x1, hx1⟩ := hhead1
  obtain ⟨t, tn, tv0, htop1, htn1, htv1, hmin1⟩ := inv1.top_min x1 hx1
  have htnix : tn.item_index = t := inv1.item_ix t tn htn1
  have htlt : t < h1.data_.length := (List.get?_eq_some.mp htn1).1
  by_cases htr : t = root
  · have htvd : elements'.get? tn.item_index = some d' := by
      rw [htnix, htr]
      exact hrootval
    have hupd := update_eq hidx hnd1 hE1 hrunW hia2 htop1 htn1 htvd
    rw [compare_self d', if_neg (by simp : ¬ (false = true))] at hupd
    refine ⟨h1, _, hrun, hupd, ?_⟩
    exact @top_eq { h1 with elements_ := elements', index_array := ia'.set (item_label d') root } t tn d' htop1 htn1 htvd
  · obtain ⟨tv, htvW, htvmem⟩ := helemsW t (by rw [hlenW, hE1len]; exact htlt) htr
    have htvd : elements'.get? tn.item_index = some tv := by
      rw [htnix]
      exact htvW
    have hupd := update_eq hidx hnd1 hE1 hrunW hia2 htop1 htn1 htvd
    rw [hbeats tv htvmem, if_pos rfl] at hupd
    obtain ⟨rootN, hrootN⟩ := get?_of_lt hrootlt
    have hrootNix : rootN.item_index = root := inv1.item_ix root rootN hrootN
    refine ⟨h1, _, hrun, hupd, ?_⟩
    exact @top_eq { h1 with elements_ := elements', index_array := ia'.set (item_label d') root, top_ := some root } root rootN d' rfl hrootN (by rw [hrootNix]; exact hrootval)

/-- Claim C7: on the spec's concrete scenario — insert keys
`[10, 4, 6]` under handles 0, 1, 2, then update the value with
original key 10 to key 1 through its handle — the extremal query
returns the key-1 value; and in general an insertion followed
immediately by an update of that handle to a key the comparator favors
over every stored key moves `top` to that value. -/
theorem C7_update_sifts_to_top :
    (((do
        let h ← runOps (mkHeap 3) (([⟨0, 10⟩, ⟨1, 4⟩, ⟨2, 6⟩] : List Val).map Op.pushOp)
        let h2 ← update h ⟨0, 1⟩
        top h2 : Except String Val)) = Except.ok (⟨0, 1⟩ : Val)) ∧
    ∀ (n : Nat) (vs : List Val) (d d' : Val),
      (∀ v ∈ vs, item_label v < n) → item_label d < n →
      item_label d' = item_label d →
      (∀ v ∈ vs, compare_ d' v = true) → compare_ d' d = true →
      ∃ h1 h2, runOps (mkHeap n) ((vs ++ [d]).map Op.pushOp) = Except.ok h1 ∧
        update h1 d' = Except.ok h2 ∧ top h2 = Except.ok d' :=
  ⟨by rfl, insert_then_update_moves_top⟩

/-- Witness for `C7_update_sifts_to_top`: push key 5 (handle 1) and
key 9 (handle 0) into a capacity-2 heap, then update handle 0 to
key 2, which the comparator favors over both stored keys. -/
theorem C7_update_sifts_to_top_witness :
    ∃ (h1 h2 : BHeap), runOps (mkHeap 2) (([(⟨1, 5⟩ : Val)] ++ [(⟨0, 9⟩ : Val)]).map Op.pushOp) =
        Except.ok h1 ∧
      update h1 ⟨0, 2⟩ = Except.ok h2 ∧ top h2 = Except.ok (⟨0, 2⟩ : Val) :=
  C7_update_sifts_to_top.2 2 [⟨1, 5⟩] ⟨0, 9⟩ ⟨0, 2⟩ (by decide) (by decide)
    (by decide) (by decide) (by decide)

/-- Weaken the lower bound of a merge shape. -/
theorem mergeShape_mono : ∀ {b l}, MergeShape b l → ∀ {b'}, b' ≤ b → MergeShape b' l := by
  intro b l h
  induction h with
  | nil b => intro b' hb; exact MergeShape.nil b'
  | one hba h ih => intro b' hb; exact MergeShape.one (le_trans hb hba) h
  | two hba h ih => intro b' hb; exact MergeShape.two (le_trans hb hba) h

/-- The head of a merge shape respects the bound. -/
theorem mergeShape_head_ge {b a : Nat} {l : List Nat}
    (h : MergeShape b (a :: l)) : b ≤ a := by
  cases h with
  | one hba h => exact hba
  | two hba h => exact hba

/-- The tail of a merge shape is a merge shape bounded by the head. -/
theorem mergeShape_tail {b a : Nat} {l : List Nat}
    (h : MergeShape b (a :: l)) : MergeShape a l := by
  cases h with
  | one hba h => exact mergeShape_mono h (Nat.le_succ a)
  | two hba h => exact MergeShape.one (Nat.le_refl a) h

/-- A strictly increasing list bounded below is a merge shape. -/
theorem mergeShape_of_strict : ∀ {l : List Nat} {b : Nat},
    List.Chain' (· < ·) l → (∀ a, l.head? = some a → b ≤ a) → MergeShape b l := by
  intro l
  induction l with
  | nil => intro b hch hb; exact MergeShape.nil b
  | cons a l' ih =>
    intro b hch hb
    refine MergeShape.one (hb a rfl) (ih hch.tail ?_)
    intro c hc
    cases l' with
    | nil => exact absurd hc (by simp)
    | cons c0 l'' =>
      have hc0 : c0 = c := Option.some.inj hc
      have := (List.chain'_cons.mp hch).1
      omega

/-- Extending a merge shape with a copy of its bound: either the
result is a merge shape, or a run of three appears at the front. -/
theorem mergeShape_cons_self {a : Nat} {l : List Nat} (h : MergeShape a l) :
    MergeShape a (a :: l) ∨ ∃ r, l = a :: a :: r ∧ MergeShape (a + 1) r := by
  cases h with
  | nil => exact Or.inl (MergeShape.one (Nat.le_refl a) (MergeShape.nil _))
  | @one _ a' l' hba h =>
    rcases Nat.lt_or_ge a a' with hlt | hge
    · exact Or.inl (MergeShape.one (Nat.le_refl a)
        (MergeShape.one hlt h))
    · have haa : a' = a := by omega
      subst haa
      exact Or.inl (MergeShape.two (Nat.le_refl a') h)
  | @two _ a' l' hba h =>
    rcases Nat.lt_or_ge a a' with hlt | hge
    · exact Or.inl (MergeShape.one (Nat.le_refl a) (MergeShape.two hlt h))
    · have haa : a' = a := by omega
      subst haa
      exact Or.inr ⟨l', rfl, h⟩

/-- The merged index list is a permutation of the two inputs. -/
theorem mergeIdx_perm (data : List BHNode) : ∀ (lp lq : List Nat),
    (mergeIdx data lp lq).Perm (lp ++ lq) := by
  intro lp
  induction lp with
  | nil =>
    intro lq
    simp [mergeIdx]
  | cons pi lp ihp =>
    intro lq
    induction lq with
    | nil => simp [mergeIdx]
    | cons qi lq ihq =>
      rw [mergeIdx]
      split
      · exact List.Perm.cons pi (ihp (qi :: lq))
      · exact (List.Perm.cons qi ihq).trans List.perm_middle.symm

/-- Merging two strictly increasing degree lists yields a merge
shape. -/
theorem mergeIdx_shape (data : List BHNode) : ∀ (lp lq : List Nat) (b : Nat),
    List.Chain' (· < ·) (lp.map (degOf data)) →
    List.Chain' (· < ·) (lq.map (degOf data)) →
    (∀ a, lp.head? = some a → b ≤ degOf data a) →
    (∀ a, lq.head? = some a → b ≤ degOf data a) →
    MergeShape b ((mergeIdx data lp lq).map (degOf data)) := by
  intro lp
  induction lp with
  | nil =>
    intro lq b hp hq hbp hbq
    have he : mergeIdx data [] lq = lq := by simp [mergeIdx]
    rw [he]
    refine mergeShape_of_strict hq ?_
    intro a ha
    cases lq with
    | nil => exact absurd ha (by simp)
    | cons q0 lq' =>
      rw [List.map_cons] at ha
      rw [← Option.some.inj ha]
      exact hbq q0 rfl
  | cons pi lp ihp =>
    intro lq b hp hq hbp hbq
    induction lq generalizing b with
    | nil =>
      have he : mergeIdx data (pi :: lp) [] = pi :: lp := by simp [mergeIdx]
      rw [he]
      refine mergeShape_of_strict hp ?_
      intro a ha
      cases hlp : (pi :: lp).map (degOf data) with
      | nil => rw [hlp] at ha; exact absurd ha (by simp)
      | cons a0 l0 =>
        rw [hlp] at ha
        rw [List.map_cons] at hlp
        have ha0 : a0 = degOf data pi := (List.cons.injEq _ _ _ _ ▸ hlp).1.symm
        rw [← Option.some.inj ha, ha0]
        exact hbp pi rfl
    | cons qi lq ihq =>
      rw [mergeIdx]
      rcases Nat.lt_or_ge (degOf data pi) (degOf data qi) with hlt | hge
      · rw [if_pos hlt, List.map_cons]
        refine MergeShape.one (hbp pi rfl) ?_
        refine ihp (qi :: lq) (degOf data pi + 1)
          (by rw [List.map_cons] at hp; exact hp.tail) hq ?_ ?_
        · intro a ha
          cases lp with
          | nil => exact absurd ha (by simp)
          | cons p2 lp' =>
            rw [← Option.some.inj ha]
            rw [List.map_cons, List.map_cons] at hp
            have := (List.chain'_cons.mp hp).1
            omega
        · intro a ha
          rw [← Option.some.inj ha]
          omega
      · by_cases heq : degOf data qi = degOf data pi
        · cases lq with
          | nil =>
            have he2 : mergeIdx data (pi :: lp) [] = pi :: lp := by simp [mergeIdx]
            rw [if_neg (by omega), he2, List.map_cons, List.map_cons, heq]
            refine MergeShape.two (by have := hbq qi rfl; omega) ?_
            refine mergeShape_of_strict
              (by rw [List.map_cons] at hp; exact hp.tail) ?_
            intro a ha
            cases lp with
            | nil => exact absurd ha (by simp)
            | cons p2 lp' =>
              rw [List.map_cons] at ha
              rw [← Option.some.inj ha]
              rw [List.map_cons, List.map_cons] at hp
              have := (List.chain'_cons.mp hp).1
              omega
          | cons qj lq' =>
            have hqj : degOf data qi < degOf data qj := by
              rw [List.map_cons, List.map_cons] at hq
              exact (List.chain'_cons.mp hq).1
            have he3 : mergeIdx data (pi :: lp) (qj :: lq') =
                pi :: mergeIdx data lp (qj :: lq') := by
              rw [mergeIdx, if_pos (by omega : degOf data pi < degOf data qj)]
            rw [if_neg (by omega), he3, List.map_cons, List.map_cons, heq]
            refine MergeShape.two (by have := hbq qi rfl; omega) ?_
            refine ihp (qj :: lq') (degOf data pi + 1)
              (by rw [List.map_cons] at hp; exact hp.tail)
              (by rw [List.map_cons] at hq; exact hq.tail) ?_ ?_
            · intro a ha
              cases lp with
              | nil => exact absurd ha (by simp)
              | cons p2 lp' =>
                rw [← Option.some.inj ha]
                rw [List.map_cons, List.map_cons] at hp
                have := (List.chain'_cons.mp hp).1
                omega
            · intro a ha
              rw [← Option.some.inj ha]
              omega
        · rw [if_neg (by omega), List.map_cons]
          refine MergeShape.one (hbq qi rfl) ?_
          refine ihq (degOf data qi + 1)
            (by rw [List.map_cons] at hq; exact hq.tail) ?_ ?_
          · intro a ha
            rw [← Option.some.inj ha]
            omega
          · intro a ha
            cases lq with
            | nil => exact absurd ha (by simp)
            | cons q2 lq' =>
              rw [← Option.some.inj ha]
              rw [List.map_cons, List.map_cons] at hq
              have := (List.chain'_cons.mp hq).1
              omega

/-- Composing two chain segments. -/
theorem segF_append {f : BHNode → Option Nat} {data : List BHNode} :
    ∀ {o : Option Nat} {l1 : List Nat} {o1 : Option Nat},
    SegF f data o l1 o1 → ∀ {l2 o2}, SegF f data o1 l2 o2 →
    SegF f data o (l1 ++ l2) o2 := by
  intro o l1 o1 h
  induction h with
  | nil o => intro l2 o2 h2; exact h2
  | cons nd hget hrest ih =>
    intro l2 o2 h2
    exact SegF.cons nd hget (ih h2)

/-- A segment ending at the sentinel is a chain. -/
theorem segF_none_chain {f : BHNode → Option Nat} {data : List BHNode} :
    ∀ {o : Option Nat} {l : List Nat},
    SegF f data o l none → IsChainF f data o l := by
  intro o l h
  generalize ho' : (none : Option Nat) = o' at h
  induction h with
  | nil o => rw [← ho']; exact IsChainF.nil
  | cons nd hget hrest ih => exact IsChainF.cons nd hget (ih ho')

/-- A chain is a segment ending at the sentinel. -/
theorem chain_segF_none {f : BHNode → Option Nat} {data : List BHNode} :
    ∀ {o : Option Nat} {l : List Nat},
    IsChainF f data o l → SegF f data o l none := by
  intro o l h
  induction h with
  | nil => exact SegF.nil none
  | cons nd hget hrest ih => exact SegF.cons nd hget ih

/-- Frame rule for segments. -/
theorem segF_frame {f : BHNode → Option Nat} {data data' : List BHNode} :
    ∀ {o : Option Nat} {l : List Nat} {o' : Option Nat},
    SegF f data o l o' → (∀ i ∈ l, data'.get? i = data.get? i) →
    SegF f data' o l o' := by
  intro o l o' h
  induction h with
  | nil o => intro hfr; exact SegF.nil o
  | cons nd hget hrest ih =>
    intro hfr
    refine SegF.cons nd ?_ (ih fun i hi => hfr i (List.mem_cons_of_mem _ hi))
    rw [hfr _ (List.mem_cons_self _ _)]
    exact hget

/-- Segment members are in bounds. -/
theorem segF_mem_lt {f : BHNode → Option Nat} {data : List BHNode}
    {o : Option Nat} {l : List Nat} {o' : Option Nat} (h : SegF f data o l o') :
    ∀ i ∈ l, i < data.length := by
  induction h with
  | nil => intro i hi; cases hi
  | cons nd hget hrest ih =>
    intro i hi
    rcases List.mem_cons.mp hi with rfl | hi
    · exact (List.get?_eq_some.mp hget).1
    · exact ih i hi

/-- Appending one node whose link field continues the segment. -/
theorem segF_snoc {f : BHNode → Option Nat} {data : List BHNode}
    {o : Option Nat} {l : List Nat} {x : Nat} {xn : BHNode}
    (h : SegF f data o l (some x)) (hx : data.get? x = some xn) :
    SegF f data o (l ++ [x]) (f xn) :=
  segF_append h (SegF.cons xn hx (SegF.nil _))

/-- A segment through no nodes leaves the pointer unchanged. -/
theorem segF_nil_inv {f : BHNode → Option Nat} {data : List BHNode}
    {o o' : Option Nat} (h : SegF f data o [] o') : o' = o := by
  cases h
  rfl

/-- Splitting off the last node of a nonempty segment. -/
theorem segF_last {f : BHNode → Option Nat} {data : List BHNode} :
    ∀ {l : List Nat} {o : Option Nat} {a : Nat} {o' : Option Nat},
    SegF f data o (l ++ [a]) o' →
    ∃ an, SegF f data o l (some a) ∧ data.get? a = some an ∧ f an = o' := by
  intro l
  induction l with
  | nil =>
    intro o a o' h
    cases h with
    | cons nd hget hrest =>
      exact ⟨nd, SegF.nil _, hget, (segF_nil_inv hrest).symm⟩
  | cons x l' ih =>
    intro o a o' h
    cases h with
    | cons nd hget hrest =>
      obtain ⟨an, hseg, hga, hfa⟩ := ih hrest
      exact ⟨an, SegF.cons nd hget hseg, hga, hfa⟩

/-- `RsOnly` is reflexive. -/
theorem rsOnly_refl (data : List BHNode) : RsOnly data data :=
  ⟨rfl, fun i nd' h => ⟨nd', h, rfl, rfl, rfl, rfl⟩⟩

/-- `RsOnly` composes. -/
theorem rsOnly_trans {d1 d2 d3 : List BHNode}
    (h1 : RsOnly d1 d2) (h2 : RsOnly d2 d3) : RsOnly d1 d3 := by
  refine ⟨h2.1.trans h1.1, ?_⟩
  intro i nd' hget
  obtain ⟨ndm, hgm, e1, e2, e3, e4⟩ := h2.2 i nd' hget
  obtain ⟨nd, hg, f1, f2, f3, f4⟩ := h1.2 i ndm hgm
  exact ⟨nd, hg, e1.trans f1, e2.trans f2, e3.trans f3, e4.trans f4⟩

/-- Writing one `right_sibling` field is an rs-only modification. -/
theorem rsOnly_set_rs {data : List BHNode} {i : Nat} {nd : BHNode}
    (h : data.get? i = some nd) (o : Option Nat) :
    RsOnly data (data.set i { nd with right_sibling := o }) := by
  refine ⟨List.length_set _ _ _, ?_⟩
  intro j nd' hget
  by_cases hj : j = i
  · subst hj
    rw [List.get?_set_eq_of_lt _ (List.get?_eq_some.mp h).1] at hget
    exact ⟨nd, h, by rw [← Option.some.inj hget], by rw [← Option.some.inj hget],
      by rw [← Option.some.inj hget], by rw [← Option.some.inj hget]⟩
  · rw [List.get?_set_ne _ _ (fun hEq => hj hEq.symm)] at hget
    exact ⟨nd', hget, rfl, rfl, rfl, rfl⟩

/-- Degrees are unchanged by rs-only modifications. -/
theorem degOf_rsOnly {data data' : List BHNode} (h : RsOnly data data') :
    ∀ i, degOf data' i = degOf data i := by
  intro i
  cases hg : data'.get? i with
  | none =>
    have hlen : data.length ≤ i := by
      rw [← h.1]
      exact List.get?_eq_none.mp hg
    unfold degOf
    rw [hg, List.get?_eq_none.mpr hlen]
  | some nd' =>
    obtain ⟨nd, hget, e1, e2, e3, e4⟩ := h.2 i nd' hg
    unfold degOf
    rw [hg, hget]
    exact e2

/-- Binomial parent degrees are preserved by rs-only modifications. -/
theorem parentDeg_rsOnly {data data' : List BHNode} (h : RsOnly data data')
    (hpd : ParentDeg data) : ParentDeg data' := by
  intro i nd' hget p hpar
  obtain ⟨nd, hg, e1, e2, e3, e4⟩ := h.2 i nd' hget
  rw [e3] at hpar
  obtain ⟨pn, hpn, hdeg⟩ := hpd i nd hg p hpar
  have hplt : p < data'.length := by
    rw [h.1]
    exact (List.get?_eq_some.mp hpn).1
  obtain ⟨pn', hpn'⟩ := get?_of_lt hplt
  obtain ⟨pn2, hpn2, f1, f2, f3, f4⟩ := h.2 p pn' hpn'
  rw [hpn] at hpn2
  refine ⟨pn', hpn', ?_⟩
  rw [e2, f2, ← Option.some.inj hpn2]
  exact hdeg

/-- The child reversal loop of `pop`: it reverses the sibling chain in
place, clears the parents of the reversed nodes, and touches nothing
else. -/
theorem popReverse_ok : ∀ {l : List Nat} {fuel : Nat} {data : List BHNode}
    {tmp new_head : Option Nat} {acc : List Nat},
    IsChainF BHNode.right_sibling data tmp l →
    l.Nodup →
    (∀ a ∈ acc, a ∉ l) →
    IsChainF BHNode.right_sibling data new_head acc →
    (∀ a ∈ acc, ∃ an, data.get? a = some an ∧ an.parent = none) →
    l.length + 1 ≤ fuel →
    ∃ data' nh, popReverse fuel data tmp new_head = Except.ok (data', nh) ∧
      data'.length = data.length ∧
      (∀ i, i ∉ l → data'.get? i = data.get? i) ∧
      (∀ i nd', data'.get? i = some nd' → ∃ nd, data.get? i = some nd ∧
        nd'.item_index = nd.item_index ∧ nd'.degree = nd.degree ∧
        nd'.child = nd.child) ∧
      IsChainF BHNode.right_sibling data' nh (l.reverse ++ acc) ∧
      (∀ a ∈ l.reverse ++ acc, ∃ an, data'.get? a = some an ∧ an.parent = none) := by
  intro l
  induction l with
  | nil =>
    intro fuel data tmp new_head acc hch hnd hdisj hacc haccp hfuel
    have htmp := chainF_nil_inv hch
    cases fuel with
    | zero => simp at hfuel
    | succ f =>
      rw [htmp]
      exact ⟨data, new_head, rfl, rfl, fun i hi => rfl,
        fun i nd' h => ⟨nd', h, rfl, rfl, rfl⟩, by simpa using hacc,
        by simpa using haccp⟩
  | cons th l' ih =>
    intro fuel data tmp new_head acc hch hnd hdisj hacc haccp hfuel
    obtain ⟨htmp, tn, hth, hch'⟩ := chainF_cons_inv hch
    cases fuel with
    | zero =>
      rw [List.length_cons] at hfuel
      omega
    | succ f =>
      have hthlt : th < data.length := (List.get?_eq_some.mp hth).1
      have hthnotl' : th ∉ l' := (List.nodup_cons.mp hnd).1
      have hch2 : IsChainF BHNode.right_sibling
          (data.set th { tn with parent := none, right_sibling := new_head })
          tn.right_sibling l' :=
        chainF_set_outside hch' hthnotl' _
      have hacc2 : IsChainF BHNode.right_sibling
          (data.set th { tn with parent := none, right_sibling := new_head })
          (some th) (th :: acc) := by
        refine IsChainF.cons _ (List.get?_set_eq_of_lt _ hthlt) ?_
        show IsChainF _ _ new_head acc
        refine chainF_set_outside hacc ?_ _
        intro hmem
        exact hdisj th hmem (List.mem_cons_self _ _)
      have haccp2 : ∀ a ∈ th :: acc, ∃ an,
          (data.set th { tn with parent := none, right_sibling := new_head }).get? a =
            some an ∧ an.parent = none := by
        intro a ha
        rcases List.mem_cons.mp ha with rfl | ha'
        · exact ⟨_, List.get?_set_eq_of_lt _ hthlt, rfl⟩
        · obtain ⟨an, hga, hpa⟩ := haccp a ha'
          refine ⟨an, ?_, hpa⟩
          rw [List.get?_set_ne _ _
            (fun hEq => hdisj a ha' (by rw [← hEq]; exact List.mem_cons_self _ _))]
          exact hga
      have hdisj2 : ∀ a ∈ th :: acc, a ∉ l' := by
        intro a ha
        rcases List.mem_cons.mp ha with rfl | ha'
        · exact hthnotl'
        · exact fun hm => hdisj a ha' (List.mem_cons_of_mem _ hm)
      have hfuel2 : l'.length + 1 ≤ f := by
        rw [List.length_cons] at hfuel
        omega
      obtain ⟨data', nh, hrun, hlen, hfr, hpres, hchain, hpar⟩ :=
        ih hch2 (List.nodup_cons.mp hnd).2 hdisj2 hacc2 haccp2 hfuel2
      refine ⟨data', nh, ?_, ?_, ?_, ?_, ?_, ?_⟩
      · rw [htmp]
        show (do
          let tn2 ← getE "pop: reverse node" data th
          let data2 ← modifyE "pop: reverse write" data th
            (fun nd => { nd with parent := none, right_sibling := new_head })
          popReverse f data2 tn2.right_sibling (some th)) = Except.ok (data', nh)
        rw [getE_of_get? _ hth, okBind, modifyE_of_get? _ hth, okBind]
        exact hrun
      · rw [hlen, List.length_set]
      · intro i hi
        have hith : i ≠ th := fun hEq => hi (hEq ▸ List.mem_cons_self _ _)
        rw [hfr i (fun hm => hi (List.mem_cons_of_mem _ hm)),
          List.get?_set_ne _ _ (fun hEq => hith hEq.symm)]
      · intro i nd' hget
        obtain ⟨ndm, hgm, e1, e2, e3⟩ := hpres i nd' hget
        by_cases hith : i = th
        · subst hith
          rw [List.get?_set_eq_of_lt _ hthlt] at hgm
          refine ⟨tn, hth, ?_, ?_, ?_⟩
          · rw [e1, ← Option.some.inj hgm]
          · rw [e2, ← Option.some.inj hgm]
          · rw [e3, ← Option.some.inj hgm]
        · rw [List.get?_set_ne _ _ (fun hEq => hith hEq.symm)] at hgm
          exact ⟨ndm, hgm, e1, e2, e3⟩
      · have : (th :: l').reverse = l'.reverse ++ [th] := by simp
        rw [this, List.append_assoc]
        exact hchain
      · intro a ha
        refine hpar a ?_
        have : (th :: l').reverse = l'.reverse ++ [th] := by simp
        rw [this, List.append_assoc] at ha
        exact ha

/-- Merging with an empty second list is the identity. -/
theorem mergeIdx_nil_right (data : List BHNode) : ∀ lp, mergeIdx data lp [] = lp := by
  intro lp
  cases lp <;> simp [mergeIdx]

/-- Merging with an empty first list is the identity. -/
theorem mergeIdx_nil_left (data : List BHNode) (lq : List Nat) :
    mergeIdx data [] lq = lq := by
  simp [mergeIdx]

/-- The merged order depends on the node array only through its
degrees. -/
theorem mergeIdx_congr {data data2 : List BHNode}
    (h : ∀ i, degOf data2 i = degOf data i) : ∀ lp lq,
    mergeIdx data2 lp lq = mergeIdx data lp lq := by
  intro lp
  induction lp with
  | nil => intro lq; rw [mergeIdx_nil_left, mergeIdx_nil_left]
  | cons pi lp ihp =>
    intro lq
    induction lq with
    | nil => rw [mergeIdx_nil_right, mergeIdx_nil_right]
    | cons qi lq ihq =>
      rw [mergeIdx, mergeIdx, h pi, h qi]
      by_cases hlt : degOf data pi < degOf data qi
      · rw [if_pos hlt, if_pos hlt, ihp (qi :: lq)]
      · rw [if_neg hlt, if_neg hlt, ihq]

/-- The merge loop interleaves the two strictly increasing root lists
into the `mergeIdx` order: it rewrites only `right_sibling` fields of
the write cursor and the consumed nodes, and afterwards the cursor's
link points at the head of the merged chain. -/
theorem mergeLoop_ok : ∀ (lp lq : List Nat) (fuel : Nat) (data : List BHNode)
    (p q : Option Nat) (current : Nat) (cn : BHNode),
    IsChainF BHNode.right_sibling data p lp →
    IsChainF BHNode.right_sibling data q lq →
    (current :: (lp ++ lq)).Nodup →
    data.get? current = some cn →
    (lp = [] → lq = [] → cn.right_sibling = none) →
    lp.length + lq.length + 1 ≤ fuel →
    ∃ data' cnOut,
      mergeLoop fuel data p q current = Except.ok data' ∧
      data'.length = data.length ∧
      (∀ i, i ∉ current :: (lp ++ lq) → data'.get? i = data.get? i) ∧
      (∀ i nd', data'.get? i = some nd' → ∃ nd, data.get? i = some nd ∧
        nd'.item_index = nd.item_index ∧ nd'.degree = nd.degree ∧
        nd'.parent = nd.parent ∧ nd'.child = nd.child) ∧
      data'.get? current = some cnOut ∧
      cnOut.item_index = cn.item_index ∧ cnOut.degree = cn.degree ∧
      cnOut.parent = cn.parent ∧ cnOut.child = cn.child ∧
      cnOut.right_sibling = mhead (mergeIdx data lp lq) ∧
      IsChainF BHNode.right_sibling data' (mhead (mergeIdx data lp lq))
        (mergeIdx data lp lq) := by
  intro lp
  induction lp with
  | nil =>
    intro lq
    induction lq with
    | nil =>
      intro fuel data p q current cn hchp hchq hnd hc h0 hfuel
      have hp := chainF_nil_inv hchp
      have hq := chainF_nil_inv hchq
      cases fuel with
      | zero => simp at hfuel
      | succ f =>
        rw [hp, hq, mergeIdx_nil_left]
        refine ⟨data, cn, rfl, rfl, fun i hi => rfl,
          fun i nd' h => ⟨nd', h, rfl, rfl, rfl, rfl⟩, hc, rfl, rfl, rfl, rfl,
          h0 rfl rfl, IsChainF.nil⟩
    | cons qi lq' ihq =>
      intro fuel data p q current cn hchp hchq hnd hc h0 hfuel
      have hp := chainF_nil_inv hchp
      obtain ⟨hq, qn, hqn, hchq'⟩ := chainF_cons_inv hchq
      cases fuel with
      | zero =>
        rw [List.length_nil, List.length_cons] at hfuel
        omega
      | succ f =>
        have hclt := (List.get?_eq_some.mp hc).1
        have hcnotin : current ∉ ([] : List Nat) ++ qi :: lq' := (List.nodup_cons.mp hnd).1
        have hcur_ne_qi : current ≠ qi := by
          intro hEq
          apply hcnotin
          rw [hEq]
          exact List.mem_cons_self _ _
        have hcnotin' : current ∉ lq' := by
          intro hm
          exact hcnotin (List.mem_cons_of_mem _ hm)
        have hqn2 : (data.set current { cn with right_sibling := some qi }).get? qi =
            some qn := by
          rw [List.get?_set_ne _ _ hcur_ne_qi]
          exact hqn
        have hchq2 : IsChainF BHNode.right_sibling
            (data.set current { cn with right_sibling := some qi }) qn.right_sibling lq' :=
          chainF_set_outside hchq' hcnotin' _
        have hnd2 : (qi :: (([] : List Nat) ++ lq')).Nodup := (List.nodup_cons.mp hnd).2
        have h02 : ([] : List Nat) = [] → lq' = [] → qn.right_sibling = none := by
          intro _ hlq'
          rw [hlq'] at hchq'
          exact chainF_nil_inv hchq'
        have hfuel2 : ([] : List Nat).length + lq'.length + 1 ≤ f := by
          simp only [List.length_nil, List.length_cons] at hfuel ⊢
          omega
        obtain ⟨data'', cnOut'', hrun, hlen, hfr, hpres, hgetq, e1, e2, e3, e4, ers, hchain⟩ :=
          ihq f (data.set current { cn with right_sibling := some qi }) none
            qn.right_sibling qi qn IsChainF.nil hchq2 hnd2 hqn2 h02 hfuel2
        rw [mergeIdx_nil_left] at ers hchain
        have hMeq : mergeIdx data ([] : List Nat) (qi :: lq') = qi :: lq' :=
          mergeIdx_nil_left data _
        refine ⟨data'', { cn with right_sibling := some qi }, ?_, ?_, ?_, ?_, ?_,
          rfl, rfl, rfl, rfl, ?_, ?_⟩
        · rw [hp, hq]
          show (do
            let data2 ← modifyE "merge: current write q" data current
              (fun nd => { nd with right_sibling := some qi })
            let qn2 ← getE "merge: advance q" data2 qi
            mergeLoop f data2 none qn2.right_sibling qi) = Except.ok data''
          rw [modifyE_of_get? _ hc, okBind, getE_of_get? _ hqn2, okBind]
          exact hrun
        · rw [hlen, List.length_set]
        · intro i hi
          have hic : i ≠ current := fun hEq => hi (hEq ▸ List.mem_cons_self _ _)
          have hinq : i ∉ qi :: (([] : List Nat) ++ lq') := by
            intro hm
            exact hi (List.mem_cons_of_mem _ hm)
          rw [hfr i hinq, List.get?_set_ne _ _ (fun hEq => hic hEq.symm)]
        · intro i nd' hget
          obtain ⟨ndm, hgm, f1, f2, f3, f4⟩ := hpres i nd' hget
          by_cases hic : i = current
          · subst hic
            rw [List.get?_set_eq_of_lt _ hclt] at hgm
            rw [← Option.some.inj hgm] at f1 f2 f3 f4
            exact ⟨cn, hc, f1, f2, f3, f4⟩
          · rw [List.get?_set_ne _ _ (fun hEq => hic hEq.symm)] at hgm
            exact ⟨ndm, hgm, f1, f2, f3, f4⟩
        · have hnotin : current ∉ qi :: (([] : List Nat) ++ lq') := by
            intro hm
            rcases List.mem_cons.mp hm with hEq | hm'
            · exact hcur_ne_qi hEq
            · exact hcnotin' hm'
          rw [hfr current hnotin]
          exact List.get?_set_eq_of_lt _ hclt
        · rw [hMeq]
          rfl
        · rw [hMeq]
          refine IsChainF.cons cnOut'' hgetq ?_
          rw [ers]
          exact hchain
  | cons pi lp' ihp =>
    intro lq
    induction lq with
    | nil =>
      intro fuel data p q current cn hchp hchq hnd hc h0 hfuel
      obtain ⟨hp, pn, hpn, hchp'⟩ := chainF_cons_inv hchp
      have hq := chainF_nil_inv hchq
      cases fuel with
      | zero =>
        rw [List.length_cons, List.length_nil] at hfuel
        omega
      | succ f =>
        have hclt := (List.get?_eq_some.mp hc).1
        have hcnotin : current ∉ (pi :: lp') ++ ([] : List Nat) := (List.nodup_cons.mp hnd).1
        have hcur_ne_pi : current ≠ pi := by
          intro hEq
          apply hcnotin
          rw [hEq]
          exact List.mem_cons_self _ _
        have hcnotin' : current ∉ lp' ++ ([] : List Nat) := by
          intro hm
          rcases List.mem_append.mp hm with hm' | hm'
          · exact hcnotin (List.mem_append.mpr (Or.inl (List.mem_cons_of_mem _ hm')))
          · cases hm'
        have hpn2 : (data.set current { cn with right_sibling := some pi }).get? pi =
            some pn := by
          rw [List.get?_set_ne _ _ hcur_ne_pi]
          exact hpn
        have hchp2 : IsChainF BHNode.right_sibling
            (data.set current { cn with right_sibling := some pi }) pn.right_sibling lp' := by
          refine chainF_set_outside hchp' ?_ _
          intro hm
          exact hcnotin' (List.mem_append.mpr (Or.inl hm))
        have hnd2 : (pi :: (lp' ++ ([] : List Nat))).Nodup := (List.nodup_cons.mp hnd).2
        have h02 : lp' = [] → ([] : List Nat) = [] → pn.right_sibling = none := by
          intro hlp' _
          rw [hlp'] at hchp'
          exact chainF_nil_inv hchp'
        have hfuel2 : lp'.length + ([] : List Nat).length + 1 ≤ f := by
          rw [List.length_cons] at hfuel
          rw [List.length_nil] at hfuel ⊢
          omega
        obtain ⟨data'', cnOut'', hrun, hlen, hfr, hpres, hgetp, e1, e2, e3, e4, ers, hchain⟩ :=
          ihp ([] : List Nat) f (data.set current { cn with right_sibling := some pi })
            pn.right_sibling none pi pn hchp2 IsChainF.nil hnd2 hpn2 h02 hfuel2
        rw [mergeIdx_nil_right] at ers hchain
        have hMeq : mergeIdx data (pi :: lp') ([] : List Nat) = pi :: lp' :=
          mergeIdx_nil_right data _
        refine ⟨data'', { cn with right_sibling := some pi }, ?_, ?_, ?_, ?_, ?_,
          rfl, rfl, rfl, rfl, ?_, ?_⟩
        · rw [hp, hq]
          show (do
            let data2 ← modifyE "merge: current write p" data current
              (fun nd => { nd with right_sibling := some pi })
            let pn2 ← getE "merge: advance p" data2 pi
            mergeLoop f data2 pn2.right_sibling none pi) = Except.ok data''
          rw [modifyE_of_get? _ hc, okBind, getE_of_get? _ hpn2, okBind]
          exact hrun
        · rw [hlen, List.length_set]
        · intro i hi
          have hic : i ≠ current := fun hEq => hi (hEq ▸ List.mem_cons_self _ _)
          have hinp : i ∉ pi :: (lp' ++ ([] : List Nat)) := by
            intro hm
            exact hi (List.mem_cons_of_mem _ hm)
          rw [hfr i hinp, List.get?_set_ne _ _ (fun hEq => hic hEq.symm)]
        · intro i nd' hget
          obtain ⟨ndm, hgm, f1, f2, f3, f4⟩ := hpres i nd' hget
          by_cases hic : i = current
          · subst hic
            rw [List.get?_set_eq_of_lt _ hclt] at hgm
            rw [← Option.some.inj hgm] at f1 f2 f3 f4
            exact ⟨cn, hc, f1, f2, f3, f4⟩
          · rw [List.get?_set_ne _ _ (fun hEq => hic hEq.symm)] at hgm
            exact ⟨ndm, hgm, f1, f2, f3, f4⟩
        · have hnotin : current ∉ pi :: (lp' ++ ([] : List Nat)) := by
            intro hm
            rcases List.mem_cons.mp hm with hEq | hm'
            · exact hcur_ne_pi hEq
            · exact hcnotin' hm'
          rw [hfr current hnotin]
          exact List.get?_set_eq_of_lt _ hclt
        · rw [hMeq]
          rfl
        · rw [hMeq]
          refine IsChainF.cons cnOut'' hgetp ?_
          rw [ers]
          exact hchain
    | cons qi lq' ihq =>
      intro fuel data p q current cn hchp hchq hnd hc h0 hfuel
      obtain ⟨hp, pn, hpn, hchp'⟩ := chainF_cons_inv hchp
      obtain ⟨hq, qn, hqn, hchq'⟩ := chainF_cons_inv hchq
      cases fuel with
      | zero =>
        rw [List.length_cons, List.length_cons] at hfuel
        omega
      | succ f =>
        rw [hp] at hchp
        rw [hq] at hchq
        have hclt := (List.get?_eq_some.mp hc).1
        have hcnotin : current ∉ (pi :: lp') ++ (qi :: lq') := (List.nodup_cons.mp hnd).1
        have hcur_ne_pi : current ≠ pi :=
          fun hEq => hcnotin (List.mem_append.mpr (Or.inl (hEq ▸ List.mem_cons_self _ _)))
        have hcur_ne_qi : current ≠ qi :=
          fun hEq => hcnotin (List.mem_append.mpr (Or.inr (hEq ▸ List.mem_cons_self _ _)))
        have hcnotlp' : current ∉ lp' :=
          fun hm => hcnotin (List.mem_append.mpr (Or.inl (List.mem_cons_of_mem _ hm)))
        have hcnotlq' : current ∉ lq' :=
          fun hm => hcnotin (List.mem_append.mpr (Or.inr (List.mem_cons_of_mem _ hm)))
        have htailnd : ((pi :: lp') ++ (qi :: lq')).Nodup := (List.nodup_cons.mp hnd).2
        rcases Nat.lt_or_ge pn.degree qn.degree with hlt | hge
        · -- take from the p side
          have hpn2 : (data.set current { cn with right_sibling := some pi }).get? pi =
              some pn := by
            rw [List.get?_set_ne _ _ hcur_ne_pi]
            exact hpn
          have hchp2 : IsChainF BHNode.right_sibling
              (data.set current { cn with right_sibling := some pi })
              pn.right_sibling lp' :=
            chainF_set_outside hchp' hcnotlp' _
          have hchq2 : IsChainF BHNode.right_sibling
              (data.set current { cn with right_sibling := some pi })
              (some qi) (qi :: lq') := by
            refine chainF_set_outside hchq ?_ _
            intro hm
            rcases List.mem_cons.mp hm with hEq | hm'
            · exact hcur_ne_qi hEq
            · exact hcnotlq' hm'
          have hnd2 : (pi :: (lp' ++ qi :: lq')).Nodup := htailnd
          have h02 : lp' = [] → (qi :: lq') = [] → pn.right_sibling = none :=
            fun _ h => absurd h (List.cons_ne_nil _ _)
          have hfuel2 : lp'.length + (qi :: lq').length + 1 ≤ f := by
            rw [List.length_cons] at hfuel
            omega
          obtain ⟨data'', cnOut'', hrun, hlen, hfr, hpres, hgetp, e1, e2, e3, e4, ers, hchain⟩ :=
            ihp (qi :: lq') f (data.set current { cn with right_sibling := some pi })
              pn.right_sibling (some qi) pi pn hchp2 hchq2 hnd2 hpn2 h02 hfuel2
          have hcongr : mergeIdx (data.set current { cn with right_sibling := some pi })
              lp' (qi :: lq') = mergeIdx data lp' (qi :: lq') :=
            mergeIdx_congr (degOf_rsOnly (rsOnly_set_rs hc _)) lp' (qi :: lq')
          rw [hcongr] at ers hchain
          have hMeq : mergeIdx data (pi :: lp') (qi :: lq') =
              pi :: mergeIdx data lp' (qi :: lq') := by
            rw [mergeIdx, if_pos (by rw [degOf_eq hpn, degOf_eq hqn]; exact hlt)]
          refine ⟨data'', { cn with right_sibling := some pi }, ?_, ?_, ?_, ?_, ?_,
            rfl, rfl, rfl, rfl, ?_, ?_⟩
          · rw [hp, hq]
            show (do
              let pn0 ← getE "merge: node p degree" data pi
              let qn0 ← getE "merge: node q degree" data qi
              if pn0.degree < qn0.degree then do
                let data2 ← modifyE "merge: current write p" data current
                  (fun nd => { nd with right_sibling := some pi })
                let pn2 ← getE "merge: advance p" data2 pi
                mergeLoop f data2 pn2.right_sibling (some qi) pi
              else do
                let data2 ← modifyE "merge: current write q" data current
                  (fun nd => { nd with right_sibling := some qi })
                let qn2 ← getE "merge: advance q" data2 qi
                mergeLoop f data2 (some pi) qn2.right_sibling qi) = Except.ok data''
            rw [getE_of_get? _ hpn, okBind, getE_of_get? _ hqn, okBind, if_pos hlt,
              modifyE_of_get? _ hc, okBind, getE_of_get? _ hpn2, okBind]
            exact hrun
          · rw [hlen, List.length_set]
          · intro i hi
            have hic : i ≠ current := fun hEq => hi (hEq ▸ List.mem_cons_self _ _)
            have hinp : i ∉ pi :: (lp' ++ qi :: lq') := by
              intro hm
              exact hi (List.mem_cons_of_mem _ hm)
            rw [hfr i hinp, List.get?_set_ne _ _ (fun hEq => hic hEq.symm)]
          · intro i nd' hget
            obtain ⟨ndm, hgm, f1, f2, f3, f4⟩ := hpres i nd' hget
            by_cases hic : i = current
            · subst hic
              rw [List.get?_set_eq_of_lt _ hclt] at hgm
              rw [← Option.some.inj hgm] at f1 f2 f3 f4
              exact ⟨cn, hc, f1, f2, f3, f4⟩
            · rw [List.get?_set_ne _ _ (fun hEq => hic hEq.symm)] at hgm
              exact ⟨ndm, hgm, f1, f2, f3, f4⟩
          · have hnotin : current ∉ pi :: (lp' ++ qi :: lq') := by
              intro hm
              rcases List.mem_cons.mp hm with hEq | hm'
              · exact hcur_ne_pi hEq
              · rcases List.mem_append.mp hm' with h1 | h1
                · exact hcnotlp' h1
                · rcases List.mem_cons.mp h1 with hEq | h2
                  · exact hcur_ne_qi hEq
                  · exact hcnotlq' h2
            rw [hfr current hnotin]
            exact List.get?_set_eq_of_lt _ hclt
          · rw [hMeq]
            rfl
          · rw [hMeq]
            refine IsChainF.cons cnOut'' hgetp ?_
            rw [ers]
            exact hchain
        · -- take from the q side
          have hqn2 : (data.set current { cn with right_sibling := some qi }).get? qi =
              some qn := by
            rw [List.get?_set_ne _ _ hcur_ne_qi]
            exact hqn
          have hchq2 : IsChainF BHNode.right_sibling
              (data.set current { cn with right_sibling := some qi })
              qn.right_sibling lq' :=
            chainF_set_outside hchq' hcnotlq' _
          have hchp2 : IsChainF BHNode.right_sibling
              (data.set current { cn with right_sibling := some qi })
              (some pi) (pi :: lp') := by
            refine chainF_set_outside hchp ?_ _
            intro hm
            rcases List.mem_cons.mp hm with hEq | hm'
            · exact hcur_ne_pi hEq
            · exact hcnotlp' hm'
          have hnd2 : (qi :: ((pi :: lp') ++ lq')).Nodup :=
            List.Perm.nodup List.perm_middle htailnd
          have h02 : (pi :: lp') = [] → lq' = [] → qn.right_sibling = none :=
            fun h => absurd h (List.cons_ne_nil _ _)
          have hfuel2 : (pi :: lp').length + lq'.length + 1 ≤ f := by
            rw [List.length_cons] at hfuel ⊢
            rw [List.length_cons] at hfuel
            omega
          obtain ⟨data'', cnOut'', hrun, hlen, hfr, hpres, hgetq, e1, e2, e3, e4, ers, hchain⟩ :=
            ihq f (data.set current { cn with right_sibling := some qi })
              (some pi) qn.right_sibling qi qn hchp2 hchq2 hnd2 hqn2 h02 hfuel2
          have hcongr : mergeIdx (data.set current { cn with right_sibling := some qi })
              (pi :: lp') lq' = mergeIdx data (pi :: lp') lq' :=
            mergeIdx_congr (degOf_rsOnly (rsOnly_set_rs hc _)) (pi :: lp') lq'
          rw [hcongr] at ers hchain
          have hMeq : mergeIdx data (pi :: lp') (qi :: lq') =
              qi :: mergeIdx data (pi :: lp') lq' := by
            rw [mergeIdx, if_neg (by rw [degOf_eq hpn, degOf_eq hqn]; omega)]
          refine ⟨data'', { cn with right_sibling := some qi }, ?_, ?_, ?_, ?_, ?_,
            rfl, rfl, rfl, rfl, ?_, ?_⟩
          · rw [hp, hq]
            show (do
              let pn0 ← getE "merge: node p degree" data pi
              let qn0 ← getE "merge: node q degree" data qi
              if pn0.degree < qn0.degree then do
                let data2 ← modifyE "merge: current write p" data current
                  (fun nd => { nd with right_sibling := some pi })
                let pn2 ← getE "merge: advance p" data2 pi
                mergeLoop f data2 pn2.right_sibling (some qi) pi
              else do
                let data2 ← modifyE "merge: current write q" data current
                  (fun nd => { nd with right_sibling := some qi })
                let qn2 ← getE "merge: advance q" data2 qi
                mergeLoop f data2 (some pi) qn2.right_sibling qi) = Except.ok data''
            rw [getE_of_get? _ hpn, okBind, getE_of_get? _ hqn, okBind,
              if_neg (Nat.not_lt.mpr hge), modifyE_of_get? _ hc, okBind,
              getE_of_get? _ hqn2, okBind]
            exact hrun
          · rw [hlen, List.length_set]
          · intro i hi
            have hic : i ≠ current := fun hEq => hi (hEq ▸ List.mem_cons_self _ _)
            have hinq : i ∉ qi :: ((pi :: lp') ++ lq') := by
              intro hm
              rcases List.mem_cons.mp hm with hEq | hm'
              · exact hi (hEq ▸ List.mem_cons_of_mem _
                  (List.mem_append.mpr (Or.inr (List.mem_cons_self _ _))))
              · rcases List.mem_append.mp hm' with h1 | h1
                · exact hi (List.mem_cons_of_mem _ (List.mem_append.mpr (Or.inl h1)))
                · exact hi (List.mem_cons_of_mem _
                    (List.mem_append.mpr (Or.inr (List.mem_cons_of_mem _ h1))))
            rw [hfr i hinq, List.get?_set_ne _ _ (fun hEq => hic hEq.symm)]
          · intro i nd' hget
            obtain ⟨ndm, hgm, f1, f2, f3, f4⟩ := hpres i nd' hget
            by_cases hic : i = current
            · subst hic
              rw [List.get?_set_eq_of_lt _ hclt] at hgm
              rw [← Option.some.inj hgm] at f1 f2 f3 f4
              exact ⟨cn, hc, f1, f2, f3, f4⟩
            · rw [List.get?_set_ne _ _ (fun hEq => hic hEq.symm)] at hgm
              exact ⟨ndm, hgm, f1, f2, f3, f4⟩
          · have hnotin : current ∉ qi :: ((pi :: lp') ++ lq') := by
              intro hm
              rcases List.mem_cons.mp hm with hEq | hm'
              · exact hcur_ne_qi hEq
              · rcases List.mem_append.mp hm' with h1 | h1
                · rcases List.mem_cons.mp h1 with hEq | h2
                  · exact hcur_ne_pi hEq
                  · exact hcnotlp' h2
                · exact hcnotlq' h1
            rw [hfr current hnotin]
            exact List.get?_set_eq_of_lt _ hclt
          · rw [hMeq]
            rfl
          · rw [hMeq]
            refine IsChainF.cons cnOut'' hgetq ?_
            rw [ers]
            exact hchain

/-- Appending the dummy node changes no degree. -/
theorem degOf_append_mk0 (data : List BHNode) :
    ∀ i, degOf (data ++ [BHNode.mk0]) i = degOf data i := by
  intro i
  rcases Nat.lt_trichotomy i data.length with h1 | h1 | h1
  · unfold degOf
    rw [List.get?_append h1]
  · subst h1
    unfold degOf
    rw [List.get?_concat_length, List.get?_eq_none.mpr (Nat.le_refl _)]
    rfl
  · unfold degOf
    rw [List.get?_eq_none.mpr (by simp; omega),
      List.get?_eq_none.mpr (by omega)]

/-- `merge` on two well-formed root lists: the node array keeps every
node's identity fields, only sibling links among the listed roots and
the dummy change, and the new head chains through the `mergeIdx`
order. -/
theorem merge_ok_general {h : BHeap} {p0 q0 : Nat} {lp0 lq0 : List Nat}
    (hph : h.head_ = some p0)
    (hchp : IsChainF BHNode.right_sibling h.data_ (some p0) (p0 :: lp0))
    (hchq : IsChainF BHNode.right_sibling h.data_ (some q0) (q0 :: lq0))
    (hnd : ((p0 :: lp0) ++ (q0 :: lq0)).Nodup) :
    ∃ dataM, merge h (some q0) = Except.ok { h with data_ := dataM, head_ := mhead (mergeIdx h.data_ (p0 :: lp0) (q0 :: lq0)) } ∧
      dataM.length = h.data_.length ∧
      (∀ i, i ∉ (p0 :: lp0) ++ (q0 :: lq0) → dataM.get? i = h.data_.get? i) ∧
      (∀ i nd', dataM.get? i = some nd' → ∃ nd, h.data_.get? i = some nd ∧
        nd'.item_index = nd.item_index ∧ nd'.degree = nd.degree ∧
        nd'.parent = nd.parent ∧ nd'.child = nd.child) ∧
      IsChainF BHNode.right_sibling dataM
        (mhead (mergeIdx h.data_ (p0 :: lp0) (q0 :: lq0)))
        (mergeIdx h.data_ (p0 :: lp0) (q0 :: lq0)) := by
  obtain ⟨_, pn, hpn, _⟩ := chainF_cons_inv hchp
  obtain ⟨_, qn, hqn, _⟩ := chainF_cons_inv hchq
  have hmem_lt : ∀ i ∈ (p0 :: lp0) ++ (q0 :: lq0), i < h.data_.length := by
    intro i hi
    rcases List.mem_append.mp hi with h1 | h1
    · exact chainF_mem_lt hchp i h1
    · exact chainF_mem_lt hchq i h1
  have hlen_sum : ((p0 :: lp0) ++ (q0 :: lq0)).length ≤ h.data_.length :=
    nodup_lt_length hnd hmem_lt
  have hcur_notin : h.data_.length ∉ (p0 :: lp0) ++ (q0 :: lq0) :=
    fun hm => absurd (hmem_lt _ hm) (Nat.lt_irrefl _)
  have hchpA : IsChainF BHNode.right_sibling (h.data_ ++ [BHNode.mk0])
      (some p0) (p0 :: lp0) := chainF_append hchp _
  have hchqA : IsChainF BHNode.right_sibling (h.data_ ++ [BHNode.mk0])
      (some q0) (q0 :: lq0) := chainF_append hchq _
  have hndA : (h.data_.length :: ((p0 :: lp0) ++ (q0 :: lq0))).Nodup :=
    List.nodup_cons.mpr ⟨hcur_notin, hnd⟩
  have hcA : (h.data_ ++ [BHNode.mk0]).get? h.data_.length = some BHNode.mk0 :=
    List.get?_concat_length _ _
  have h0A : (p0 :: lp0) = [] → (q0 :: lq0) = [] → BHNode.mk0.right_sibling = none :=
    fun hcon => absurd hcon (List.cons_ne_nil _ _)
  have hfuelA : (p0 :: lp0).length + (q0 :: lq0).length + 1 ≤
      2 * (h.data_ ++ [BHNode.mk0]).length + 2 := by
    rw [List.length_append] at hlen_sum ⊢
    simp only [List.length_singleton] at hlen_sum ⊢
    omega
  obtain ⟨data', cnOut, hrun, hlen, hfr, hpres, hgetc, e1, e2, e3, e4, ers, hchain⟩ :=
    mergeLoop_ok (p0 :: lp0) (q0 :: lq0)
      (2 * (h.data_ ++ [BHNode.mk0]).length + 2) (h.data_ ++ [BHNode.mk0])
      (some p0) (some q0) h.data_.length BHNode.mk0 hchpA hchqA hndA hcA h0A hfuelA
  have hcongr : mergeIdx (h.data_ ++ [BHNode.mk0]) (p0 :: lp0) (q0 :: lq0) =
      mergeIdx h.data_ (p0 :: lp0) (q0 :: lq0) :=
    mergeIdx_congr (degOf_append_mk0 h.data_) _ _
  rw [hcongr] at ers hchain
  have hlenA : (h.data_ ++ [BHNode.mk0]).length = h.data_.length + 1 := by simp
  have hlen' : data'.length = h.data_.length + 1 := by rw [hlen, hlenA]
  have hback : data'.get? (data'.length - 1) = some cnOut := by
    rw [hlen']
    simpa using hgetc
  have hmerge : merge h (some q0) = Except.ok { h with data_ := data'.dropLast, head_ := mhead (mergeIdx h.data_ (p0 :: lp0) (q0 :: lq0)) } := by
    unfold merge
    rw [hph]
    simp only []
    rw [getS_some, getE_of_get? _ hpn, okBind, getS_some, getE_of_get? _ hqn, okBind]
    rw [show 2 * (h.data_ ++ [BHNode.mk0]).length + 2 =
      2 * (h.data_ ++ [BHNode.mk0]).length + 2 from rfl]
    rw [hrun, okBind, getE_of_get? _ hback, okBind, ers]
  have hdropget : ∀ i, i < h.data_.length → data'.dropLast.get? i = data'.get? i := by
    intro i hi
    rw [List.dropLast_eq_take, List.get?_take]
    omega
  have hdropnone : ∀ i, h.data_.length ≤ i → data'.dropLast.get? i = none := by
    intro i hi
    refine List.get?_eq_none.mpr ?_
    rw [List.length_dropLast, hlen']
    omega
  have hMmem : ∀ i ∈ mergeIdx h.data_ (p0 :: lp0) (q0 :: lq0),
      i ∈ (p0 :: lp0) ++ (q0 :: lq0) :=
    fun i hi => (mergeIdx_perm h.data_ _ _).mem_iff.mp hi
  refine ⟨data'.dropLast, hmerge, ?_, ?_, ?_, ?_⟩
  · rw [List.length_dropLast, hlen']
    omega
  · intro i hi
    rcases Nat.lt_or_ge i h.data_.length with h1 | h1
    · rw [hdropget i h1, hfr i ?_, List.get?_append h1]
      intro hm
      rcases List.mem_cons.mp hm with hEq | hm'
      · omega
      · exact hi hm'
    · rw [hdropnone i h1, List.get?_eq_none.mpr h1]
  · intro i nd' hget
    have hi : i < h.data_.length := by
      by_contra hcon
      rw [hdropnone i (by omega)] at hget
      exact Option.noConfusion hget
    rw [hdropget i hi] at hget
    obtain ⟨ndm, hgm, f1, f2, f3, f4⟩ := hpres i nd' hget
    rw [List.get?_append hi] at hgm
    exact ⟨ndm, hgm, f1, f2, f3, f4⟩
  · refine chainF_frame hchain ?_
    intro i hi
    have hilt := hmem_lt i (hMmem i hi)
    rw [hdropget i hilt]

/-- A link chain starting at a given pointer is unique. -/
theorem chainF_unique {f : BHNode → Option Nat} {data : List BHNode} :
    ∀ {o : Option Nat} {l1 : List Nat}, IsChainF f data o l1 →
    ∀ {l2 : List Nat}, IsChainF f data o l2 → l1 = l2 := by
  intro o l1 h1
  induction h1 with
  | nil =>
    intro l2 h2
    cases h2
    rfl
  | @cons x rest nd hget hrest ih =>
    intro l2 h2
    cases h2 with
    | cons nd2 hget2 hrest2 =>
      have hnd : nd2 = nd := by
        rw [hget] at hget2
        exact (Option.some.inj hget2).symm
      subst hnd
      rw [ih hrest2]

/-- Splitting a chain at any of its members. -/
theorem chainF_mem_split {f : BHNode → Option Nat} {data : List BHNode} :
    ∀ {o : Option Nat} {l : List Nat}, IsChainF f data o l →
    ∀ {w : Nat}, w ∈ l →
    ∃ l1 l2, l = l1 ++ w :: l2 ∧ IsChainF f data (some w) (w :: l2) := by
  intro o l h
  induction h with
  | nil => intro w hw; cases hw
  | @cons x rest nd hget hrest ih =>
    intro w hw
    rcases List.mem_cons.mp hw with rfl | hw'
    · exact ⟨[], rest, rfl, IsChainF.cons nd hget hrest⟩
    · obtain ⟨l1, l2, heq, hch⟩ := ih hw'
      refine ⟨x :: l1, l2, ?_, hch⟩
      rw [List.cons_append, heq]

/-- A link chain never repeats a node. -/
theorem chainF_nodup {f : BHNode → Option Nat} {data : List BHNode} :
    ∀ {o : Option Nat} {l : List Nat}, IsChainF f data o l → l.Nodup := by
  intro o l h
  induction h with
  | nil => exact List.nodup_nil
  | @cons x rest nd hget hrest ih =>
    refine List.nodup_cons.mpr ⟨?_, ih⟩
    intro hmem
    obtain ⟨l1, l2, heq, hch⟩ := chainF_mem_split hrest hmem
    have hfull : IsChainF f data (some x) (x :: rest) := IsChainF.cons nd hget hrest
    have heq2 := chainF_unique hfull hch
    have hr : rest = l2 := by injection heq2
    have hlen : rest.length = l1.length + (l2.length + 1) := by
      rw [heq]
      simp [List.length_append]
    rw [hr] at hlen
    omega

/-- Mapping degrees is stable under pointwise-framed node arrays. -/
theorem map_degOf_congr {data data' : List BHNode} {l : List Nat}
    (h : ∀ m ∈ l, data'.get? m = data.get? m) :
    l.map (degOf data') = l.map (degOf data) := by
  refine List.map_congr_left ?_
  intro m hm
  unfold degOf
  rw [h m hm]

/-- A merge shape can be rebased at any bound below its head. -/
theorem mergeShape_strength {b b' a : Nat} {l : List Nat}
    (h : MergeShape b (a :: l)) (hb : b' ≤ a) : MergeShape b' (a :: l) := by
  cases h with
  | one hba h => exact MergeShape.one hb h
  | two hba h => exact MergeShape.two hb h

/-- Inverting a merge shape at a cons: the head respects the bound and
the tail either continues above the head or starts with a copy of it. -/
theorem mergeShape_cons_inv {b a : Nat} {l : List Nat}
    (h : MergeShape b (a :: l)) :
    b ≤ a ∧ (MergeShape (a + 1) l ∨
      ∃ l', l = a :: l' ∧ MergeShape (a + 1) l') := by
  cases h with
  | one hba h => exact ⟨hba, Or.inl h⟩
  | two hba h => exact ⟨hba, Or.inr ⟨_, rfl, h⟩⟩

/-- Appending one strictly larger element keeps a mapped list strictly
increasing. -/
theorem chain'_map_snoc {g : Nat → Nat} {l : List Nat} {x : Nat}
    (h : List.Chain' (· < ·) (l.map g))
    (hlast : ∀ a, l.getLast? = some a → g a < g x) :
    List.Chain' (· < ·) ((l ++ [x]).map g) := by
  rw [List.map_append]
  refine List.chain'_append.mpr ⟨h, List.chain'_singleton _, ?_⟩
  intro a ha b hb
  simp only [List.map_cons, List.map_nil, List.head?_cons, Option.mem_def,
    Option.some.injEq] at hb
  rw [List.getLast?_map, Option.mem_def, Option.map_eq_some'] at ha
  obtain ⟨a0, hl, hga⟩ := ha
  rw [← hb, ← hga]
  exact hlast a0 hl

/-- Retargeting the final link of a segment. -/
theorem segF_retarget {f : BHNode → Option Nat} {data data' : List BHNode}
    {o : Option Nat} {l : List Nat} {pv x nx : Nat} {pvn' : BHNode}
    (h : SegF f data o (l ++ [pv]) (some x))
    (hnotin : pv ∉ l)
    (hfr : ∀ m ∈ l, data'.get? m = data.get? m)
    (hpv : data'.get? pv = some pvn')
    (hf : f pvn' = some nx) :
    SegF f data' o (l ++ [pv]) (some nx) := by
  obtain ⟨an, hseg, hga, hfa⟩ := segF_last h
  have hseg' : SegF f data' o l (some pv) := by
    refine segF_frame hseg ?_
    intro i hi
    exact hfr i hi
  refine segF_append hseg' ?_
  refine SegF.cons pvn' hpv ?_
  rw [hf]
  exact SegF.nil _

/-- Transporting well-formed child chains across a node-array rewrite
that leaves every chain-avoided slot intact and changes `child` and
`degree` of at most the slot `e`: every owner other than `t` and `e`
keeps its (unique) chain together with its shape properties. -/
theorem chains_transfer {data data2 : List BHNode} {W : List Nat} {t e : Nat}
    (hfr : ∀ i, i ∉ W → data2.get? i = data.get? i)
    (hcd : ∀ i nd2, i ≠ e → data2.get? i = some nd2 → ∃ nd,
      data.get? i = some nd ∧ nd2.child = nd.child ∧ nd2.degree = nd.degree)
    (hcwf : ChildWFx data t)
    (havoid : ∀ o ond cl, o ≠ t → data.get? o = some ond →
      IsChainF BHNode.right_sibling data ond.child cl → ∀ w ∈ cl, w ∉ W) :
    ∀ o on2, o ≠ t → o ≠ e → data2.get? o = some on2 →
      ∃ ond cl, data.get? o = some ond ∧
        IsChainF BHNode.right_sibling data ond.child cl ∧
        IsChainF BHNode.right_sibling data2 on2.child cl ∧
        (∀ w ∈ cl, w ∉ W) ∧
        (∀ cl2, IsChainF BHNode.right_sibling data2 on2.child cl2 → cl2 = cl) ∧
        List.Chain' (fun a b => b < a) (cl.map (degOf data2)) ∧
        (∀ c ∈ cl, degOf data2 c < on2.degree) := by
  intro o on2 hot hoe hgo2
  obtain ⟨ond, hgo, hc, hd⟩ := hcd o on2 hoe hgo2
  obtain ⟨cl, hch, hdec, hbnd⟩ := hcwf o ond hot hgo
  have hav := havoid o ond cl hot hgo hch
  have hch2 : IsChainF BHNode.right_sibling data2 ond.child cl :=
    chainF_frame hch (fun i hi => hfr i (hav i hi))
  rw [← hc] at hch2
  have hmapeq : cl.map (degOf data2) = cl.map (degOf data) :=
    map_degOf_congr (fun m hm => hfr m (hav m hm))
  refine ⟨ond, cl, hgo, hch, hch2, hav,
    fun cl2 h2 => chainF_unique h2 hch2, ?_, ?_⟩
  · rw [hmapeq]
    exact hdec
  · intro c hc'
    have hdg : degOf data2 c = degOf data c := by
      unfold degOf
      rw [hfr c (hav c hc')]
    rw [hdg, hd]
    exact hbnd c hc'

/-- The advance condition also holds on a run of three equal degrees. -/
theorem unionDefer_eq_some_eq {data : List BHNode} {xn nxn : BHNode} {nnx : Nat}
    {nnxn : BHNode} (h : xn.degree = nxn.degree)
    (hrs : nxn.right_sibling = some nnx) (hg : data.get? nnx = some nnxn)
    (heq : nnxn.degree = xn.degree) :
    unionDefer data xn nxn = Except.ok true := by
  unfold unionDefer
  rw [if_neg (by simpa using h), hrs]
  show (do
    let nnxn2 ← getE "union: node after next" data nnx
    pure (decide (nnxn2.degree = xn.degree))) = _
  rw [getE_of_get? _ hg, okBind, decide_eq_true heq]
  rfl

/-- One consolidation step in which `next_x` absorbs `x` while a
predecessor exists: the predecessor's sibling link is repaired to
`next_x` and the head survives. -/
theorem unionLoop_step_nxwins_prev {fuel : Nat} {elements : List Val}
    {data : List BHNode} {head : Option Nat} {x nx pv : Nat}
    {xn nxn pvn : BHNode} {xv nxv : Val}
    (hx : data.get? x = some xn) (hnx : data.get? nx = some nxn) (hne : x ≠ nx)
    (hpv : data.get? pv = some pvn) (hpx : pv ≠ x) (hpnx : pv ≠ nx)
    (hdef : unionDefer data xn nxn = Except.ok false)
    (hxv : elements.get? xn.item_index = some xv)
    (hnxv : elements.get? nxn.item_index = some nxv)
    (hcmp : compare_ xv nxv = false) :
    unionLoop (fuel+1) elements data head x (some nx) (some pv) =
      unionLoop fuel elements
        (((data.set pv { pvn with right_sibling := some nx }).set x
            { xn with parent := some nx, right_sibling := nxn.child }).set nx
          { nxn with child := some x, degree := nxn.degree + 1 })
        head nx nxn.right_sibling (some pv) := by
  have hx1 : (data.set pv { pvn with right_sibling := some nx }).get? x = some xn := by
    rw [List.get?_set_ne _ _ hpx]
    exact hx
  have hnx1 : (data.set pv { pvn with right_sibling := some nx }).get? nx = some nxn := by
    rw [List.get?_set_ne _ _ hpnx]
    exact hnx
  have hlink := binomial_link_eq hx1 hnx1 hne
  have hnxfinal : (((data.set pv { pvn with right_sibling := some nx }).set x
      { xn with parent := some nx, right_sibling := nxn.child }).set nx
      { nxn with child := some x, degree := nxn.degree + 1 }).get? nx =
      some { nxn with child := some x, degree := nxn.degree + 1 } := by
    rw [List.get?_set_eq_of_lt]
    rw [List.length_set, List.length_set]
    exact (List.get?_eq_some.mp hnx).1
  show (do
    let xn2 ← getE "union: node x" data x
    let nxn2 ← getE "union: node next" data nx
    let deferStep ← unionDefer data xn2 nxn2
    if deferStep then unionLoop fuel elements data head nx nxn2.right_sibling (some x)
    else do
      let xv2 ← getE "union: value of x" elements xn2.item_index
      let nxv2 ← getE "union: value of next" elements nxn2.item_index
      if compare_ xv2 nxv2 then do
        let data2 ← modifyE "union: sibling bypass" data x
          (fun nd => { nd with right_sibling := nxn2.right_sibling })
        let data3 ← binomial_link data2 nx x
        let xn3 ← getE "union: reread x" data3 x
        unionLoop fuel elements data3 head x xn3.right_sibling (some pv)
      else do
        let pr ← unionPrevFix data head (some pv) nx
        let data3 ← binomial_link pr.1 x nx
        let xn3 ← getE "union: reread next" data3 nx
        unionLoop fuel elements data3 pr.2 nx xn3.right_sibling (some pv)) = _
  rw [getE_of_get? _ hx, okBind, getE_of_get? _ hnx, okBind, hdef, okBind,
    if_neg (by simp : ¬ (false = true)), getE_of_get? _ hxv, okBind,
    getE_of_get? _ hnxv, okBind, hcmp,
    if_neg (by simp : ¬ (false = true))]
  have hpr : unionPrevFix data head (some pv) nx =
      Except.ok ((data.set pv { pvn with right_sibling := some nx }), head) := by
    show (do
      let d ← modifyE "union: prev relink" data pv
        (fun nd => { nd with right_sibling := some nx })
      pure (d, head) : Except String (List BHNode × Option Nat)) = _
    rw [modifyE_of_get? _ hpv, okBind]
    rfl
  rw [hpr, okBind, hlink, okBind, getE_of_get? _ hnxfinal, okBind]

/-- A list with a last element splits off that element. -/
theorem getLast?_decomp {α : Type} : ∀ {l : List α} {a : α},
    l.getLast? = some a → ∃ l0, l = l0 ++ [a] := by
  intro l
  induction l with
  | nil => intro a h; cases h
  | cons b l' ih =>
    intro a h
    cases l' with
    | nil =>
      refine ⟨[], ?_⟩
      simp only [List.getLast?_singleton] at h
      rw [Option.some.inj h]
      rfl
    | cons c l'' =>
      rw [List.getLast?_cons_cons] at h
      obtain ⟨l0, hl0⟩ := ih h
      exact ⟨b :: l0, by rw [List.cons_append, ← hl0]⟩

/-- After linking two equal-degree roots the front of the scan list is
again in merge shape, or a run of three appears. -/
theorem shape_after_link {xd : Nat} {degs : List Nat}
    (h : MergeShape (xd + 1) degs) :
    MergeShape (xd + 1) ((xd + 1) :: degs) ∨
    ∃ ws', degs = (xd + 1) :: (xd + 1) :: ws' ∧ MergeShape (xd + 2) ws' := by
  rcases mergeShape_cons_self h with h1 | ⟨r, hr, hshr⟩
  · exact Or.inl h1
  · exact Or.inr ⟨r, hr, hshr⟩

/-- The consolidation scan of `binomial_heap_union`, inverted from a
successful run: starting in a well-formed scan state (a strictly
increasing scanned prefix `done`, the cursor `x`, and a remainder whose
degrees continue a merge shape), the scan returns a strictly
increasing, parentless root list drawn from the scanned nodes, touches
no other node, and preserves the well-formedness and separation of all
child chains away from the exempted node `tp`. -/
theorem unionScan : ∀ (rest : List Nat) (fuel : Nat) (elements : List Val)
    (data : List BHNode) (head : Option Nat) (x : Nat) (xn : BHNode)
    (prev : Option Nat) (done : List Nat) (tp : Nat)
    (data' : List BHNode) (head' : Option Nat),
    unionLoop fuel elements data head x xn.right_sibling prev =
      Except.ok (data', head') →
    data.get? x = some xn →
    IsChainF BHNode.right_sibling data xn.right_sibling rest →
    SegF BHNode.right_sibling data head done (some x) →
    ((prev = none ∧ done = [] ∧ head = some x) ∨
      (∃ pv pvn done0, prev = some pv ∧ done = done0 ++ [pv] ∧
        data.get? pv = some pvn ∧ pvn.right_sibling = some x)) →
    List.Chain' (· < ·) (done.map (degOf data)) →
    (∀ pv done0, done = done0 ++ [pv] → degOf data pv ≤ xn.degree ∧
      (degOf data pv = xn.degree →
        MergeShape xn.degree (xn.degree :: rest.map (degOf data)) ∧
        ∃ y ys, rest = y :: ys ∧ degOf data y = xn.degree)) →
    (MergeShape xn.degree (xn.degree :: rest.map (degOf data)) ∨
      (∃ y z zs, rest = y :: z :: zs ∧ degOf data y = xn.degree ∧
        degOf data z = xn.degree ∧
        MergeShape (xn.degree + 1) (zs.map (degOf data)))) →
    (done ++ x :: rest).Nodup →
    (∀ r ∈ done ++ x :: rest, ∃ nd, data.get? r = some nd ∧ nd.parent = none) →
    tp ∉ done ++ x :: rest →
    ChildWFx data tp →
    SepListX data (done ++ x :: rest) tp →
    SepCCX data tp →
    ∃ rl',
      data'.length = data.length ∧
      (∀ i, i ∉ done ++ x :: rest → data'.get? i = data.get? i) ∧
      rl' ⊆ done ++ x :: rest ∧
      IsChainF BHNode.right_sibling data' head' rl' ∧
      List.Chain' (· < ·) (rl'.map (degOf data')) ∧
      (∀ r ∈ rl', ∃ nd, data'.get? r = some nd ∧ nd.parent = none) ∧
      ChildWFx data' tp ∧
      SepListX data' rl' tp ∧
      SepCCX data' tp := by
  intro rest
  induction rest with
  | nil =>
    intro fuel elements data head x xn prev done tp data' head' hrun hgx hch
      hseg hprev hdstrict hlast hshape hnd hpar htp hcwf hsl hcc
    have hrs : xn.right_sibling = none := chainF_nil_inv hch
    rw [hrs] at hrun
    cases fuel with
    | zero => simp [unionLoop] at hrun
    | succ f =>
      rw [unionLoop_none] at hrun
      have h2 := Except.ok.inj hrun
      rw [Prod.mk.injEq] at h2
      obtain ⟨hde, hhe⟩ := h2
      subst hde
      subst hhe
      have hdegx : degOf data x = xn.degree := degOf_eq hgx
      refine ⟨done ++ [x], rfl, fun i hi => rfl, fun a ha => ha, ?_, ?_, ?_,
        hcwf, hsl, hcc⟩
      · refine segF_none_chain ?_
        have h3 := segF_snoc hseg hgx
        rw [hrs] at h3
        exact h3
      · refine chain'_map_snoc hdstrict ?_
        intro a hla
        obtain ⟨l0, hl0⟩ := getLast?_decomp hla
        obtain ⟨hle, himp⟩ := hlast a l0 hl0
        rw [hdegx]
        rcases Nat.lt_or_ge (degOf data a) xn.degree with h | h
        · exact h
        · obtain ⟨hms, y, ys, hyys, _⟩ := himp (by omega)
          exact absurd hyys (by simp)
      · intro r hr
        exact hpar r hr
  | cons nx rest' ih =>
    intro fuel elements data head x xn prev done tp data' head' hrun hgx hch
      hseg hprev hdstrict hlast hshape hnd hpar htp hcwf hsl hcc
    obtain ⟨hrsx, nxn, hgnx, hch'⟩ := chainF_cons_inv hch
    have hxlt : x < data.length := (List.get?_eq_some.mp hgx).1
    have hnxlt : nx < data.length := (List.get?_eq_some.mp hgnx).1
    have hnd1 := List.nodup_append.mp hnd
    have hxdone : x ∉ done := fun hm => hnd1.2.2 hm (List.mem_cons_self _ _)
    have hnxdone : nx ∉ done := fun hm => hnd1.2.2 hm (by simp)
    have hxnotin : x ∉ nx :: rest' := (List.nodup_cons.mp hnd1.2.1).1
    have hxnx : x ≠ nx := fun hEq => hxnotin (by rw [hEq]; exact List.mem_cons_self _ _)
    have hxrest' : x ∉ rest' := fun hm => hxnotin (List.mem_cons_of_mem _ hm)
    have hnxrest' : nx ∉ rest' :=
      (List.nodup_cons.mp (List.nodup_cons.mp hnd1.2.1).2).1
    have hdegx : degOf data x = xn.degree := degOf_eq hgx
    have hdegnx : degOf data nx = nxn.degree := degOf_eq hgnx
    have htpdone : tp ∉ done := fun hm => htp (List.mem_append.mpr (Or.inl hm))
    have htpx : tp ≠ x := fun hEq => htp (by rw [hEq]; simp)
    have htpnx : tp ≠ nx := fun hEq => htp (by rw [hEq]; simp)
    have htprest' : tp ∉ rest' := fun hm => htp (by simp [hm])
    have hxpar : xn.parent = none := by
      obtain ⟨nd, hgnd, hpnd⟩ := hpar x (by simp)
      rw [hgx] at hgnd
      rw [← Option.some.inj hgnd] at hpnd
      exact hpnd
    have hnxpar : nxn.parent = none := by
      obtain ⟨nd, hgnd, hpnd⟩ := hpar nx (by simp)
      rw [hgnx] at hgnd
      rw [← Option.some.inj hgnd] at hpnd
      exact hpnd
    cases fuel with
    | zero => simp [unionLoop] at hrun
    | succ f =>
      rw [hrsx] at hrun
      by_cases hdeq : xn.degree = nxn.degree
      · rcases hshape with hsh1 | hsh2
        · -- equal degrees, two-run front: a link happens
          rw [List.map_cons] at hsh1
          have HSHR : MergeShape (xn.degree + 1) (rest'.map (degOf data)) := by
            rcases (mergeShape_cons_inv hsh1).2 with hA0 | ⟨l', hl', hB⟩
            · exfalso
              have h2 := mergeShape_head_ge hA0
              rw [hdegnx] at h2
              omega
            · injection hl' with h1 h2
              rw [← h2] at hB
              exact hB
          have hdef : unionDefer data xn nxn = Except.ok false := by
            cases hre : rest' with
            | nil =>
              have hnxrs : nxn.right_sibling = none := by
                rw [hre] at hch'
                exact chainF_nil_inv hch'
              exact unionDefer_eq_none hdeq hnxrs
            | cons w ws =>
              have hchw : IsChainF BHNode.right_sibling data nxn.right_sibling (w :: ws) := by
                rw [← hre]
                exact hch'
              obtain ⟨hnxrs, wn, hgw, hchws⟩ := chainF_cons_inv hchw
              have hwd : xn.degree + 1 ≤ wn.degree := by
                have h2 : MergeShape (xn.degree + 1) ((w :: ws).map (degOf data)) := by
                  rw [← hre]
                  exact HSHR
                rw [List.map_cons] at h2
                have h3 := mergeShape_head_ge h2
                rw [degOf_eq hgw] at h3
                exact h3
              exact unionDefer_eq_some hdeq hnxrs hgw (by omega)
          have hinv0 := hrun
          rw [show unionLoop (f+1) elements data head x (some nx) prev = (do
            let xn2 ← getE "union: node x" data x
            let nxn2 ← getE "union: node next" data nx
            let deferStep ← unionDefer data xn2 nxn2
            if deferStep then unionLoop f elements data head nx nxn2.right_sibling (some x)
            else do
              let xv2 ← getE "union: value of x" elements xn2.item_index
              let nxv2 ← getE "union: value of next" elements nxn2.item_index
              if compare_ xv2 nxv2 then do
                let data2 ← modifyE "union: sibling bypass" data x
                  (fun nd => { nd with right_sibling := nxn2.right_sibling })
                let data3 ← binomial_link data2 nx x
                let xn3 ← getE "union: reread x" data3 x
                unionLoop f elements data3 head x xn3.right_sibling prev
              else do
                let pr ← unionPrevFix data head prev nx
                let data3 ← binomial_link pr.1 x nx
                let xn3 ← getE "union: reread next" data3 nx
                unionLoop f elements data3 pr.2 nx xn3.right_sibling prev) from rfl,
            getE_of_get? _ hgx, okBind, getE_of_get? _ hgnx, okBind, hdef, okBind,
            if_neg (by simp : ¬ (false = true))] at hinv0
          obtain ⟨xv, hxvE, hinv0⟩ := exceptBind_ok hinv0
          obtain ⟨nxv, hnxvE, hinv0⟩ := exceptBind_ok hinv0
          have hxv : elements.get? xn.item_index = some xv := getE_ok hxvE
          have hnxv : elements.get? nxn.item_index = some nxv := getE_ok hnxvE
          have hsubl : (done ++ x :: rest').Sublist (done ++ x :: nx :: rest') := by
            refine List.Sublist.append_left ?_ done
            exact List.Sublist.cons₂ x (List.sublist_cons_self nx rest')
          have hsubS : (done ++ x :: rest') ⊆ (done ++ x :: nx :: rest') :=
            hsubl.subset
          have hnxnotnew : nx ∉ done ++ x :: rest' := by
            intro hm
            rcases List.mem_append.mp hm with hm2 | hm2
            · exact hnxdone hm2
            · rcases List.mem_cons.mp hm2 with hm3 | hm3
              · exact hxnx hm3.symm
              · exact hnxrest' hm3
          have hshapeRaw : MergeShape (xn.degree + 1)
              ((xn.degree + 1) :: rest'.map (degOf data)) ∨
              (∃ y z zs, rest' = y :: z :: zs ∧ degOf data y = xn.degree + 1 ∧
                degOf data z = xn.degree + 1 ∧
                MergeShape (xn.degree + 2) (zs.map (degOf data))) := by
            rcases shape_after_link HSHR with h1 | ⟨ws', hws, hsh2'⟩
            · exact Or.inl h1
            · right
              cases rest' with
              | nil => simp at hws
              | cons w rest2 =>
                cases rest2 with
                | nil =>
                  rw [List.map_cons, List.map_nil] at hws
                  injection hws with ha hb
                  exact absurd hb (by simp)
                | cons z zs =>
                  rw [List.map_cons, List.map_cons] at hws
                  injection hws with ha hws2
                  injection hws2 with hb hcs
                  exact ⟨w, z, zs, rfl, ha, hb, by rw [hcs]; exact hsh2'⟩
          cases hb : compare_ xv nxv with
          | true =>
            rw [unionLoop_step_xwins hgx hgnx hxnx hdef hxv hnxv hb] at hrun
            set Xw : BHNode := { xn with right_sibling := nxn.right_sibling, child := some nx, degree := xn.degree + 1 } with hXwdef
            set NXl : BHNode := { nxn with parent := some x, right_sibling := xn.child } with hNXldef
            set dataX : List BHNode := (data.set x Xw).set nx NXl with hdataXdef
            have hXwdeg : Xw.degree = xn.degree + 1 := by rw [hXwdef]
            have hXwrs : Xw.right_sibling = nxn.right_sibling := by rw [hXwdef]
            have hXwpar : Xw.parent = xn.parent := by rw [hXwdef]
            have hXwchild : Xw.child = some nx := by rw [hXwdef]
            have hNXlpar : NXl.parent = some x := by rw [hNXldef]
            have hNXlrs : NXl.right_sibling = xn.child := by rw [hNXldef]
            have hNXldeg : NXl.degree = nxn.degree := by rw [hNXldef]
            have hNXlchild : NXl.child = nxn.child := by rw [hNXldef]
            have hlenX : dataX.length = data.length := by
              rw [hdataXdef]
              simp [List.length_set]
            have hgxX : dataX.get? x = some Xw := by
              rw [hdataXdef, List.get?_set_ne _ _ (Ne.symm hxnx)]
              exact List.get?_set_eq_of_lt _ hxlt
            have hgnxX : dataX.get? nx = some NXl := by
              rw [hdataXdef]
              refine List.get?_set_eq_of_lt _ ?_
              rw [List.length_set]
              exact hnxlt
            have hfrX : ∀ i, x ≠ i → nx ≠ i → dataX.get? i = data.get? i := by
              intro i h1 h2
              rw [hdataXdef]
              exact get?_set2_ne _ _ h1 h2
            have hchX : IsChainF BHNode.right_sibling dataX nxn.right_sibling rest' := by
              refine chainF_frame hch' ?_
              intro i hi
              exact hfrX i (fun hEq => hxrest' (by rw [← hEq] at hi; exact hi))
                (fun hEq => hnxrest' (by rw [← hEq] at hi; exact hi))
            have hsegX : SegF BHNode.right_sibling dataX head done (some x) := by
              refine segF_frame hseg ?_
              intro i hi
              exact hfrX i (fun hEq => hxdone (by rw [← hEq] at hi; exact hi))
                (fun hEq => hnxdone (by rw [← hEq] at hi; exact hi))
            have hmapdone : done.map (degOf dataX) = done.map (degOf data) := by
              refine map_degOf_congr ?_
              intro m hm
              exact hfrX m (fun hEq => hxdone (by rw [← hEq] at hm; exact hm))
                (fun hEq => hnxdone (by rw [← hEq] at hm; exact hm))
            have hmaprest : rest'.map (degOf dataX) = rest'.map (degOf data) := by
              refine map_degOf_congr ?_
              intro m hm
              exact hfrX m (fun hEq => hxrest' (by rw [← hEq] at hm; exact hm))
                (fun hEq => hnxrest' (by rw [← hEq] at hm; exact hm))
            have hprevX : (prev = none ∧ done = [] ∧ head = some x) ∨
                (∃ pv pvn done0, prev = some pv ∧ done = done0 ++ [pv] ∧
                  dataX.get? pv = some pvn ∧ pvn.right_sibling = some x) := by
              rcases hprev with ⟨h1, h2, h3⟩ | ⟨pv, pvn, done0, h1, h2, h3, h4⟩
              · exact Or.inl ⟨h1, h2, h3⟩
              · refine Or.inr ⟨pv, pvn, done0, h1, h2, ?_, h4⟩
                have hpvdone : pv ∈ done := by rw [h2]; simp
                rw [hfrX pv (fun hEq => hxdone (by rw [hEq]; exact hpvdone))
                  (fun hEq => hnxdone (by rw [hEq]; exact hpvdone))]
                exact h3
            have hdstrictX : List.Chain' (· < ·) (done.map (degOf dataX)) := by
              rw [hmapdone]
              exact hdstrict
            have hlastX : ∀ pv done0, done = done0 ++ [pv] →
                degOf dataX pv ≤ Xw.degree ∧ (degOf dataX pv = Xw.degree →
                  MergeShape Xw.degree (Xw.degree :: rest'.map (degOf dataX)) ∧
                  ∃ y ys, rest' = y :: ys ∧ degOf dataX y = Xw.degree) := by
              intro pv done0 hd
              obtain ⟨hle, _⟩ := hlast pv done0 hd
              have hpvdone : pv ∈ done := by rw [hd]; simp
              have hfrpv : degOf dataX pv = degOf data pv := by
                unfold degOf
                rw [hfrX pv (fun hEq => hxdone (by rw [hEq]; exact hpvdone))
                  (fun hEq => hnxdone (by rw [hEq]; exact hpvdone))]
              rw [hfrpv, hXwdeg]
              constructor
              · omega
              · intro heq
                exact absurd heq (by omega)
            have hshapeX : MergeShape Xw.degree (Xw.degree :: rest'.map (degOf dataX)) ∨
                (∃ y z zs, rest' = y :: z :: zs ∧ degOf dataX y = Xw.degree ∧
                  degOf dataX z = Xw.degree ∧
                  MergeShape (Xw.degree + 1) (zs.map (degOf dataX))) := by
              rcases hshapeRaw with h1 | ⟨y, z, zs, hres, hdy, hdz, hsh⟩
              · left
                rw [hXwdeg, hmaprest]
                exact h1
              · right
                have hy' : y ∈ rest' := by rw [hres]; simp
                have hz' : z ∈ rest' := by rw [hres]; simp
                have hfy : degOf dataX y = degOf data y := by
                  unfold degOf
                  rw [hfrX y (fun hEq => hxrest' (by rw [hEq]; exact hy'))
                    (fun hEq => hnxrest' (by rw [hEq]; exact hy'))]
                have hfz : degOf dataX z = degOf data z := by
                  unfold degOf
                  rw [hfrX z (fun hEq => hxrest' (by rw [hEq]; exact hz'))
                    (fun hEq => hnxrest' (by rw [hEq]; exact hz'))]
                have hmzs : zs.map (degOf dataX) = zs.map (degOf data) := by
                  refine map_degOf_congr ?_
                  intro m hm
                  have hm' : m ∈ rest' := by rw [hres]; simp [hm]
                  exact hfrX m (fun hEq => hxrest' (by rw [hEq]; exact hm'))
                    (fun hEq => hnxrest' (by rw [hEq]; exact hm'))
                refine ⟨y, z, zs, hres, ?_, ?_, ?_⟩
                · rw [hXwdeg, hfy]
                  exact hdy
                · rw [hXwdeg, hfz]
                  exact hdz
                · rw [hXwdeg, hmzs]
                  exact hsh
            have hndX : (done ++ x :: rest').Nodup := hsubl.nodup hnd
            have hparX : ∀ r ∈ done ++ x :: rest', ∃ nd,
                dataX.get? r = some nd ∧ nd.parent = none := by
              intro r hr
              by_cases hrx : r = x
              · subst hrx
                exact ⟨Xw, hgxX, by rw [hXwpar]; exact hxpar⟩
              · have hrnx : r ≠ nx := fun hEq => hnxnotnew (by rw [← hEq]; exact hr)
                obtain ⟨nd, hgnd, hpnd⟩ := hpar r (hsubS hr)
                refine ⟨nd, ?_, hpnd⟩
                rw [hfrX r (fun hEq => hrx hEq.symm) (fun hEq => hrnx hEq.symm)]
                exact hgnd
            have htpX : tp ∉ done ++ x :: rest' := fun hm => htp (hsubS hm)
            have hfrW : ∀ i, i ∉ ([x, nx] : List Nat) → dataX.get? i = data.get? i := by
              intro i hi
              exact hfrX i (fun hEq => hi (by rw [← hEq]; simp))
                (fun hEq => hi (by rw [← hEq]; simp))
            have hcdX : ∀ i nd2, i ≠ x → dataX.get? i = some nd2 → ∃ nd,
                data.get? i = some nd ∧ nd2.child = nd.child ∧ nd2.degree = nd.degree := by
              intro i nd2 hix hg2
              by_cases hinx : i = nx
              · subst hinx
                rw [hgnxX] at hg2
                have h3 : nd2 = NXl := (Option.some.inj hg2).symm
                subst h3
                exact ⟨nxn, hgnx, hNXlchild, hNXldeg⟩
              · rw [hfrX i (fun hEq => hix hEq.symm) (fun hEq => hinx hEq.symm)] at hg2
                exact ⟨nd2, hg2, rfl, rfl⟩
            have havoidX : ∀ o ond cl, o ≠ tp → data.get? o = some ond →
                IsChainF BHNode.right_sibling data ond.child cl →
                ∀ w ∈ cl, w ∉ ([x, nx] : List Nat) := by
              intro o ond cl hot hg hchn w hw hmem
              refine hsl o ond cl hot hg hchn w hw ?_
              rcases List.mem_cons.mp hmem with rfl | hmem2
              · simp
              · rcases List.mem_cons.mp hmem2 with rfl | hmem3
                · simp
                · cases hmem3
            have htrans := chains_transfer hfrW hcdX hcwf havoidX
            obtain ⟨oldXcl, hchold, hdecold, hbndold⟩ :=
              hcwf x xn (fun hEq => htpx hEq.symm) hgx
            have hslOld : ∀ w ∈ oldXcl, w ∉ done ++ x :: nx :: rest' :=
              fun w hw => hsl x xn oldXcl (fun hEq => htpx hEq.symm) hgx hchold w hw
            have hcholdX : IsChainF BHNode.right_sibling dataX xn.child oldXcl := by
              refine chainF_frame hchold ?_
              intro i hi
              exact hfrX i (fun hEq => hslOld i hi (by rw [← hEq]; simp))
                (fun hEq => hslOld i hi (by rw [← hEq]; simp))
            have hmapold : oldXcl.map (degOf dataX) = oldXcl.map (degOf data) := by
              refine map_degOf_congr ?_
              intro m hm
              exact hfrX m (fun hEq => hslOld m hm (by rw [← hEq]; simp))
                (fun hEq => hslOld m hm (by rw [← hEq]; simp))
            have hchnewX : IsChainF BHNode.right_sibling dataX Xw.child (nx :: oldXcl) := by
              rw [hXwchild]
              refine IsChainF.cons NXl hgnxX ?_
              rw [hNXlrs]
              exact hcholdX
            have hdegXnx : degOf dataX nx = nxn.degree := by
              unfold degOf
              rw [hgnxX]
              exact hNXldeg
            have hdecnewX : List.Chain' (fun a b => b < a)
                ((nx :: oldXcl).map (degOf dataX)) := by
              rw [List.map_cons]
              refine List.chain'_cons'.mpr ⟨?_, by rw [hmapold]; exact hdecold⟩
              intro yy hyy
              rw [List.head?_map, Option.mem_def, Option.map_eq_some'] at hyy
              obtain ⟨c0, hc0, hgc0⟩ := hyy
              have hc0m : c0 ∈ oldXcl := List.mem_of_mem_head? (by rw [hc0]; rfl)
              have hfc0 : degOf dataX c0 = degOf data c0 := by
                unfold degOf
                rw [hfrX c0 (fun hEq => hslOld c0 hc0m (by rw [← hEq]; simp))
                  (fun hEq => hslOld c0 hc0m (by rw [← hEq]; simp))]
              rw [← hgc0, hfc0, hdegXnx]
              have h3 := hbndold c0 hc0m
              omega
            have hbndnewX : ∀ c ∈ nx :: oldXcl, degOf dataX c < Xw.degree := by
              intro c hc
              rw [hXwdeg]
              rcases List.mem_cons.mp hc with rfl | hc2
              · rw [hdegXnx]
                omega
              · have hfc : degOf dataX c = degOf data c := by
                  unfold degOf
                  rw [hfrX c (fun hEq => hslOld c hc2 (by rw [← hEq]; simp))
                    (fun hEq => hslOld c hc2 (by rw [← hEq]; simp))]
                rw [hfc]
                have h3 := hbndold c hc2
                omega
            have hcwfX : ChildWFx dataX tp := by
              intro o ond2 hot hg2
              by_cases hox : o = x
              · subst hox
                rw [hgxX] at hg2
                have h3 : ond2 = Xw := (Option.some.inj hg2).symm
                subst h3
                exact ⟨nx :: oldXcl, hchnewX, hdecnewX, hbndnewX⟩
              · obtain ⟨ond, cl, hgo, hcho, hcho2, hav, huni, hdec2, hbnd2⟩ :=
                  htrans o ond2 hot hox hg2
                exact ⟨cl, hcho2, hdec2, hbnd2⟩
            have hslX : SepListX dataX (done ++ x :: rest') tp := by
              intro o ond2 cl2 hot hg2 hch2 w hw
              by_cases hox : o = x
              · subst hox
                rw [hgxX] at hg2
                have h3 : ond2 = Xw := (Option.some.inj hg2).symm
                subst h3
                have hcl2 : cl2 = nx :: oldXcl := chainF_unique hch2 hchnewX
                rw [hcl2] at hw
                rcases List.mem_cons.mp hw with rfl | hw2
                · exact hnxnotnew
                · intro hmem
                  exact hslOld w hw2 (hsubS hmem)
              · obtain ⟨ond, cl, hgo, hcho, hcho2, hav, huni, hdec2, hbnd2⟩ :=
                  htrans o ond2 hot hox hg2
                have hcl2 : cl2 = cl := huni cl2 hch2
                rw [hcl2] at hw
                intro hmem
                exact hsl o ond cl hot hgo hcho w hw (hsubS hmem)
            have hccX : SepCCX dataX tp := by
              intro o1 on1 cl1 o2 on2 cl2 h1t h2t h12 hg1 hch1 hg2 hch2 w hw1
              by_cases h1x : o1 = x
              · subst h1x
                rw [hgxX] at hg1
                have h3 : on1 = Xw := (Option.some.inj hg1).symm
                subst h3
                have hcl1 : cl1 = nx :: oldXcl := chainF_unique hch1 hchnewX
                rw [hcl1] at hw1
                obtain ⟨ond2', cl2', hgo2, hcho2', hcho22, hav2, huni2, hd2, hb2⟩ :=
                  htrans o2 on2 h2t (fun hEq => h12 hEq.symm) hg2
                have hcl2 : cl2 = cl2' := huni2 cl2 hch2
                rw [hcl2]
                rcases List.mem_cons.mp hw1 with rfl | hw2
                · intro hmem
                  exact hsl o2 ond2' cl2' h2t hgo2 hcho2' w hmem (by simp)
                · intro hmem
                  exact hcc o1 xn oldXcl o2 ond2' cl2' (fun hEq => htpx hEq.symm) h2t
                    h12 hgx hchold hgo2 hcho2' w hw2 hmem
              · by_cases h2x : o2 = x
                · subst h2x
                  rw [hgxX] at hg2
                  have h3 : on2 = Xw := (Option.some.inj hg2).symm
                  subst h3
                  have hcl2 : cl2 = nx :: oldXcl := chainF_unique hch2 hchnewX
                  rw [hcl2]
                  obtain ⟨ond1', cl1', hgo1, hcho1', hcho12, hav1, huni1, hd1, hb1⟩ :=
                    htrans o1 on1 h1t h1x hg1
                  have hcl1 : cl1 = cl1' := huni1 cl1 hch1
                  rw [hcl1] at hw1
                  intro hmem
                  rcases List.mem_cons.mp hmem with hme | hme
                  · exact hsl o1 ond1' cl1' h1t hgo1 hcho1' w hw1 (by rw [hme]; simp)
                  · exact hcc o1 ond1' cl1' o2 xn oldXcl h1t (fun hEq => htpx hEq.symm)
                      h1x hgo1 hcho1' hgx hchold w hw1 hme
                · obtain ⟨ond1', cl1', hgo1, hcho1', hcho12, hav1, huni1, hd1, hb1⟩ :=
                    htrans o1 on1 h1t h1x hg1
                  obtain ⟨ond2', cl2', hgo2, hcho2', hcho22, hav2, huni2, hd2, hb2⟩ :=
                    htrans o2 on2 h2t h2x hg2
                  rw [huni1 cl1 hch1] at hw1
                  rw [huni2 cl2 hch2]
                  exact hcc o1 ond1' cl1' o2 ond2' cl2' h1t h2t h12 hgo1 hcho1'
                    hgo2 hcho2' w hw1
            obtain ⟨rl', hlen', hfr', hsub', hchn', hstr', hparc', hcwf', hsl', hcc'⟩ :=
              ih f elements dataX head x Xw prev done tp data' head'
                (by rw [hXwrs]; exact hrun) hgxX (by rw [hXwrs]; exact hchX) hsegX
                hprevX hdstrictX hlastX hshapeX hndX hparX htpX hcwfX hslX hccX
            refine ⟨rl', ?_, ?_, ?_, hchn', hstr', hparc', hcwf', hsl', hcc'⟩
            · rw [hlen', hlenX]
            · intro i hi
              have hix : x ≠ i := fun hEq => hi (by rw [← hEq]; simp)
              have hinx : nx ≠ i := fun hEq => hi (by rw [← hEq]; simp)
              rw [hfr' i (fun hm => hi (hsubS hm)), hfrX i hix hinx]
            · exact List.Subset.trans hsub' hsubS
          | false =>
            rcases hprev with ⟨hpnone, hdnil, hheadx⟩ | ⟨pv, pvn, done0, hpsome, hdone, hgpv, hpvrs⟩
            · -- next_x absorbs the list head; the head pointer moves to next_x
              rw [hpnone] at hrun
              rw [unionLoop_step_nxwins hgx hgnx hxnx hdef hxv hnxv hb] at hrun
              set Xl : BHNode := { xn with parent := some nx, right_sibling := nxn.child } with hXldef
              set NXw : BHNode := { nxn with child := some x, degree := nxn.degree + 1 } with hNXwdef
              set dataN : List BHNode := (data.set x Xl).set nx NXw with hdataNdef
              have hXlpar : Xl.parent = some nx := by rw [hXldef]
              have hXlrs : Xl.right_sibling = nxn.child := by rw [hXldef]
              have hXldeg : Xl.degree = xn.degree := by rw [hXldef]
              have hXlchild : Xl.child = xn.child := by rw [hXldef]
              have hNXwdeg : NXw.degree = nxn.degree + 1 := by rw [hNXwdef]
              have hNXwdeg2 : NXw.degree = xn.degree + 1 := by rw [hNXwdeg, ← hdeq]
              have hNXwrs : NXw.right_sibling = nxn.right_sibling := by rw [hNXwdef]
              have hNXwpar : NXw.parent = nxn.parent := by rw [hNXwdef]
              have hNXwchild : NXw.child = some x := by rw [hNXwdef]
              have hlenN : dataN.length = data.length := by
                rw [hdataNdef]
                simp [List.length_set]
              have hgxN : dataN.get? x = some Xl := by
                rw [hdataNdef, List.get?_set_ne _ _ (Ne.symm hxnx)]
                exact List.get?_set_eq_of_lt _ hxlt
              have hgnxN : dataN.get? nx = some NXw := by
                rw [hdataNdef]
                refine List.get?_set_eq_of_lt _ ?_
                rw [List.length_set]
                exact hnxlt
              have hfrN : ∀ i, x ≠ i → nx ≠ i → dataN.get? i = data.get? i := by
                intro i h1 h2
                rw [hdataNdef]
                exact get?_set2_ne _ _ h1 h2
              have hchN : IsChainF BHNode.right_sibling dataN nxn.right_sibling rest' := by
                refine chainF_frame hch' ?_
                intro i hi
                exact hfrN i (fun hEq => hxrest' (by rw [← hEq] at hi; exact hi))
                  (fun hEq => hnxrest' (by rw [← hEq] at hi; exact hi))
              have hmaprestN : rest'.map (degOf dataN) = rest'.map (degOf data) := by
                refine map_degOf_congr ?_
                intro m hm
                exact hfrN m (fun hEq => hxrest' (by rw [← hEq] at hm; exact hm))
                  (fun hEq => hnxrest' (by rw [← hEq] at hm; exact hm))
              have hshapeN : MergeShape NXw.degree (NXw.degree :: rest'.map (degOf dataN)) ∨
                  (∃ y z zs, rest' = y :: z :: zs ∧ degOf dataN y = NXw.degree ∧
                    degOf dataN z = NXw.degree ∧
                    MergeShape (NXw.degree + 1) (zs.map (degOf dataN))) := by
                rcases hshapeRaw with h1 | ⟨y, z, zs, hres, hdy, hdz, hsh⟩
                · left
                  rw [hNXwdeg2, hmaprestN]
                  exact h1
                · right
                  have hy' : y ∈ rest' := by rw [hres]; simp
                  have hz' : z ∈ rest' := by rw [hres]; simp
                  have hfy : degOf dataN y = degOf data y := by
                    unfold degOf
                    rw [hfrN y (fun hEq => hxrest' (by rw [hEq]; exact hy'))
                      (fun hEq => hnxrest' (by rw [hEq]; exact hy'))]
                  have hfz : degOf dataN z = degOf data z := by
                    unfold degOf
                    rw [hfrN z (fun hEq => hxrest' (by rw [hEq]; exact hz'))
                      (fun hEq => hnxrest' (by rw [hEq]; exact hz'))]
                  have hmzs : zs.map (degOf dataN) = zs.map (degOf data) := by
                    refine map_degOf_congr ?_
                    intro m hm
                    have hm' : m ∈ rest' := by rw [hres]; simp [hm]
                    exact hfrN m (fun hEq => hxrest' (by rw [hEq]; exact hm'))
                      (fun hEq => hnxrest' (by rw [hEq]; exact hm'))
                  refine ⟨y, z, zs, hres, ?_, ?_, ?_⟩
                  · rw [hNXwdeg2, hfy]
                    exact hdy
                  · rw [hNXwdeg2, hfz]
                    exact hdz
                  · rw [hNXwdeg2, hmzs]
                    exact hsh
              have hsublN : (nx :: rest').Sublist (done ++ x :: nx :: rest') := by
                refine List.Sublist.trans (List.sublist_cons_self x (nx :: rest')) ?_
                exact List.sublist_append_right done (x :: nx :: rest')
              have hsubSN : (nx :: rest') ⊆ (done ++ x :: nx :: rest') := hsublN.subset
              have hndN : (nx :: rest').Nodup := hsublN.nodup hnd
              have hparN : ∀ r ∈ ([] : List Nat) ++ nx :: rest', ∃ nd,
                  dataN.get? r = some nd ∧ nd.parent = none := by
                intro r hr
                by_cases hrnx : r = nx
                · subst hrnx
                  exact ⟨NXw, hgnxN, by rw [hNXwpar]; exact hnxpar⟩
                · have hrx : r ≠ x := fun hEq => hxnotin (by rw [← hEq]; exact hr)
                  obtain ⟨nd, hgnd, hpnd⟩ := hpar r (hsubSN hr)
                  refine ⟨nd, ?_, hpnd⟩
                  rw [hfrN r (fun hEq => hrx hEq.symm) (fun hEq => hrnx hEq.symm)]
                  exact hgnd
              have htpN : tp ∉ ([] : List Nat) ++ nx :: rest' := fun hm => htp (hsubSN hm)
              have hfrWN : ∀ i, i ∉ ([x, nx] : List Nat) → dataN.get? i = data.get? i := by
                intro i hi
                exact hfrN i (fun hEq => hi (by rw [← hEq]; simp))
                  (fun hEq => hi (by rw [← hEq]; simp))
              have hcdN : ∀ i nd2, i ≠ nx → dataN.get? i = some nd2 → ∃ nd,
                  data.get? i = some nd ∧ nd2.child = nd.child ∧ nd2.degree = nd.degree := by
                intro i nd2 hinx hg2
                by_cases hix : i = x
                · subst hix
                  rw [hgxN] at hg2
                  have h3 : nd2 = Xl := (Option.some.inj hg2).symm
                  subst h3
                  exact ⟨xn, hgx, hXlchild, hXldeg⟩
                · rw [hfrN i (fun hEq => hix hEq.symm) (fun hEq => hinx hEq.symm)] at hg2
                  exact ⟨nd2, hg2, rfl, rfl⟩
              have havoidN : ∀ o ond cl, o ≠ tp → data.get? o = some ond →
                  IsChainF BHNode.right_sibling data ond.child cl →
                  ∀ w ∈ cl, w ∉ ([x, nx] : List Nat) := by
                intro o ond cl hot hg hchn w hw hmem
                refine hsl o ond cl hot hg hchn w hw ?_
                rcases List.mem_cons.mp hmem with rfl | hmem2
                · simp
                · rcases List.mem_cons.mp hmem2 with rfl | hmem3
                  · simp
                  · cases hmem3
              have htransN := chains_transfer hfrWN hcdN hcwf havoidN
              obtain ⟨oldNXcl, hcholdN, hdecoldN, hbndoldN⟩ :=
                hcwf nx nxn (fun hEq => htpnx hEq.symm) hgnx
              have hslOldN : ∀ w ∈ oldNXcl, w ∉ done ++ x :: nx :: rest' :=
                fun w hw => hsl nx nxn oldNXcl (fun hEq => htpnx hEq.symm) hgnx hcholdN w hw
              have hcholdN2 : IsChainF BHNode.right_sibling dataN nxn.child oldNXcl := by
                refine chainF_frame hcholdN ?_
                intro i hi
                exact hfrN i (fun hEq => hslOldN i hi (by rw [← hEq]; simp))
                  (fun hEq => hslOldN i hi (by rw [← hEq]; simp))
              have hmapoldN : oldNXcl.map (degOf dataN) = oldNXcl.map (degOf data) := by
                refine map_degOf_congr ?_
                intro m hm
                exact hfrN m (fun hEq => hslOldN m hm (by rw [← hEq]; simp))
                  (fun hEq => hslOldN m hm (by rw [← hEq]; simp))
              have hchnewN : IsChainF BHNode.right_sibling dataN NXw.child (x :: oldNXcl) := by
                rw [hNXwchild]
                refine IsChainF.cons Xl hgxN ?_
                rw [hXlrs]
                exact hcholdN2
              have hdegNx : degOf dataN x = xn.degree := by
                unfold degOf
                rw [hgxN]
                exact hXldeg
              have hdecnewN : List.Chain' (fun a b => b < a)
                  ((x :: oldNXcl).map (degOf dataN)) := by
                rw [List.map_cons]
                refine List.chain'_cons'.mpr ⟨?_, by rw [hmapoldN]; exact hdecoldN⟩
                intro yy hyy
                rw [List.head?_map, Option.mem_def, Option.map_eq_some'] at hyy
                obtain ⟨c0, hc0, hgc0⟩ := hyy
                have hc0m : c0 ∈ oldNXcl := List.mem_of_mem_head? (by rw [hc0]; rfl)
                have hfc0 : degOf dataN c0 = degOf data c0 := by
                  unfold degOf
                  rw [hfrN c0 (fun hEq => hslOldN c0 hc0m (by rw [← hEq]; simp))
                    (fun hEq => hslOldN c0 hc0m (by rw [← hEq]; simp))]
                rw [← hgc0, hfc0, hdegNx]
                have h3 := hbndoldN c0 hc0m
                omega
              have hbndnewN : ∀ c ∈ x :: oldNXcl, degOf dataN c < NXw.degree := by
                intro c hc
                rw [hNXwdeg]
                rcases List.mem_cons.mp hc with rfl | hc2
                · rw [hdegNx]
                  omega
                · have hfc : degOf dataN c = degOf data c := by
                    unfold degOf
                    rw [hfrN c (fun hEq => hslOldN c hc2 (by rw [← hEq]; simp))
                      (fun hEq => hslOldN c hc2 (by rw [← hEq]; simp))]
                  rw [hfc]
                  have h3 := hbndoldN c hc2
                  omega
              have hcwfN : ChildWFx dataN tp := by
                intro o ond2 hot hg2
                by_cases honx : o = nx
                · subst honx
                  rw [hgnxN] at hg2
                  have h3 : ond2 = NXw := (Option.some.inj hg2).symm
                  subst h3
                  exact ⟨x :: oldNXcl, hchnewN, hdecnewN, hbndnewN⟩
                · obtain ⟨ond, cl, hgo, hcho, hcho2, hav, huni, hdec2, hbnd2⟩ :=
                    htransN o ond2 hot honx hg2
                  exact ⟨cl, hcho2, hdec2, hbnd2⟩
              have hslN : SepListX dataN (([] : List Nat) ++ nx :: rest') tp := by
                intro o ond2 cl2 hot hg2 hch2 w hw
                by_cases honx : o = nx
                · subst honx
                  rw [hgnxN] at hg2
                  have h3 : ond2 = NXw := (Option.some.inj hg2).symm
                  subst h3
                  have hcl2 : cl2 = x :: oldNXcl := chainF_unique hch2 hchnewN
                  rw [hcl2] at hw
                  rcases List.mem_cons.mp hw with rfl | hw2
                  · intro hmem
                    exact hxnotin hmem
                  · intro hmem
                    exact hslOldN w hw2 (hsubSN hmem)
                · obtain ⟨ond, cl, hgo, hcho, hcho2, hav, huni, hdec2, hbnd2⟩ :=
                    htransN o ond2 hot honx hg2
                  have hcl2 : cl2 = cl := huni cl2 hch2
                  rw [hcl2] at hw
                  intro hmem
                  exact hsl o ond cl hot hgo hcho w hw (hsubSN hmem)
              have hccN : SepCCX dataN tp := by
                intro o1 on1 cl1 o2 on2 cl2 h1t h2t h12 hg1 hch1 hg2 hch2 w hw1
                by_cases h1nx : o1 = nx
                · subst h1nx
                  rw [hgnxN] at hg1
                  have h3 : on1 = NXw := (Option.some.inj hg1).symm
                  subst h3
                  have hcl1 : cl1 = x :: oldNXcl := chainF_unique hch1 hchnewN
                  rw [hcl1] at hw1
                  obtain ⟨ond2p, cl2p, hgo2, hcho2p, hcho22, hav2, huni2, hd2, hb2⟩ :=
                    htransN o2 on2 h2t (fun hEq => h12 hEq.symm) hg2
                  have hcl2 : cl2 = cl2p := huni2 cl2 hch2
                  rw [hcl2]
                  rcases List.mem_cons.mp hw1 with rfl | hw2
                  · intro hmem
                    exact hsl o2 ond2p cl2p h2t hgo2 hcho2p w hmem (by simp)
                  · intro hmem
                    exact hcc o1 nxn oldNXcl o2 ond2p cl2p (fun hEq => htpnx hEq.symm)
                      h2t h12 hgnx hcholdN hgo2 hcho2p w hw2 hmem
                · by_cases h2nx : o2 = nx
                  · subst h2nx
                    rw [hgnxN] at hg2
                    have h3 : on2 = NXw := (Option.some.inj hg2).symm
                    subst h3
                    have hcl2 : cl2 = x :: oldNXcl := chainF_unique hch2 hchnewN
                    rw [hcl2]
                    obtain ⟨ond1p, cl1p, hgo1, hcho1p, hcho12, hav1, huni1, hd1, hb1⟩ :=
                      htransN o1 on1 h1t h1nx hg1
                    have hcl1 : cl1 = cl1p := huni1 cl1 hch1
                    rw [hcl1] at hw1
                    intro hmem
                    rcases List.mem_cons.mp hmem with hme | hme
                    · exact hsl o1 ond1p cl1p h1t hgo1 hcho1p w hw1 (by rw [hme]; simp)
                    · exact hcc o1 ond1p cl1p o2 nxn oldNXcl h1t (fun hEq => htpnx hEq.symm)
                        h1nx hgo1 hcho1p hgnx hcholdN w hw1 hme
                  · obtain ⟨ond1p, cl1p, hgo1, hcho1p, hcho12, hav1, huni1, hd1, hb1⟩ :=
                      htransN o1 on1 h1t h1nx hg1
                    obtain ⟨ond2p, cl2p, hgo2, hcho2p, hcho22, hav2, huni2, hd2, hb2⟩ :=
                      htransN o2 on2 h2t h2nx hg2
                    rw [huni1 cl1 hch1] at hw1
                    rw [huni2 cl2 hch2]
                    exact hcc o1 ond1p cl1p o2 ond2p cl2p h1t h2t h12 hgo1 hcho1p
                      hgo2 hcho2p w hw1
              obtain ⟨rl', hlen', hfr', hsub', hchn', hstr', hparc', hcwf', hsl', hcc'⟩ :=
                ih f elements dataN (some nx) nx NXw none [] tp data' head'
                  (by rw [hNXwrs]; exact hrun) hgnxN (by rw [hNXwrs]; exact hchN)
                  (SegF.nil _) (Or.inl ⟨rfl, rfl, rfl⟩) (by simp)
                  (by intro pv2 done02 hd2; exact absurd hd2 (by simp)) hshapeN hndN
                  hparN htpN hcwfN hslN hccN
              refine ⟨rl', ?_, ?_, ?_, hchn', hstr', hparc', hcwf', hsl', hcc'⟩
              · rw [hlen', hlenN]
              · intro i hi
                have hix : x ≠ i := fun hEq => hi (by rw [← hEq]; simp)
                have hinx : nx ≠ i := fun hEq => hi (by rw [← hEq]; simp)
                have hinew : i ∉ ([] : List Nat) ++ nx :: rest' := fun hm => hi (hsubSN hm)
                rw [hfr' i hinew, hfrN i hix hinx]
              · exact List.Subset.trans hsub' hsubSN
            · -- next_x absorbs the cursor behind a predecessor
              rw [hpsome] at hrun
              have hpvdone : pv ∈ done := by rw [hdone]; simp
              have hpvx : pv ≠ x := fun hEq => hxdone (by rw [← hEq]; exact hpvdone)
              have hpvnx : pv ≠ nx := fun hEq => hnxdone (by rw [← hEq]; exact hpvdone)
              have hpvlt : pv < data.length := (List.get?_eq_some.mp hgpv).1
              have hd0nd : (done0 ++ [pv]).Nodup := by rw [← hdone]; exact hnd1.1
              have hpvnotd0 : pv ∉ done0 :=
                fun hm => (List.nodup_append.mp hd0nd).2.2 hm (by simp)
              rw [unionLoop_step_nxwins_prev hgx hgnx hxnx hgpv hpvx hpvnx hdef hxv hnxv hb] at hrun
              set PV : BHNode := { pvn with right_sibling := some nx } with hPVdef
              set Xl : BHNode := { xn with parent := some nx, right_sibling := nxn.child } with hXldef
              set NXw : BHNode := { nxn with child := some x, degree := nxn.degree + 1 } with hNXwdef
              set dataP : List BHNode := ((data.set pv PV).set x Xl).set nx NXw with hdataPdef
              have hPVrs : PV.right_sibling = some nx := by rw [hPVdef]
              have hPVpar : PV.parent = pvn.parent := by rw [hPVdef]
              have hPVdeg : PV.degree = pvn.degree := by rw [hPVdef]
              have hPVchild : PV.child = pvn.child := by rw [hPVdef]
              have hXlpar : Xl.parent = some nx := by rw [hXldef]
              have hXlrs : Xl.right_sibling = nxn.child := by rw [hXldef]
              have hXldeg : Xl.degree = xn.degree := by rw [hXldef]
              have hXlchild : Xl.child = xn.child := by rw [hXldef]
              have hNXwdeg : NXw.degree = nxn.degree + 1 := by rw [hNXwdef]
              have hNXwdeg2 : NXw.degree = xn.degree + 1 := by rw [hNXwdeg, ← hdeq]
              have hNXwrs : NXw.right_sibling = nxn.right_sibling := by rw [hNXwdef]
              have hNXwpar : NXw.parent = nxn.parent := by rw [hNXwdef]
              have hNXwchild : NXw.child = some x := by rw [hNXwdef]
              have hlenP : dataP.length = data.length := by
                rw [hdataPdef]
                simp [List.length_set]
              have hgpvP : dataP.get? pv = some PV := by
                rw [hdataPdef, List.get?_set_ne _ _ (Ne.symm hpvnx),
                  List.get?_set_ne _ _ (Ne.symm hpvx)]
                exact List.get?_set_eq_of_lt _ hpvlt
              have hgxP : dataP.get? x = some Xl := by
                rw [hdataPdef, List.get?_set_ne _ _ (Ne.symm hxnx)]
                refine List.get?_set_eq_of_lt _ ?_
                rw [List.length_set]
                exact hxlt
              have hgnxP : dataP.get? nx = some NXw := by
                rw [hdataPdef]
                refine List.get?_set_eq_of_lt _ ?_
                rw [List.length_set, List.length_set]
                exact hnxlt
              have hfrP : ∀ i, pv ≠ i → x ≠ i → nx ≠ i → dataP.get? i = data.get? i := by
                intro i h1 h2 h3
                rw [hdataPdef, List.get?_set_ne _ _ h3, List.get?_set_ne _ _ h2,
                  List.get?_set_ne _ _ h1]
              have hchP : IsChainF BHNode.right_sibling dataP nxn.right_sibling rest' := by
                refine chainF_frame hch' ?_
                intro i hi
                have hpvne : pv ≠ i := fun hEq =>
                  (hnd1.2.2 hpvdone (by rw [hEq]; simp [hi]))
                exact hfrP i hpvne (fun hEq => hxrest' (by rw [← hEq] at hi; exact hi))
                  (fun hEq => hnxrest' (by rw [← hEq] at hi; exact hi))
              have hdegPpv : degOf dataP pv = degOf data pv := by
                unfold degOf
                rw [hgpvP, hgpv]
                exact hPVdeg
              have hmaprestP : rest'.map (degOf dataP) = rest'.map (degOf data) := by
                refine map_degOf_congr ?_
                intro m hm
                have hpvne : pv ≠ m := fun hEq =>
                  (hnd1.2.2 hpvdone (by rw [hEq]; simp [hm]))
                exact hfrP m hpvne (fun hEq => hxrest' (by rw [← hEq] at hm; exact hm))
                  (fun hEq => hnxrest' (by rw [← hEq] at hm; exact hm))
              have hshapeP : MergeShape NXw.degree (NXw.degree :: rest'.map (degOf dataP)) ∨
                  (∃ y z zs, rest' = y :: z :: zs ∧ degOf dataP y = NXw.degree ∧
                    degOf dataP z = NXw.degree ∧
                    MergeShape (NXw.degree + 1) (zs.map (degOf dataP))) := by
                rcases hshapeRaw with h1 | ⟨y, z, zs, hres, hdy, hdz, hsh⟩
                · left
                  rw [hNXwdeg2, hmaprestP]
                  exact h1
                · right
                  have hy' : y ∈ rest' := by rw [hres]; simp
                  have hz' : z ∈ rest' := by rw [hres]; simp
                  have hfy : degOf dataP y = degOf data y := by
                    unfold degOf
                    rw [hfrP y (fun hEq => (hnd1.2.2 hpvdone (by rw [hEq]; simp [hy'])))
                      (fun hEq => hxrest' (by rw [hEq]; exact hy'))
                      (fun hEq => hnxrest' (by rw [hEq]; exact hy'))]
                  have hfz : degOf dataP z = degOf data z := by
                    unfold degOf
                    rw [hfrP z (fun hEq => (hnd1.2.2 hpvdone (by rw [hEq]; simp [hz'])))
                      (fun hEq => hxrest' (by rw [hEq]; exact hz'))
                      (fun hEq => hnxrest' (by rw [hEq]; exact hz'))]
                  have hmzs : zs.map (degOf dataP) = zs.map (degOf data) := by
                    refine map_degOf_congr ?_
                    intro m hm
                    have hm' : m ∈ rest' := by rw [hres]; simp [hm]
                    exact hfrP m (fun hEq => (hnd1.2.2 hpvdone (by rw [hEq]; simp [hm'])))
                      (fun hEq => hxrest' (by rw [hEq]; exact hm'))
                      (fun hEq => hnxrest' (by rw [hEq]; exact hm'))
                  refine ⟨y, z, zs, hres, ?_, ?_, ?_⟩
                  · rw [hNXwdeg2, hfy]
                    exact hdy
                  · rw [hNXwdeg2, hfz]
                    exact hdz
                  · rw [hNXwdeg2, hmzs]
                    exact hsh
              have hsegP0 : SegF BHNode.right_sibling data head (done0 ++ [pv]) (some x) := by
                rw [← hdone]
                exact hseg
              have hsegP1 : SegF BHNode.right_sibling dataP head (done0 ++ [pv]) (some nx) := by
                refine segF_retarget hsegP0 hpvnotd0 ?_ hgpvP hPVrs
                intro m hm
                have hmdone : m ∈ done := by rw [hdone]; simp [hm]
                refine hfrP m (fun hEq => hpvnotd0 (by rw [hEq]; exact hm))
                  (fun hEq => hxdone (by rw [hEq]; exact hmdone))
                  (fun hEq => hnxdone (by rw [hEq]; exact hmdone))
              have hsegP : SegF BHNode.right_sibling dataP head done (some nx) := by
                rw [hdone]
                exact hsegP1
              have hmapdoneP : done.map (degOf dataP) = done.map (degOf data) := by
                refine List.map_congr_left ?_
                intro m hm
                by_cases hmpv : m = pv
                · subst hmpv
                  exact hdegPpv
                · unfold degOf
                  rw [hfrP m (fun hEq => hmpv hEq.symm)
                    (fun hEq => hxdone (by rw [hEq]; exact hm))
                    (fun hEq => hnxdone (by rw [hEq]; exact hm))]
              have hdstrictP : List.Chain' (· < ·) (done.map (degOf dataP)) := by
                rw [hmapdoneP]
                exact hdstrict
              have hlastP : ∀ pv2 done02, done = done02 ++ [pv2] →
                  degOf dataP pv2 ≤ NXw.degree ∧ (degOf dataP pv2 = NXw.degree →
                    MergeShape NXw.degree (NXw.degree :: rest'.map (degOf dataP)) ∧
                    ∃ y ys, rest' = y :: ys ∧ degOf dataP y = NXw.degree) := by
                intro pv2 done02 hd2
                have hpv2 : pv2 = pv := by
                  have h1 : done.getLast? = some pv := by
                    rw [hdone]
                    exact List.getLast?_concat _
                  rw [hd2, List.getLast?_concat] at h1
                  exact Option.some.inj h1
                subst hpv2
                obtain ⟨hle, _⟩ := hlast pv2 done0 hdone
                rw [hdegPpv, hNXwdeg2]
                constructor
                · omega
                · intro heq
                  exact absurd heq (by omega)
              have hsublP : (done ++ nx :: rest').Sublist (done ++ x :: nx :: rest') :=
                List.Sublist.append_left (List.sublist_cons_self x (nx :: rest')) done
              have hsubSP : (done ++ nx :: rest') ⊆ (done ++ x :: nx :: rest') :=
                hsublP.subset
              have hxnotnewP : x ∉ done ++ nx :: rest' := by
                intro hm
                rcases List.mem_append.mp hm with hm2 | hm2
                · exact hxdone hm2
                · rcases List.mem_cons.mp hm2 with hm3 | hm3
                  · exact hxnx hm3
                  · exact hxrest' hm3
              have hndP : (done ++ nx :: rest').Nodup := hsublP.nodup hnd
              have hparP : ∀ r ∈ done ++ nx :: rest', ∃ nd,
                  dataP.get? r = some nd ∧ nd.parent = none := by
                intro r hr
                by_cases hrpv : r = pv
                · subst hrpv
                  obtain ⟨nd, hgnd, hpnd⟩ := hpar r (List.mem_append.mpr (Or.inl hpvdone))
                  rw [hgpv] at hgnd
                  rw [← Option.some.inj hgnd] at hpnd
                  exact ⟨PV, hgpvP, by rw [hPVpar]; exact hpnd⟩
                · by_cases hrnx : r = nx
                  · subst hrnx
                    exact ⟨NXw, hgnxP, by rw [hNXwpar]; exact hnxpar⟩
                  · have hrx : r ≠ x := fun hEq => hxnotnewP (by rw [← hEq]; exact hr)
                    obtain ⟨nd, hgnd, hpnd⟩ := hpar r (hsubSP hr)
                    refine ⟨nd, ?_, hpnd⟩
                    rw [hfrP r (fun hEq => hrpv hEq.symm) (fun hEq => hrx hEq.symm)
                      (fun hEq => hrnx hEq.symm)]
                    exact hgnd
              have htpP : tp ∉ done ++ nx :: rest' := fun hm => htp (hsubSP hm)
              have hfrWP : ∀ i, i ∉ ([pv, x, nx] : List Nat) → dataP.get? i = data.get? i := by
                intro i hi
                exact hfrP i (fun hEq => hi (by rw [← hEq]; simp))
                  (fun hEq => hi (by rw [← hEq]; simp))
                  (fun hEq => hi (by rw [← hEq]; simp))
              have hcdP : ∀ i nd2, i ≠ nx → dataP.get? i = some nd2 → ∃ nd,
                  data.get? i = some nd ∧ nd2.child = nd.child ∧ nd2.degree = nd.degree := by
                intro i nd2 hinx hg2
                by_cases hipv : i = pv
                · subst hipv
                  rw [hgpvP] at hg2
                  have h3 : nd2 = PV := (Option.some.inj hg2).symm
                  subst h3
                  exact ⟨pvn, hgpv, hPVchild, hPVdeg⟩
                · by_cases hix : i = x
                  · subst hix
                    rw [hgxP] at hg2
                    have h3 : nd2 = Xl := (Option.some.inj hg2).symm
                    subst h3
                    exact ⟨xn, hgx, hXlchild, hXldeg⟩
                  · rw [hfrP i (fun hEq => hipv hEq.symm) (fun hEq => hix hEq.symm)
                      (fun hEq => hinx hEq.symm)] at hg2
                    exact ⟨nd2, hg2, rfl, rfl⟩
              have havoidP : ∀ o ond cl, o ≠ tp → data.get? o = some ond →
                  IsChainF BHNode.right_sibling data ond.child cl →
                  ∀ w ∈ cl, w ∉ ([pv, x, nx] : List Nat) := by
                intro o ond cl hot hg hchn w hw hmem
                refine hsl o ond cl hot hg hchn w hw ?_
                rcases List.mem_cons.mp hmem with rfl | hmem2
                · exact List.mem_append.mpr (Or.inl hpvdone)
                · rcases List.mem_cons.mp hmem2 with rfl | hmem3
                  · simp
                  · rcases List.mem_cons.mp hmem3 with rfl | hmem4
                    · simp
                    · cases hmem4
              have htransP := chains_transfer hfrWP hcdP hcwf havoidP
              obtain ⟨oldNXcl, hcholdN, hdecoldN, hbndoldN⟩ :=
                hcwf nx nxn (fun hEq => htpnx hEq.symm) hgnx
              have hslOldN : ∀ w ∈ oldNXcl, w ∉ done ++ x :: nx :: rest' :=
                fun w hw => hsl nx nxn oldNXcl (fun hEq => htpnx hEq.symm) hgnx hcholdN w hw
              have hcholdN2 : IsChainF BHNode.right_sibling dataP nxn.child oldNXcl := by
                refine chainF_frame hcholdN ?_
                intro i hi
                exact hfrP i (fun hEq => hslOldN i hi (by rw [← hEq]; exact List.mem_append.mpr (Or.inl hpvdone)))
                  (fun hEq => hslOldN i hi (by rw [← hEq]; simp))
                  (fun hEq => hslOldN i hi (by rw [← hEq]; simp))
              have hmapoldN : oldNXcl.map (degOf dataP) = oldNXcl.map (degOf data) := by
                refine map_degOf_congr ?_
                intro m hm
                exact hfrP m (fun hEq => hslOldN m hm (by rw [← hEq]; exact List.mem_append.mpr (Or.inl hpvdone)))
                  (fun hEq => hslOldN m hm (by rw [← hEq]; simp))
                  (fun hEq => hslOldN m hm (by rw [← hEq]; simp))
              have hchnewP : IsChainF BHNode.right_sibling dataP NXw.child (x :: oldNXcl) := by
                rw [hNXwchild]
                refine IsChainF.cons Xl hgxP ?_
                rw [hXlrs]
                exact hcholdN2
              have hdegPx : degOf dataP x = xn.degree := by
                unfold degOf
                rw [hgxP]
                exact hXldeg
              have hdecnewP : List.Chain' (fun a b => b < a)
                  ((x :: oldNXcl).map (degOf dataP)) := by
                rw [List.map_cons]
                refine List.chain'_cons'.mpr ⟨?_, by rw [hmapoldN]; exact hdecoldN⟩
                intro yy hyy
                rw [List.head?_map, Option.mem_def, Option.map_eq_some'] at hyy
                obtain ⟨c0, hc0, hgc0⟩ := hyy
                have hc0m : c0 ∈ oldNXcl := List.mem_of_mem_head? (by rw [hc0]; rfl)
                have hfc0 : degOf dataP c0 = degOf data c0 := by
                  unfold degOf
                  rw [hfrP c0 (fun hEq => hslOldN c0 hc0m (by rw [← hEq]; exact List.mem_append.mpr (Or.inl hpvdone)))
                    (fun hEq => hslOldN c0 hc0m (by rw [← hEq]; simp))
                    (fun hEq => hslOldN c0 hc0m (by rw [← hEq]; simp))]
                rw [← hgc0, hfc0, hdegPx]
                have h3 := hbndoldN c0 hc0m
                omega
              have hbndnewP : ∀ c ∈ x :: oldNXcl, degOf dataP c < NXw.degree := by
                intro c hc
                rw [hNXwdeg]
                rcases List.mem_cons.mp hc with rfl | hc2
                · rw [hdegPx]
                  omega
                · have hfc : degOf dataP c = degOf data c := by
                    unfold degOf
                    rw [hfrP c (fun hEq => hslOldN c hc2 (by rw [← hEq]; exact List.mem_append.mpr (Or.inl hpvdone)))
                      (fun hEq => hslOldN c hc2 (by rw [← hEq]; simp))
                      (fun hEq => hslOldN c hc2 (by rw [← hEq]; simp))]
                  rw [hfc]
                  have h3 := hbndoldN c hc2
                  omega
              have hcwfP : ChildWFx dataP tp := by
                intro o ond2 hot hg2
                by_cases honx : o = nx
                · subst honx
                  rw [hgnxP] at hg2
                  have h3 : ond2 = NXw := (Option.some.inj hg2).symm
                  subst h3
                  exact ⟨x :: oldNXcl, hchnewP, hdecnewP, hbndnewP⟩
                · obtain ⟨ond, cl, hgo, hcho, hcho2, hav, huni, hdec2, hbnd2⟩ :=
                    htransP o ond2 hot honx hg2
                  exact ⟨cl, hcho2, hdec2, hbnd2⟩
              have hslP : SepListX dataP (done ++ nx :: rest') tp := by
                intro o ond2 cl2 hot hg2 hch2 w hw
                by_cases honx : o = nx
                · subst honx
                  rw [hgnxP] at hg2
                  have h3 : ond2 = NXw := (Option.some.inj hg2).symm
                  subst h3
                  have hcl2 : cl2 = x :: oldNXcl := chainF_unique hch2 hchnewP
                  rw [hcl2] at hw
                  rcases List.mem_cons.mp hw with rfl | hw2
                  · exact hxnotnewP
                  · intro hmem
                    exact hslOldN w hw2 (hsubSP hmem)
                · obtain ⟨ond, cl, hgo, hcho, hcho2, hav, huni, hdec2, hbnd2⟩ :=
                    htransP o ond2 hot honx hg2
                  have hcl2 : cl2 = cl := huni cl2 hch2
                  rw [hcl2] at hw
                  intro hmem
                  exact hsl o ond cl hot hgo hcho w hw (hsubSP hmem)
              have hccP : SepCCX dataP tp := by
                intro o1 on1 cl1 o2 on2 cl2 h1t h2t h12 hg1 hch1 hg2 hch2 w hw1
                by_cases h1nx : o1 = nx
                · subst h1nx
                  rw [hgnxP] at hg1
                  have h3 : on1 = NXw := (Option.some.inj hg1).symm
                  subst h3
                  have hcl1 : cl1 = x :: oldNXcl := chainF_unique hch1 hchnewP
                  rw [hcl1] at hw1
                  obtain ⟨ond2p, cl2p, hgo2, hcho2p, hcho22, hav2, huni2, hd2, hb2⟩ :=
                    htransP o2 on2 h2t (fun hEq => h12 hEq.symm) hg2
                  have hcl2 : cl2 = cl2p := huni2 cl2 hch2
                  rw [hcl2]
                  rcases List.mem_cons.mp hw1 with rfl | hw2
                  · intro hmem
                    exact hsl o2 ond2p cl2p h2t hgo2 hcho2p w hmem (by simp)
                  · intro hmem
                    exact hcc o1 nxn oldNXcl o2 ond2p cl2p (fun hEq => htpnx hEq.symm)
                      h2t h12 hgnx hcholdN hgo2 hcho2p w hw2 hmem
                · by_cases h2nx : o2 = nx
                  · subst h2nx
                    rw [hgnxP] at hg2
                    have h3 : on2 = NXw := (Option.some.inj hg2).symm
                    subst h3
                    have hcl2 : cl2 = x :: oldNXcl := chainF_unique hch2 hchnewP
                    rw [hcl2]
                    obtain ⟨ond1p, cl1p, hgo1, hcho1p, hcho12, hav1, huni1, hd1, hb1⟩ :=
                      htransP o1 on1 h1t h1nx hg1
                    have hcl1 : cl1 = cl1p := huni1 cl1 hch1
                    rw [hcl1] at hw1
                    intro hmem
                    rcases List.mem_cons.mp hmem with hme | hme
                    · exact hsl o1 ond1p cl1p h1t hgo1 hcho1p w hw1 (by rw [hme]; simp)
                    · exact hcc o1 ond1p cl1p o2 nxn oldNXcl h1t (fun hEq => htpnx hEq.symm)
                        h1nx hgo1 hcho1p hgnx hcholdN w hw1 hme
                  · obtain ⟨ond1p, cl1p, hgo1, hcho1p, hcho12, hav1, huni1, hd1, hb1⟩ :=
                      htransP o1 on1 h1t h1nx hg1
                    obtain ⟨ond2p, cl2p, hgo2, hcho2p, hcho22, hav2, huni2, hd2, hb2⟩ :=
                      htransP o2 on2 h2t h2nx hg2
                    rw [huni1 cl1 hch1] at hw1
                    rw [huni2 cl2 hch2]
                    exact hcc o1 ond1p cl1p o2 ond2p cl2p h1t h2t h12 hgo1 hcho1p
                      hgo2 hcho2p w hw1
              obtain ⟨rl', hlen', hfr', hsub', hchn', hstr', hparc', hcwf', hsl', hcc'⟩ :=
                ih f elements dataP head nx NXw (some pv) done tp data' head'
                  (by rw [hNXwrs]; exact hrun) hgnxP (by rw [hNXwrs]; exact hchP) hsegP
                  (Or.inr ⟨pv, PV, done0, rfl, hdone, hgpvP, hPVrs⟩) hdstrictP hlastP
                  hshapeP hndP hparP htpP hcwfP hslP hccP
              refine ⟨rl', ?_, ?_, ?_, hchn', hstr', hparc', hcwf', hsl', hcc'⟩
              · rw [hlen', hlenP]
              · intro i hi
                have hipv : pv ≠ i := fun hEq => hi (by rw [← hEq]; exact List.mem_append.mpr (Or.inl hpvdone))
                have hix : x ≠ i := fun hEq => hi (by rw [← hEq]; simp)
                have hinx : nx ≠ i := fun hEq => hi (by rw [← hEq]; simp)
                rw [hfr' i (fun hm => hi (hsubSP hm)), hfrP i hipv hix hinx]
              · exact List.Subset.trans hsub' hsubSP
        · -- a run of three equal degrees: the scan advances
          obtain ⟨y, z, zs, hyzzs, hdy, hdz, hshzs⟩ := hsh2
          injection hyzzs with hy hrest2
          have hchz : IsChainF BHNode.right_sibling data nxn.right_sibling (z :: zs) := by
            rw [← hrest2]
            exact hch'
          obtain ⟨hnxrs, zn, hgz, hchzs⟩ := chainF_cons_inv hchz
          have hdegz : degOf data z = xn.degree := hdz
          have hzn : zn.degree = xn.degree := by
            rw [degOf_eq hgz] at hdegz
            exact hdegz
          have hdeft := unionDefer_eq_some_eq hdeq hnxrs hgz hzn
          rw [unionLoop_step_defer hgx hgnx hdeft] at hrun
          have hms2 : MergeShape nxn.degree (nxn.degree :: rest'.map (degOf data)) := by
            rw [hrest2, List.map_cons, hdegz, hdeq]
            exact MergeShape.two (Nat.le_refl _) (by rw [← hdeq]; exact hshzs)
          have hsegD : SegF BHNode.right_sibling data head (done ++ [x]) (some nx) := by
            have h2 := segF_snoc hseg hgx
            rw [hrsx] at h2
            exact h2
          have hdstrictD : List.Chain' (· < ·) ((done ++ [x]).map (degOf data)) := by
            refine chain'_map_snoc hdstrict ?_
            intro a hla
            obtain ⟨l0, hl0⟩ := getLast?_decomp hla
            obtain ⟨hle, himp⟩ := hlast a l0 hl0
            rw [hdegx]
            rcases Nat.lt_or_ge (degOf data a) xn.degree with h | h
            · exact h
            · exfalso
              obtain ⟨hms, y2, ys2, hyys2, hdy2⟩ := himp (by omega)
              rw [List.map_cons] at hms
              rcases (mergeShape_cons_inv hms).2 with hc1 | ⟨l', hl', hc2⟩
              · have h3 := mergeShape_head_ge hc1
                rw [hdegnx] at h3
                omega
              · injection hl' with h1 h2
                rw [← h2, hrest2, List.map_cons] at hc2
                have h3 := mergeShape_head_ge hc2
                rw [hdegz] at h3
                omega
          have hlastD : ∀ pv done0, done ++ [x] = done0 ++ [pv] →
              degOf data pv ≤ nxn.degree ∧ (degOf data pv = nxn.degree →
                MergeShape nxn.degree (nxn.degree :: rest'.map (degOf data)) ∧
                ∃ y2 ys2, rest' = y2 :: ys2 ∧ degOf data y2 = nxn.degree) := by
            intro pv done0 hd
            have hpvx : pv = x := by
              have h1 : (done ++ [x]).getLast? = some x := List.getLast?_concat _
              rw [hd, List.getLast?_concat] at h1
              exact Option.some.inj h1
            subst hpvx
            constructor
            · rw [hdegx]
              omega
            · intro heq
              refine ⟨hms2, z, zs, hrest2, ?_⟩
              rw [hdegz]
              exact hdeq
          have hLeq : done ++ x :: nx :: rest' = (done ++ [x]) ++ nx :: rest' := by
            simp
          obtain ⟨rl', hlen', hfr', hsub', hchn', hstr', hparc', hcwf', hsl', hcc'⟩ :=
            ih f elements data head nx nxn (some x) (done ++ [x]) tp data' head'
              hrun hgnx hch' hsegD (Or.inr ⟨x, xn, done, rfl, rfl, hgx, hrsx⟩)
              hdstrictD hlastD (Or.inl hms2)
              (by rw [← hLeq]; exact hnd) (by rw [← hLeq]; exact hpar)
              (by rw [← hLeq]; exact htp) hcwf (by rw [← hLeq]; exact hsl) hcc
          refine ⟨rl', hlen', ?_, ?_, hchn', hstr', hparc', hcwf', hsl', hcc'⟩
          · intro i hi
            refine hfr' i ?_
            rw [← hLeq]
            exact hi
          · rw [hLeq]
            exact hsub'
      · -- degrees differ: the scan advances
        have hdne : xn.degree ≠ nxn.degree := hdeq
        have hA : MergeShape (xn.degree + 1)
            (degOf data nx :: rest'.map (degOf data)) := by
          rcases hshape with hsh1 | hsh2
          · rw [List.map_cons] at hsh1
            rcases (mergeShape_cons_inv hsh1).2 with hA0 | ⟨l', hl', hB⟩
            · exact hA0
            · exfalso
              injection hl' with h1 h2
              rw [hdegnx] at h1
              exact hdne h1.symm
          · exfalso
            obtain ⟨y, z, zs, hyzzs, hdy, hdz, hshzs⟩ := hsh2
            injection hyzzs with h1 h2
            rw [← h1, hdegnx] at hdy
            exact hdne hdy.symm
        have hnxd_ge : xn.degree + 1 ≤ nxn.degree := by
          have h2 := mergeShape_head_ge hA
          rw [hdegnx] at h2
          exact h2
        have hdeft : unionDefer data xn nxn = Except.ok true := unionDefer_ne hdne
        rw [unionLoop_step_defer hgx hgnx hdeft] at hrun
        have hsegD : SegF BHNode.right_sibling data head (done ++ [x]) (some nx) := by
          have h2 := segF_snoc hseg hgx
          rw [hrsx] at h2
          exact h2
        have hdstrictD : List.Chain' (· < ·) ((done ++ [x]).map (degOf data)) := by
          refine chain'_map_snoc hdstrict ?_
          intro a hla
          obtain ⟨l0, hl0⟩ := getLast?_decomp hla
          obtain ⟨hle, himp⟩ := hlast a l0 hl0
          rw [hdegx]
          rcases Nat.lt_or_ge (degOf data a) xn.degree with h | h
          · exact h
          · exfalso
            obtain ⟨hms, y, ys, hyys, hdy⟩ := himp (by omega)
            injection hyys with h1 h2
            rw [← h1, hdegnx] at hdy
            exact hdne hdy.symm
        have hlastD : ∀ pv done0, done ++ [x] = done0 ++ [pv] →
            degOf data pv ≤ nxn.degree ∧ (degOf data pv = nxn.degree →
              MergeShape nxn.degree (nxn.degree :: rest'.map (degOf data)) ∧
              ∃ y ys, rest' = y :: ys ∧ degOf data y = nxn.degree) := by
          intro pv done0 hd
          have hpvx : pv = x := by
            have h1 : (done ++ [x]).getLast? = some x := List.getLast?_concat _
            rw [hd, List.getLast?_concat] at h1
            exact Option.some.inj h1
          subst hpvx
          constructor
          · rw [hdegx]
            omega
          · intro heq
            rw [hdegx] at heq
            exact absurd heq (by omega)
        have hshapeD : MergeShape nxn.degree (nxn.degree :: rest'.map (degOf data)) := by
          have h2 := mergeShape_strength hA (Nat.le_refl (degOf data nx))
          rw [hdegnx] at h2
          exact h2
        have hLeq : done ++ x :: nx :: rest' = (done ++ [x]) ++ nx :: rest' := by
          simp
        obtain ⟨rl', hlen', hfr', hsub', hchn', hstr', hparc', hcwf', hsl', hcc'⟩ :=
          ih f elements data head nx nxn (some x) (done ++ [x]) tp data' head'
            hrun hgnx hch' hsegD (Or.inr ⟨x, xn, done, rfl, rfl, hgx, hrsx⟩)
            hdstrictD hlastD (Or.inl hshapeD)
            (by rw [← hLeq]; exact hnd) (by rw [← hLeq]; exact hpar)
            (by rw [← hLeq]; exact htp) hcwf (by rw [← hLeq]; exact hsl) hcc
        refine ⟨rl', hlen', ?_, ?_, hchn', hstr', hparc', hcwf', hsl', hcc'⟩
        · intro i hi
          refine hfr' i ?_
          rw [← hLeq]
          exact hi
        · rw [hLeq]
          exact hsub'

/-- The prefix of a chain before any chosen member forms a segment
ending at that member. -/
theorem chainF_prefix_seg {f : BHNode → Option Nat} {data : List BHNode} :
    ∀ {l1 : List Nat} {o : Option Nat} {w : Nat} {l2 : List Nat},
    IsChainF f data o (l1 ++ w :: l2) → SegF f data o l1 (some w) := by
  intro l1
  induction l1 with
  | nil =>
    intro o w l2 h
    obtain ⟨ho, nd, hget, hrest⟩ := chainF_cons_inv h
    rw [ho]
    exact SegF.nil _
  | cons a l1' ih =>
    intro o w l2 h
    rw [List.cons_append] at h
    obtain ⟨ho, nd, hget, hrest⟩ := chainF_cons_inv h
    rw [ho]
    exact SegF.cons nd hget (ih hrest)

/-- A chain survives any rewrite that keeps every slot populated with
the same sibling link. -/
theorem chainF_of_rs_pres {data data2 : List BHNode}
    (h : ∀ i nd, data.get? i = some nd → ∃ nd2, data2.get? i = some nd2 ∧
      nd2.right_sibling = nd.right_sibling) :
    ∀ {o : Option Nat} {l : List Nat},
    IsChainF BHNode.right_sibling data o l →
    IsChainF BHNode.right_sibling data2 o l := by
  intro o l hch
  induction hch with
  | nil => exact IsChainF.nil
  | cons nd hget hrest ih =>
    obtain ⟨nd2, hget2, hrs2⟩ := h _ nd hget
    refine IsChainF.cons nd2 hget2 ?_
    rw [hrs2]
    exact ih

/-- Removing the second of two adjacent members keeps a mapped list
strictly increasing. -/
theorem chain'_lt_append_middle {g : Nat → Nat} {l1 l2 : List Nat} {a b : Nat}
    (h : List.Chain' (· < ·) ((l1 ++ a :: b :: l2).map g)) :
    List.Chain' (· < ·) ((l1 ++ a :: l2).map g) := by
  rw [List.map_append, List.map_cons, List.map_cons] at h
  rw [List.map_append, List.map_cons]
  obtain ⟨h1, h2, hlink⟩ := List.chain'_append.mp h
  obtain ⟨hab, h3⟩ := List.chain'_cons.mp h2
  obtain ⟨hbl, h4⟩ := List.chain'_cons'.mp h3
  refine List.chain'_append.mpr ⟨h1, ?_, ?_⟩
  · refine List.chain'_cons'.mpr ⟨?_, h4⟩
    intro y hy
    exact lt_trans hab (hbl y hy)
  · intro p hp q hq
    simp only [List.head?_cons, Option.mem_def, Option.some.injEq] at hq
    rw [← hq]
    exact hlink p hp (g a) (by simp)

/-- Inverting a successful predecessor scan: the scanned chain splits
at the returned predecessor, whose sibling is the sought node. -/
theorem popScan_ok : ∀ {fuel : Nat} {data : List BHNode} {tmp tp pred : Nat},
    popScan fuel data tmp tp = Except.ok pred →
    ∀ {l : List Nat}, IsChainF BHNode.right_sibling data (some tmp) l →
    ∃ l1 l2, l = l1 ++ pred :: tp :: l2 := by
  intro fuel
  induction fuel with
  | zero =>
    intro data tmp tp pred h
    simp [popScan] at h
  | succ f ih =>
    intro data tmp tp pred h l hch
    cases hch with
    | cons nd hget hrest =>
      rw [show popScan (f+1) data tmp tp = (do
        let tn ← getE "pop: scan node" data tmp
        if tn.right_sibling = some tp then Except.ok tmp
        else
          match tn.right_sibling with
          | none => Except.error "pop: scan reached sentinel"
          | some nxt => popScan f data nxt tp) from rfl] at h
      rw [getE_of_get? _ hget, okBind] at h
      by_cases hrs : nd.right_sibling = some tp
      · rw [if_pos hrs] at h
        have hpred : tmp = pred := Except.ok.inj h
        subst hpred
        rw [hrs] at hrest
        cases hrest with
        | cons nd2 hget2 hrest2 =>
          exact ⟨[], _, rfl⟩
      · rw [if_neg hrs] at h
        cases hrs2 : nd.right_sibling with
        | none =>
          rw [hrs2] at h
          exact absurd h (by simp)
        | some nxt =>
          rw [hrs2] at h hrest
          obtain ⟨l1, l2, hsplit⟩ := ih h hrest
          exact ⟨tmp :: l1, l2, by rw [List.cons_append, ← hsplit]⟩

/-- Degrees are stable under a rewrite that keeps every degree. -/
theorem degOf_pres {data data2 : List BHNode} (hlen : data2.length = data.length)
    (hpres : ∀ i nd', data2.get? i = some nd' → ∃ nd, data.get? i = some nd ∧
      nd'.degree = nd.degree) :
    ∀ i, degOf data2 i = degOf data i := by
  intro i
  cases hg : data2.get? i with
  | none =>
    have hge : data2.length ≤ i := List.get?_eq_none.mp hg
    unfold degOf
    rw [hg, List.get?_eq_none.mpr (by omega)]
  | some nd' =>
    obtain ⟨nd, hgnd, hdeg⟩ := hpres i nd' hg
    unfold degOf
    rw [hg, hgnd]
    exact hdeg

/-- Separation restricts along list inclusion. -/
theorem sepListX_mono {data : List BHNode} {L L' : List Nat} {t : Nat}
    (h : SepListX data L t) (hsub : ∀ a ∈ L', a ∈ L) : SepListX data L' t :=
  fun o ond cl hot hg hch w hw hm => h o ond cl hot hg hch w hw (hsub w hm)

/-- Transporting the three chain-shaped invariants across a rewrite
that keeps `child` and `degree` everywhere and touches only slots that
no chain visits. -/
theorem struct_transfer {data data2 : List BHNode} {W : List Nat} {t : Nat}
    (hlen : data2.length = data.length)
    (hfr : ∀ i, i ∉ W → data2.get? i = data.get? i)
    (hcd : ∀ i nd2, data2.get? i = some nd2 → ∃ nd, data.get? i = some nd ∧
      nd2.child = nd.child ∧ nd2.degree = nd.degree)
    (hcwf : ChildWFx data t)
    (hsl : SepListX data W t)
    (hcc : SepCCX data t) :
    ChildWFx data2 t ∧ SepListX data2 W t ∧ SepCCX data2 t := by
  have htr := @chains_transfer data data2 W t data.length hfr
    (fun i nd2 _ hg => hcd i nd2 hg) hcwf hsl
  have hoe : ∀ {o : Nat} {nd2 : BHNode}, data2.get? o = some nd2 → o ≠ data.length := by
    intro o nd2 hg
    have holt := (List.get?_eq_some.mp hg).1
    rw [← hlen]
    omega
  refine ⟨?_, ?_, ?_⟩
  · intro o ond hot hg
    obtain ⟨ond0, cl, hgo, hcho, hcho2, hav, huni, hdec2, hbnd2⟩ :=
      htr o ond hot (hoe hg) hg
    exact ⟨cl, hcho2, hdec2, hbnd2⟩
  · intro o ond cl2 hot hg hch2 w hw
    obtain ⟨ond0, cl, hgo, hcho, hcho2, hav, huni, hdec2, hbnd2⟩ :=
      htr o ond hot (hoe hg) hg
    rw [huni cl2 hch2] at hw
    exact hav w hw
  · intro o1 on1 cl1 o2 on2 cl2 h1t h2t h12 hg1 hch1 hg2 hch2 w hw1
    obtain ⟨ond1, cl1p, hgo1, hcho1, hcho12, hav1, huni1, hd1, hb1⟩ :=
      htr o1 on1 h1t (hoe hg1) hg1
    obtain ⟨ond2, cl2p, hgo2, hcho2, hcho22, hav2, huni2, hd2, hb2⟩ :=
      htr o2 on2 h2t (hoe hg2) hg2
    rw [huni1 cl1 hch1] at hw1
    rw [huni2 cl2 hch2]
    exact hcc o1 ond1 cl1p o2 ond2 cl2p h1t h2t h12 hgo1 hcho1 hgo2 hcho2 w hw1

/-- Inverting a successful `binomial_heap_union` on two well-formed,
separated root lists: the result is a heap with the same value store,
top reference and handle index, whose root list is strictly increasing
and parentless, drawn from the united roots, with all child chains
(away from the exempted node) well formed and separated. -/
theorem union_ok_struct {hm : BHeap} {q0 p0 : Nat} {lp0 lq0 : List Nat}
    {tp : Nat} {hu : BHeap}
    (hres : binomial_heap_union hm (some q0) = Except.ok hu)
    (hph : hm.head_ = some p0)
    (hchp : IsChainF BHNode.right_sibling hm.data_ (some p0) (p0 :: lp0))
    (hchq : IsChainF BHNode.right_sibling hm.data_ (some q0) (q0 :: lq0))
    (hsp : List.Chain' (· < ·) ((p0 :: lp0).map (degOf hm.data_)))
    (hsq : List.Chain' (· < ·) ((q0 :: lq0).map (degOf hm.data_)))
    (hnd : ((p0 :: lp0) ++ (q0 :: lq0)).Nodup)
    (hpar : ∀ r ∈ (p0 :: lp0) ++ (q0 :: lq0), ∃ nd,
      hm.data_.get? r = some nd ∧ nd.parent = none)
    (htp : tp ∉ (p0 :: lp0) ++ (q0 :: lq0))
    (hcwf : ChildWFx hm.data_ tp)
    (hsl : SepListX hm.data_ ((p0 :: lp0) ++ (q0 :: lq0)) tp)
    (hcc : SepCCX hm.data_ tp) :
    ∃ rl', hu.elements_ = hm.elements_ ∧ hu.top_ = hm.top_ ∧
      hu.index_array = hm.index_array ∧ hu.data_.length = hm.data_.length ∧
      (∀ i, i ∉ (p0 :: lp0) ++ (q0 :: lq0) → hu.data_.get? i = hm.data_.get? i) ∧
      (∀ r ∈ rl', r ∈ (p0 :: lp0) ++ (q0 :: lq0)) ∧
      RootsWF hu.data_ hu.head_ rl' ∧
      ChildWFx hu.data_ tp ∧ SepListX hu.data_ rl' tp ∧ SepCCX hu.data_ tp := by
  obtain ⟨dataM, hmeq, hlenM, hfrM, hpresM, hchM⟩ := merge_ok_general hph hchp hchq hnd
  have hMperm := mergeIdx_perm hm.data_ (p0 :: lp0) (q0 :: lq0)
  have hdegM : ∀ i, degOf dataM i = degOf hm.data_ i :=
    degOf_pres hlenM (fun i nd' hg => by
      obtain ⟨nd, hgnd, e1, e2, e3, e4⟩ := hpresM i nd' hg
      exact ⟨nd, hgnd, e2⟩)
  have hcdM : ∀ i nd2, dataM.get? i = some nd2 → ∃ nd,
      hm.data_.get? i = some nd ∧ nd2.child = nd.child ∧ nd2.degree = nd.degree := by
    intro i nd2 hg
    obtain ⟨nd, hgnd, e1, e2, e3, e4⟩ := hpresM i nd2 hg
    exact ⟨nd, hgnd, e4, e2⟩
  obtain ⟨hcwfM, hslMW, hccM⟩ := struct_transfer hlenM hfrM hcdM hcwf hsl hcc
  have hMsub : ∀ a ∈ mergeIdx hm.data_ (p0 :: lp0) (q0 :: lq0),
      a ∈ (p0 :: lp0) ++ (q0 :: lq0) := fun a ha => hMperm.mem_iff.mp ha
  have hslM : SepListX dataM (mergeIdx hm.data_ (p0 :: lp0) (q0 :: lq0)) tp :=
    sepListX_mono hslMW hMsub
  have hWlt : ∀ r ∈ (p0 :: lp0) ++ (q0 :: lq0), r < hm.data_.length := by
    intro r hr
    rcases List.mem_append.mp hr with h1 | h1
    · exact chainF_mem_lt hchp r h1
    · exact chainF_mem_lt hchq r h1
  have hparM : ∀ r ∈ mergeIdx hm.data_ (p0 :: lp0) (q0 :: lq0), ∃ nd,
      dataM.get? r = some nd ∧ nd.parent = none := by
    intro r hr
    have hrW := hMsub r hr
    have hrlt : r < dataM.length := by
      rw [hlenM]
      exact hWlt r hrW
    obtain ⟨nd', hg'⟩ := get?_of_lt hrlt
    obtain ⟨nd, hgnd, e1, e2, e3, e4⟩ := hpresM r nd' hg'
    obtain ⟨nd0, hg0, hp0⟩ := hpar r hrW
    rw [hgnd] at hg0
    refine ⟨nd', hg', ?_⟩
    rw [e3, Option.some.inj hg0]
    exact hp0
  have hndM : (mergeIdx hm.data_ (p0 :: lp0) (q0 :: lq0)).Nodup :=
    hMperm.nodup_iff.mpr hnd
  have htpM : tp ∉ mergeIdx hm.data_ (p0 :: lp0) (q0 :: lq0) :=
    fun hm2 => htp (hMsub tp hm2)
  have hms0 : MergeShape 0
      ((mergeIdx hm.data_ (p0 :: lp0) (q0 :: lq0)).map (degOf hm.data_)) :=
    mergeIdx_shape hm.data_ (p0 :: lp0) (q0 :: lq0) 0 hsp hsq
      (fun a _ => Nat.zero_le _) (fun a _ => Nat.zero_le _)
  have hmapM : (mergeIdx hm.data_ (p0 :: lp0) (q0 :: lq0)).map (degOf dataM) =
      (mergeIdx hm.data_ (p0 :: lp0) (q0 :: lq0)).map (degOf hm.data_) :=
    List.map_congr_left (fun a _ => hdegM a)
  unfold binomial_heap_union at hres
  obtain ⟨h1, hmrg, hres⟩ := exceptBind_ok hres
  rw [hmeq] at hmrg
  have h1e : ({ hm with data_ := dataM, head_ := mhead (mergeIdx hm.data_ (p0 :: lp0) (q0 :: lq0)) } : BHeap) = h1 :=
    Except.ok.inj hmrg
  have hd1 : h1.data_ = dataM := by rw [← h1e]
  have hh1 : h1.head_ = mhead (mergeIdx hm.data_ (p0 :: lp0) (q0 :: lq0)) := by
    rw [← h1e]
  have he1 : h1.elements_ = hm.elements_ := by rw [← h1e]
  have ht1 : h1.top_ = hm.top_ := by rw [← h1e]
  have hi1 : h1.index_array = hm.index_array := by rw [← h1e]
  split at hres
  · exact Except.noConfusion hres
  · rename_i x hx
    cases hMl : mergeIdx hm.data_ (p0 :: lp0) (q0 :: lq0) with
    | nil =>
      exfalso
      rw [hMl] at hMperm
      have hl0 := hMperm.length_eq
      simp at hl0
    | cons m0 M' =>
      have hxm0 : x = m0 := by
        rw [hh1, hMl] at hx
        exact (Option.some.inj hx).symm
      subst hxm0
      have hchM2 : IsChainF BHNode.right_sibling dataM (some x) (x :: M') := by
        rw [hMl] at hchM
        exact hchM
      obtain ⟨hn0, hgx0, hrest0⟩ : ∃ hn0, dataM.get? x = some hn0 ∧
          IsChainF BHNode.right_sibling dataM hn0.right_sibling M' := by
        cases hchM2 with
        | cons nd hget hrest => exact ⟨nd, hget, hrest⟩
      obtain ⟨hn, hgE, hres⟩ := exceptBind_ok hres
      have hgood : dataM.get? x = some hn := by
        have h2 := getE_ok hgE
        rw [hd1] at h2
        exact h2
      have hnn0 : hn = hn0 := by
        rw [hgood] at hgx0
        exact Option.some.inj hgx0
      subst hnn0
      have hdegMx : degOf dataM x = hn.degree := degOf_eq hgood
      have hMmem : ∀ r ∈ x :: M', r ∈ (p0 :: lp0) ++ (q0 :: lq0) := by
        intro r hr
        refine hMsub r ?_
        rw [hMl]
        exact hr
      have hshape0 : MergeShape hn.degree (hn.degree :: M'.map (degOf dataM)) := by
        rw [← hmapM, hMl, List.map_cons] at hms0
        rw [hMl, List.map_cons] at hmapM
        have h2 := mergeShape_strength hms0 (Nat.le_refl _)
        rw [hdegMx] at h2
        exact h2
      split at hres
      · -- a single root: the loop is skipped
        rename_i hrsnone
        have hhu : h1 = hu := Except.ok.inj hres
        have hM'nil : M' = [] := by
          rw [hrsnone] at hrest0
          exact chainF_none_inv hrest0
        refine ⟨[x], ?_, ?_, ?_, ?_, ?_, ?_, ?_, ?_, ?_, ?_⟩
        · rw [← hhu, he1]
        · rw [← hhu, ht1]
        · rw [← hhu, hi1]
        · rw [← hhu, hd1, hlenM]
        · intro i hi
          rw [← hhu, hd1]
          exact hfrM i hi
        · intro r hr
          rcases List.mem_cons.mp hr with rfl | hr2
          · exact hMmem r (List.mem_cons_self _ _)
          · cases hr2
        · refine ⟨?_, ?_, ?_⟩
          · rw [← hhu, hd1, hh1, hMl]
            refine IsChainF.cons hn hgood ?_
            rw [hrsnone]
            exact IsChainF.nil
          · simp
          · intro r hr
            rcases List.mem_cons.mp hr with rfl | hr2
            · rw [← hhu, hd1]
              exact hparM r (by rw [hMl]; exact List.mem_cons_self _ _)
            · cases hr2
        · rw [← hhu, hd1]
          exact hcwfM
        · rw [← hhu, hd1]
          refine sepListX_mono hslM ?_
          intro a ha
          rcases List.mem_cons.mp ha with rfl | ha2
          · rw [hMl]
            exact List.mem_cons_self _ _
          · cases ha2
        · rw [← hhu, hd1]
          exact hccM
      · -- the consolidation scan runs
        rename_i rs hrs
        obtain ⟨pr, hloop, hres⟩ := exceptBind_ok hres
        obtain ⟨dataU, headU⟩ := pr
        have hhu : ({ h1 with data_ := dataU, head_ := headU } : BHeap) = hu :=
          Except.ok.inj hres
        rw [hd1, he1, hx] at hloop
        rw [← hrs] at hloop
        obtain ⟨rl', hlen', hfr', hsub', hchn', hstr', hparc', hcwf', hsl', hcc'⟩ :=
          unionScan M' (2 * dataM.length + 4) hm.elements_ dataM (some x) x hn
            none [] tp dataU headU hloop hgood hrest0 (SegF.nil _)
            (Or.inl ⟨rfl, rfl, rfl⟩) (by simp)
            (by intro pv done0 hd0; exact absurd hd0 (by simp))
            (Or.inl hshape0)
            (by rw [← hMl]; exact hndM)
            (by rw [← hMl]; exact hparM)
            (by rw [← hMl]; exact htpM)
            hcwfM (by rw [← hMl]; exact hslM) hccM
        have hdu : hu.data_ = dataU := by rw [← hhu]
        have hheadu : hu.head_ = headU := by rw [← hhu]
        refine ⟨rl', ?_, ?_, ?_, ?_, ?_, ?_, ?_, ?_, ?_, ?_⟩
        · rw [← hhu]
          exact he1
        · rw [← hhu]
          exact ht1
        · rw [← hhu]
          exact hi1
        · rw [hdu, hlen', hlenM]
        · intro i hi
          rw [hdu, hfr' i ?_]
          · exact hfrM i hi
          · intro hm2
            refine hi (hMsub i ?_)
            rw [hMl]
            exact hm2
        · intro r hr
          refine hMsub r ?_
          rw [hMl]
          exact hsub' hr
        · rw [hdu, hheadu]
          exact ⟨hchn', hstr', hparc'⟩
        · rw [hdu]
          exact hcwf'
        · rw [hdu]
          exact hsl'
        · rw [hdu]
          exact hcc'

/-- Invalidating the extracted node at the end of `pop`: resetting its
links and degree preserves the root list (which no longer contains it),
repairs its own chain, truncates any chain it sat in, and restores the
unexempted well-formedness and separation of all chains. -/
theorem invalidate_struct {data : List BHNode} {tp : Nat} {head1 : Option Nat}
    {rl1 : List Nat} {NV : BHNode}
    (htplt : tp < data.length)
    (hNVp : NV.parent = none) (hNVc : NV.child = none)
    (hNVr : NV.right_sibling = none) (hNVd : NV.degree = 0)
    (hrw : RootsWF data head1 rl1)
    (htp1 : tp ∉ rl1)
    (hcwfx : ChildWFx data tp)
    (hslx : SepListX data rl1 tp)
    (hccx : SepCCX data tp) :
    RootsWF (data.set tp NV) head1 rl1 ∧
    ChildWFx (data.set tp NV) (data.set tp NV).length ∧
    SepListX (data.set tp NV) rl1 (data.set tp NV).length ∧
    SepCCX (data.set tp NV) (data.set tp NV).length := by
  have hg4tp : (data.set tp NV).get? tp = some NV := List.get?_set_eq_of_lt _ htplt
  have hfr4 : ∀ i, i ≠ tp → (data.set tp NV).get? i = data.get? i :=
    fun i hi => List.get?_set_ne _ _ (fun hEq => hi hEq.symm)
  have hdeg4tp : degOf (data.set tp NV) tp = 0 := by
    unfold degOf
    rw [hg4tp]
    exact hNVd
  have hdesc : ∀ o ond4, o ≠ tp → (data.set tp NV).get? o = some ond4 →
      ∃ cl cl4, data.get? o = some ond4 ∧
        IsChainF BHNode.right_sibling data ond4.child cl ∧
        IsChainF BHNode.right_sibling (data.set tp NV) ond4.child cl4 ∧
        List.Chain' (fun a b => b < a) (cl4.map (degOf (data.set tp NV))) ∧
        (∀ c ∈ cl4, degOf (data.set tp NV) c < ond4.degree) ∧
        (∀ w ∈ cl4, w ∈ cl) := by
    intro o ond4 hot hg4
    have hg : data.get? o = some ond4 := by
      rw [← hfr4 o hot]
      exact hg4
    obtain ⟨cl, hch, hdec, hbnd⟩ := hcwfx o ond4 hot hg
    by_cases htpin : tp ∈ cl
    · obtain ⟨cl1, cl2, hspl, hchtp⟩ := chainF_mem_split hch htpin
      have hclnd : cl.Nodup := chainF_nodup hch
      have hclnd' : (cl1 ++ tp :: cl2).Nodup := by
        rw [← hspl]
        exact hclnd
      have htpcl1 : tp ∉ cl1 :=
        fun hm => (List.nodup_append.mp hclnd').2.2 hm (List.mem_cons_self _ _)
      have hseg : SegF BHNode.right_sibling data ond4.child cl1 (some tp) :=
        chainF_prefix_seg (by rw [← hspl]; exact hch)
      have hseg4 : SegF BHNode.right_sibling (data.set tp NV) ond4.child cl1 (some tp) :=
        segF_frame hseg
          (fun i hi => hfr4 i (fun hEq => htpcl1 (by rw [← hEq]; exact hi)))
      have hch4c : IsChainF BHNode.right_sibling (data.set tp NV) ond4.child
          (cl1 ++ [tp]) := by
        refine segF_none_chain (segF_append hseg4 ?_)
        refine SegF.cons NV hg4tp ?_
        rw [hNVr]
        exact SegF.nil none
      have hmap1 : cl1.map (degOf (data.set tp NV)) = cl1.map (degOf data) := by
        refine map_degOf_congr ?_
        intro m hm
        exact hfr4 m (fun hEq => htpcl1 (by rw [← hEq]; exact hm))
      have hdec' : List.Chain' (fun a b => b < a)
          ((cl1 ++ tp :: cl2).map (degOf data)) := by
        rw [← hspl]
        exact hdec
      rw [List.map_append, List.map_cons] at hdec'
      obtain ⟨hdec1, hdec2, hlink⟩ := List.chain'_append.mp hdec'
      refine ⟨cl, cl1 ++ [tp], hg, hch, hch4c, ?_, ?_, ?_⟩
      · rw [List.map_append, hmap1]
        refine List.chain'_append.mpr ⟨hdec1, ?_, ?_⟩
        · simp only [List.map_cons, List.map_nil]
          exact List.chain'_singleton _
        · intro a ha b hb
          simp only [List.map_cons, List.map_nil, List.head?_cons, Option.mem_def,
            Option.some.injEq] at hb
          rw [← hb, hdeg4tp]
          have h2 := hlink a ha (degOf data tp) (by simp)
          omega
      · intro c hc
        rcases List.mem_append.mp hc with hc1 | hc1
        · have hfc : degOf (data.set tp NV) c = degOf data c := by
            unfold degOf
            rw [hfr4 c (fun hEq => htpcl1 (by rw [← hEq]; exact hc1))]
          rw [hfc]
          refine hbnd c ?_
          rw [hspl]
          exact List.mem_append.mpr (Or.inl hc1)
        · rcases List.mem_cons.mp hc1 with rfl | hc2
          · rw [hdeg4tp]
            have h2 := hbnd c htpin
            omega
          · cases hc2
      · intro w hw
        rcases List.mem_append.mp hw with hw1 | hw1
        · rw [hspl]
          exact List.mem_append.mpr (Or.inl hw1)
        · rcases List.mem_cons.mp hw1 with rfl | hw2
          · exact htpin
          · cases hw2
    · have hch4c : IsChainF BHNode.right_sibling (data.set tp NV) ond4.child cl :=
        chainF_frame hch
          (fun i hi => hfr4 i (fun hEq => htpin (by rw [← hEq]; exact hi)))
      have hmapc : cl.map (degOf (data.set tp NV)) = cl.map (degOf data) := by
        refine map_degOf_congr ?_
        intro m hm
        exact hfr4 m (fun hEq => htpin (by rw [← hEq]; exact hm))
      refine ⟨cl, cl, hg, hch, hch4c, ?_, ?_, fun w hw => hw⟩
      · rw [hmapc]
        exact hdec
      · intro c hc
        have hfc : degOf (data.set tp NV) c = degOf data c := by
          unfold degOf
          rw [hfr4 c (fun hEq => htpin (by rw [← hEq]; exact hc))]
        rw [hfc]
        exact hbnd c hc
  refine ⟨⟨?_, ?_, ?_⟩, ?_, ?_, ?_⟩
  · refine chainF_frame hrw.chain ?_
    intro i hi
    exact hfr4 i (fun hEq => htp1 (by rw [← hEq]; exact hi))
  · have hmaprl : rl1.map (degOf (data.set tp NV)) = rl1.map (degOf data) := by
      refine map_degOf_congr ?_
      intro m hm
      exact hfr4 m (fun hEq => htp1 (by rw [← hEq]; exact hm))
    rw [hmaprl]
    exact hrw.strict
  · intro r hr
    obtain ⟨nd, hgnd, hpnd⟩ := hrw.rootpar r hr
    refine ⟨nd, ?_, hpnd⟩
    rw [hfr4 r (fun hEq => htp1 (by rw [← hEq]; exact hr))]
    exact hgnd
  · intro o ond4 hot4 hg4
    by_cases hotp : o = tp
    · subst hotp
      rw [hg4tp] at hg4
      have h3 : ond4 = NV := (Option.some.inj hg4).symm
      subst h3
      refine ⟨[], ?_, by simp, ?_⟩
      · rw [hNVc]
        exact IsChainF.nil
      · intro c hc
        cases hc
    · obtain ⟨cl, cl4, hg, hch, hch4c, hdec4, hbnd4, hsub4⟩ := hdesc o ond4 hotp hg4
      exact ⟨cl4, hch4c, hdec4, hbnd4⟩
  · intro o ond4 cl4a hot4 hg4 hch4a w hw
    by_cases hotp : o = tp
    · subst hotp
      rw [hg4tp] at hg4
      have h3 : ond4 = NV := (Option.some.inj hg4).symm
      subst h3
      rw [hNVc] at hch4a
      rw [chainF_none_inv hch4a] at hw
      cases hw
    · obtain ⟨cl, cl4, hg, hch, hch4c, hdec4, hbnd4, hsub4⟩ := hdesc o ond4 hotp hg4
      have hcl4a : cl4a = cl4 := chainF_unique hch4a hch4c
      rw [hcl4a] at hw
      exact hslx o ond4 cl hotp hg hch w (hsub4 w hw)
  · intro o1 on1 cl1a o2 on2 cl2a h1t h2t h12 hg1 hch1 hg2 hch2 w hw1
    by_cases h1tp : o1 = tp
    · subst h1tp
      rw [hg4tp] at hg1
      have h3 : on1 = NV := (Option.some.inj hg1).symm
      subst h3
      rw [hNVc] at hch1
      rw [chainF_none_inv hch1] at hw1
      cases hw1
    · by_cases h2tp : o2 = tp
      · subst h2tp
        rw [hg4tp] at hg2
        have h3 : on2 = NV := (Option.some.inj hg2).symm
        subst h3
        rw [hNVc] at hch2
        rw [chainF_none_inv hch2]
        intro hmem
        cases hmem
      · obtain ⟨cl1o, cl14, hgo1, hcho1, hch41, hdec41, hbnd41, hsub41⟩ :=
          hdesc o1 on1 h1tp hg1
        obtain ⟨cl2o, cl24, hgo2, hcho2, hch42, hdec42, hbnd42, hsub42⟩ :=
          hdesc o2 on2 h2tp hg2
        rw [chainF_unique hch1 hch41] at hw1
        rw [chainF_unique hch2 hch42]
        intro hmem
        exact hccx o1 on1 cl1o o2 on2 cl2o h1tp h2tp h12 hgo1 hcho1 hgo2 hcho2 w
          (hsub41 w hw1) (hsub42 w hmem)

/-- An unexempted child-chain invariant holds with any exemption. -/
theorem childWFx_relax {data : List BHNode} {t' : Nat}
    (h : ChildWFx data data.length) : ChildWFx data t' := by
  intro i nd _ hg
  refine h i nd ?_ hg
  have hlt := (List.get?_eq_some.mp hg).1
  omega

/-- An unexempted separation invariant holds with any exemption. -/
theorem sepListX_relax {data : List BHNode} {L : List Nat} {t' : Nat}
    (h : SepListX data L data.length) : SepListX data L t' := by
  intro o ond cl _ hg hch w hw
  refine h o ond cl ?_ hg hch w hw
  have hlt := (List.get?_eq_some.mp hg).1
  omega

/-- An unexempted chain-disjointness invariant holds with any exemption. -/
theorem sepCCX_relax {data : List BHNode} {t' : Nat}
    (h : SepCCX data data.length) : SepCCX data t' := by
  intro o1 on1 cl1 o2 on2 cl2 _ _ h12 hg1 hch1 hg2 hch2 w hw1
  have h1lt := (List.get?_eq_some.mp hg1).1
  have h2lt := (List.get?_eq_some.mp hg2).1
  exact h o1 on1 cl1 o2 on2 cl2 (by omega) (by omega) h12 hg1 hch1 hg2 hch2 w hw1

/-- `merge` with the sentinel second list always fails (the initial
degree read indexes the node array at the sentinel). -/
theorem merge_none_err {hm : BHeap} {hu : BHeap}
    (h : merge hm none = Except.ok hu) : False := by
  unfold merge at h
  obtain ⟨pn, h1, h⟩ := exceptBind_ok h
  obtain ⟨qn, h2, h⟩ := exceptBind_ok h
  unfold getS at h2
  exact Except.noConfusion h2

/-- `binomial_heap_union` with the sentinel second list always fails. -/
theorem union_none_err {hm : BHeap} {hu : BHeap}
    (h : binomial_heap_union hm none = Except.ok hu) : False := by
  unfold binomial_heap_union at h
  obtain ⟨h1, hmrg, h⟩ := exceptBind_ok h
  exact merge_none_err hmrg

/-- All four structural invariants survive a rewrite that keeps every
link field (`right_sibling`, `child`, `parent`) and every degree. -/
theorem struct_item_transfer {data data2 : List BHNode} {hd : Option Nat}
    {rl L : List Nat} {t : Nat}
    (hfwd : ∀ i nd, data.get? i = some nd → ∃ nd2, data2.get? i = some nd2 ∧
      nd2.right_sibling = nd.right_sibling ∧ nd2.child = nd.child ∧
      nd2.degree = nd.degree ∧ nd2.parent = nd.parent)
    (hbwd : ∀ i nd2, data2.get? i = some nd2 → ∃ nd, data.get? i = some nd ∧
      nd2.right_sibling = nd.right_sibling ∧ nd2.child = nd.child ∧
      nd2.degree = nd.degree ∧ nd2.parent = nd.parent)
    (h1 : RootsWF data hd rl) (h2 : ChildWFx data t)
    (h3 : SepListX data L t) (h4 : SepCCX data t) :
    RootsWF data2 hd rl ∧ ChildWFx data2 t ∧ SepListX data2 L t ∧ SepCCX data2 t := by
  have hchfwd : ∀ {o l}, IsChainF BHNode.right_sibling data o l →
      IsChainF BHNode.right_sibling data2 o l :=
    fun h => chainF_of_rs_pres (fun i nd hg => by
      obtain ⟨nd2, hg2, e1, e2, e3, e4⟩ := hfwd i nd hg
      exact ⟨nd2, hg2, e1⟩) h
  have hchbwd : ∀ {o l}, IsChainF BHNode.right_sibling data2 o l →
      IsChainF BHNode.right_sibling data o l :=
    fun h => chainF_of_rs_pres (fun i nd2 hg2 => by
      obtain ⟨nd, hg, e1, e2, e3, e4⟩ := hbwd i nd2 hg2
      exact ⟨nd, hg, e1.symm⟩) h
  have hdeg : ∀ i, degOf data2 i = degOf data i := by
    intro i
    cases hg2 : data2.get? i with
    | none =>
      have hge := List.get?_eq_none.mp hg2
      cases hg : data.get? i with
      | none =>
        unfold degOf
        rw [hg2, hg]
      | some nd =>
        obtain ⟨nd2, hg2b, _⟩ := hfwd i nd hg
        rw [hg2] at hg2b
        exact Option.noConfusion hg2b
    | some nd2 =>
      obtain ⟨nd, hg, e1, e2, e3, e4⟩ := hbwd i nd2 hg2
      unfold degOf
      rw [hg2, hg]
      exact e3
  refine ⟨⟨hchfwd h1.chain, ?_, ?_⟩, ?_, ?_, ?_⟩
  · rw [List.map_congr_left (fun a _ => hdeg a)]
    exact h1.strict
  · intro r hr
    obtain ⟨nd, hg, hp⟩ := h1.rootpar r hr
    obtain ⟨nd2, hg2, e1, e2, e3, e4⟩ := hfwd r nd hg
    exact ⟨nd2, hg2, by rw [e4]; exact hp⟩
  · intro o ond2 hot hg2
    obtain ⟨ond, hg, e1, e2, e3, e4⟩ := hbwd o ond2 hg2
    obtain ⟨cl, hch, hdec, hbnd⟩ := h2 o ond hot hg
    refine ⟨cl, by rw [e2]; exact hchfwd hch, ?_, ?_⟩
    · rw [List.map_congr_left (fun a _ => hdeg a)]
      exact hdec
    · intro c hc
      rw [hdeg c, e3]
      exact hbnd c hc
  · intro o ond2 cl hot hg2 hch2 w hw
    obtain ⟨ond, hg, e1, e2, e3, e4⟩ := hbwd o ond2 hg2
    refine h3 o ond cl hot hg ?_ w hw
    rw [← e2]
    exact hchbwd hch2
  · intro o1 on1 cl1 o2 on2 cl2 h1t h2t h12 hg1 hch1 hg2 hch2 w hw1
    obtain ⟨on1o, hgo1, f1, f2, f3, f4⟩ := hbwd o1 on1 hg1
    obtain ⟨on2o, hgo2, g1, g2, g3, g4⟩ := hbwd o2 on2 hg2
    refine h4 o1 on1o cl1 o2 on2o cl2 h1t h2t h12 hgo1 ?_ hgo2 ?_ w hw1
    · rw [← f2]
      exact hchbwd hch1
    · rw [← g2]
      exact hchbwd hch2

/-- Appending a fresh childless node preserves the unexempted chain
invariants, and the new index may join the separated list. -/
theorem struct_append {data : List BHNode} {obj : BHNode} {L : List Nat}
    (hobjc : obj.child = none)
    (hcwf : ChildWFx data data.length)
    (hsl : SepListX data L data.length)
    (hcc : SepCCX data data.length) :
    ChildWFx (data ++ [obj]) (data ++ [obj]).length ∧
    SepListX (data ++ [obj]) (L ++ [data.length]) (data ++ [obj]).length ∧
    SepCCX (data ++ [obj]) (data ++ [obj]).length := by
  have hfr : ∀ i, i < data.length → (data ++ [obj]).get? i = data.get? i :=
    fun i hi => List.get?_append hi
  have hgobj : (data ++ [obj]).get? data.length = some obj :=
    List.get?_concat_length _ _
  have hdesc : ∀ o ond1 cl1, (data ++ [obj]).get? o = some ond1 →
      IsChainF BHNode.right_sibling (data ++ [obj]) ond1.child cl1 →
      cl1 = [] ∨
      (o < data.length ∧ data.get? o = some ond1 ∧
        IsChainF BHNode.right_sibling data ond1.child cl1 ∧
        ∀ m ∈ cl1, m < data.length) := by
    intro o ond1 cl1 hg1 hch1
    rcases Nat.lt_or_ge o data.length with ho | ho
    · right
      have hgo : data.get? o = some ond1 := by
        rw [← hfr o ho]
        exact hg1
      obtain ⟨cl, hch, hdec, hbnd⟩ := hcwf o ond1 (by omega) hgo
      have hcllt : ∀ m ∈ cl, m < data.length := chainF_mem_lt hch
      have hch1' : IsChainF BHNode.right_sibling (data ++ [obj]) ond1.child cl :=
        chainF_frame hch (fun i hi => hfr i (hcllt i hi))
      rw [chainF_unique hch1 hch1']
      exact ⟨ho, hgo, hch, hcllt⟩
    · left
      have hole : o = data.length := by
        have hlt := (List.get?_eq_some.mp hg1).1
        rw [List.length_append, List.length_singleton] at hlt
        omega
      subst hole
      have hoo : ond1 = obj := by
        rw [hgobj] at hg1
        exact (Option.some.inj hg1).symm
      subst hoo
      rw [hobjc] at hch1
      exact chainF_none_inv hch1
  refine ⟨?_, ?_, ?_⟩
  · intro o ond1 hot hg1
    rcases Nat.lt_or_ge o data.length with ho | ho
    · have hgo : data.get? o = some ond1 := by
        rw [← hfr o ho]
        exact hg1
      obtain ⟨cl, hch, hdec, hbnd⟩ := hcwf o ond1 (by omega) hgo
      have hcllt : ∀ m ∈ cl, m < data.length := chainF_mem_lt hch
      refine ⟨cl, chainF_frame hch (fun i hi => hfr i (hcllt i hi)), ?_, ?_⟩
      · rw [map_degOf_congr (fun m hm => hfr m (hcllt m hm))]
        exact hdec
      · intro c hc
        have hfc : degOf (data ++ [obj]) c = degOf data c := by
          unfold degOf
          rw [hfr c (hcllt c hc)]
        rw [hfc]
        exact hbnd c hc
    · have hole : o = data.length := by
        have hlt := (List.get?_eq_some.mp hg1).1
        rw [List.length_append, List.length_singleton] at hlt
        omega
      subst hole
      have hoo : ond1 = obj := by
        rw [hgobj] at hg1
        exact (Option.some.inj hg1).symm
      subst hoo
      refine ⟨[], ?_, by simp, ?_⟩
      · rw [hobjc]
        exact IsChainF.nil
      · intro c hc
        cases hc
  · intro o ond1 cl1 hot hg1 hch1 w hw
    rcases hdesc o ond1 cl1 hg1 hch1 with hnil | ⟨ho, hgo, hch, hlt⟩
    · rw [hnil] at hw
      cases hw
    · intro hmem
      rcases List.mem_append.mp hmem with hm1 | hm1
      · exact hsl o ond1 cl1 (by omega) hgo hch w hw hm1
      · rcases List.mem_cons.mp hm1 with rfl | hm2
        · exact absurd (hlt _ hw) (by omega)
        · cases hm2
  · intro o1 on1 cl1 o2 on2 cl2 h1t h2t h12 hg1 hch1 hg2 hch2 w hw1
    rcases hdesc o1 on1 cl1 hg1 hch1 with hnil | ⟨ho1, hgo1, hcho1, hlt1⟩
    · rw [hnil] at hw1
      cases hw1
    · rcases hdesc o2 on2 cl2 hg2 hch2 with hnil | ⟨ho2, hgo2, hcho2, hlt2⟩
      · rw [hnil]
        intro hmem
        cases hmem
      · exact hcc o1 on1 cl1 o2 on2 cl2 (by omega) (by omega) h12 hgo1 hcho1
          hgo2 hcho2 w hw1

/-- The tail of `pop` after the relink: rescanning the top and running
the swap-with-last compaction yields a heap satisfying the structural
invariant, provided the relinked state has a well-formed separated
root list avoiding the extracted node. -/
theorem popTail {h1 : BHeap} {tp : Nat} {h' : BHeap} {rl1 : List Nat}
    (hrun : (do
      let newtop ← get_new_top h1
      popCompact { h1 with top_ := newtop } tp : Except String BHeap) = Except.ok h')
    (hrw : RootsWF h1.data_ h1.head_ rl1)
    (htp1 : tp ∉ rl1)
    (hcwfx : ChildWFx h1.data_ tp)
    (hslx : SepListX h1.data_ rl1 tp)
    (hccx : SepCCX h1.data_ tp) :
    HeapInv h' := by
  obtain ⟨newtop, hnt, hrun⟩ := exceptBind_ok hrun
  unfold popCompact at hrun
  obtain ⟨lastVal, hlv, hrun⟩ := exceptBind_ok hrun
  obtain ⟨index, hidx, hrun⟩ := exceptBind_ok hrun
  obtain ⟨elements2, hel, hrun⟩ := exceptBind_ok hrun
  obtain ⟨data3, hd3, hrun⟩ := exceptBind_ok hrun
  obtain ⟨data4, hd4, hrun⟩ := exceptBind_ok hrun
  have h'eq := Except.ok.inj hrun
  have hda : h'.data_ = data4 := by rw [← h'eq]
  have hha : h'.head_ = h1.head_ := by rw [← h'eq]
  obtain ⟨ndi, hgndi0, hd3e0⟩ := modifyE_ok_get hd3
  obtain ⟨ndt, hgndt, hd4e0⟩ := modifyE_ok_get hd4
  have hgndi : h1.data_.get? index = some ndi := hgndi0
  have hd3e : data3 = h1.data_.set index { ndi with item_index := tp } := hd3e0
  have hd4e : data4 = data3.set tp { ndt with parent := none, child := none, right_sibling := none, degree := 0 } := hd4e0
  have hilt : index < h1.data_.length := (List.get?_eq_some.mp hgndi).1
  have hfwd : ∀ i nd, h1.data_.get? i = some nd → ∃ nd2, data3.get? i = some nd2 ∧
      nd2.right_sibling = nd.right_sibling ∧ nd2.child = nd.child ∧
      nd2.degree = nd.degree ∧ nd2.parent = nd.parent := by
    intro i nd hg
    by_cases hii : i = index
    · subst hii
      rw [hgndi] at hg
      have hnd : ndi = nd := Option.some.inj hg
      refine ⟨{ ndi with item_index := tp }, ?_, by rw [hnd], by rw [hnd],
        by rw [hnd], by rw [hnd]⟩
      rw [hd3e]
      exact List.get?_set_eq_of_lt _ hilt
    · refine ⟨nd, ?_, rfl, rfl, rfl, rfl⟩
      rw [hd3e, List.get?_set_ne _ _ (fun hEq => hii hEq.symm)]
      exact hg
  have hbwd : ∀ i nd2, data3.get? i = some nd2 → ∃ nd, h1.data_.get? i = some nd ∧
      nd2.right_sibling = nd.right_sibling ∧ nd2.child = nd.child ∧
      nd2.degree = nd.degree ∧ nd2.parent = nd.parent := by
    intro i nd2 hg2
    by_cases hii : i = index
    · subst hii
      rw [hd3e, List.get?_set_eq_of_lt _ hilt] at hg2
      have hnd : nd2 = { ndi with item_index := tp } := (Option.some.inj hg2).symm
      subst hnd
      exact ⟨ndi, hgndi, rfl, rfl, rfl, rfl⟩
    · rw [hd3e, List.get?_set_ne _ _ (fun hEq => hii hEq.symm)] at hg2
      exact ⟨nd2, hg2, rfl, rfl, rfl, rfl⟩
  obtain ⟨hrw3, hcwf3, hsl3, hcc3⟩ :=
    struct_item_transfer hfwd hbwd hrw hcwfx hslx hccx
  have htplt3 : tp < data3.length := (List.get?_eq_some.mp hgndt).1
  obtain ⟨hrw4, hcwf4, hsl4, hcc4⟩ :=
    @invalidate_struct data3 tp h1.head_ rl1
      ({ ndt with parent := none, child := none, right_sibling := none, degree := 0 })
      htplt3 rfl rfl rfl rfl hrw3 htp1 hcwf3 hsl3 hcc3
  unfold HeapInv
  rw [hda, hha, hd4e]
  exact ⟨rl1, hrw4, hsl4, hcwf4, hcc4⟩

/-- A separation target list survives a rewrite that keeps `child` and
`degree` everywhere and touches only slots no unexempted chain
visits. -/
theorem sepListX_transfer {data data2 : List BHNode} {W L : List Nat} {t : Nat}
    (hfr : ∀ i, i ∉ W → data2.get? i = data.get? i)
    (hcd : ∀ i nd2, data2.get? i = some nd2 → ∃ nd,
      data.get? i = some nd ∧ nd2.child = nd.child ∧ nd2.degree = nd.degree)
    (hcwf : ChildWFx data t)
    (hslW : SepListX data W t)
    (hslL : SepListX data L t) : SepListX data2 L t := by
  have htr := @chains_transfer data data2 W t (data.length + data2.length + 1) hfr
    (fun i nd2 _ hg => hcd i nd2 hg) hcwf hslW
  intro o ond cl hot hg hch w hw
  have holt := (List.get?_eq_some.mp hg).1
  have hoe : o ≠ data.length + data2.length + 1 := by omega
  obtain ⟨ond0, cl0, hgo, hch0, hch02, hav, huni, hdec, hbnd⟩ := htr o ond hot hoe hg
  rw [huni cl hch] at hw
  exact hslL o ond0 cl0 hot hgo hch0 w hw

/-- Redirecting the predecessor's sibling link to skip the removed
member: the spliced chain is the old one with that member dropped. -/
theorem chain_splice {data : List BHNode} {pred tp : Nat} {predn tn2 : BHNode}
    (hgp : data.get? pred = some predn) (hgt : data.get? tp = some tn2) :
    ∀ {l1 : List Nat} {o : Option Nat} {l2 : List Nat},
    IsChainF BHNode.right_sibling data o (l1 ++ pred :: tp :: l2) →
    (l1 ++ pred :: tp :: l2).Nodup →
    IsChainF BHNode.right_sibling
      (data.set pred { predn with right_sibling := tn2.right_sibling })
      o (l1 ++ pred :: l2) := by
  intro l1
  induction l1 with
  | nil =>
    intro o l2 hch hnd
    rw [List.nil_append] at hch hnd ⊢
    obtain ⟨ho, nd, hget, hrest⟩ := chainF_cons_inv hch
    have hndp : predn = nd := by rw [hgp] at hget; exact Option.some.inj hget
    subst hndp
    obtain ⟨ho2, nd2, hget2, hrest2⟩ := chainF_cons_inv hrest
    have hnd2e : tn2 = nd2 := by rw [hgt] at hget2; exact Option.some.inj hget2
    subst hnd2e
    rw [ho]
    have hplt : pred < data.length := (List.get?_eq_some.mp hgp).1
    refine IsChainF.cons { predn with right_sibling := tn2.right_sibling }
      (List.get?_set_eq_of_lt _ hplt) ?_
    show IsChainF BHNode.right_sibling
      (data.set pred { predn with right_sibling := tn2.right_sibling })
      tn2.right_sibling l2
    refine chainF_set_outside hrest2 ?_ _
    have hnc := List.nodup_cons.mp hnd
    intro hm
    exact hnc.1 (List.mem_cons_of_mem _ hm)
  | cons a l1' ih =>
    intro o l2 hch hnd
    rw [List.cons_append] at hch hnd ⊢
    obtain ⟨ho, nd, hget, hrest⟩ := chainF_cons_inv hch
    have hnc := List.nodup_cons.mp hnd
    rw [ho]
    refine IsChainF.cons nd ?_ (ih hrest hnc.2)
    have hne : pred ≠ a := by
      intro hEq
      apply hnc.1
      rw [← hEq]
      exact List.mem_append_right _ (List.mem_cons_self _ _)
    rw [List.get?_set_ne _ _ hne]
    exact hget

/-- Inverting the child-detachment step of `pop`: the returned node
array agrees with the old one away from the top's child chain,
preserves every item slot, degree and child link, and threads the
reversed chain as a parentless root list. -/
theorem popChildren_ok {h : BHeap} {tn : BHNode} {tp : Nat}
    {pr : List BHNode × Option Nat}
    (hrun : popChildren h tn = Except.ok pr)
    (hgtn : h.data_.get? tp = some tn)
    (hcwf : ChildWFx h.data_ h.data_.length) :
    ∃ cl, IsChainF BHNode.right_sibling h.data_ tn.child cl ∧
      List.Chain' (fun a b => b < a) (cl.map (degOf h.data_)) ∧
      (∀ c ∈ cl, degOf h.data_ c < tn.degree) ∧
      pr.1.length = h.data_.length ∧
      (∀ i, i ∉ cl → pr.1.get? i = h.data_.get? i) ∧
      (∀ i nd', pr.1.get? i = some nd' → ∃ nd, h.data_.get? i = some nd ∧
        nd'.item_index = nd.item_index ∧ nd'.degree = nd.degree ∧
        nd'.child = nd.child) ∧
      IsChainF BHNode.right_sibling pr.1 pr.2 cl.reverse ∧
      (∀ a ∈ cl.reverse, ∃ an, pr.1.get? a = some an ∧ an.parent = none) := by
  have htplt : tp < h.data_.length := (List.get?_eq_some.mp hgtn).1
  obtain ⟨cl, hch, hdec, hbnd⟩ := hcwf tp tn (by omega) hgtn
  unfold popChildren at hrun
  cases hc : tn.child with
  | none =>
    rw [hc] at hrun hch
    have hclnil : cl = [] := by cases hch; rfl
    subst hclnil
    have hpr : Except.ok (h.data_, (none : Option Nat)) = Except.ok pr := hrun
    have hpre := Except.ok.inj hpr
    rw [← hpre]
    refine ⟨[], IsChainF.nil, List.chain'_nil,
      fun c hc' => absurd hc' (List.not_mem_nil c), rfl, fun i _ => rfl,
      fun i nd' hg => ⟨nd', hg, rfl, rfl, rfl⟩, ?_, ?_⟩
    · show IsChainF BHNode.right_sibling h.data_ none []
      exact IsChainF.nil
    · intro a ha
      exact absurd ha (List.not_mem_nil a)
  | some c =>
    rw [hc] at hrun hch
    have hrun2 : popReverse (h.data_.length + 2) h.data_ (some c) none =
        Except.ok pr := hrun
    have hnd := chainF_nodup hch
    have hmem := chainF_mem_lt hch
    have hfuel : cl.length + 1 ≤ h.data_.length + 2 := by
      have := nodup_lt_length hnd hmem
      omega
    obtain ⟨data', nh, hrun3, hlen, hfr, hpres, hchain, hpar⟩ :=
      popReverse_ok hch hnd (fun a ha => absurd ha (List.not_mem_nil a))
        IsChainF.nil (fun a ha => absurd ha (List.not_mem_nil a)) hfuel
    rw [hrun3] at hrun2
    have hpre := Except.ok.inj hrun2
    rw [← hpre]
    refine ⟨cl, hch, hdec, hbnd, hlen, hfr, hpres, ?_, ?_⟩
    · have := hchain
      rw [List.append_nil] at this
      exact this
    · intro a ha
      refine hpar a ?_
      rw [List.append_nil]
      exact ha

/-- The three-argument constructor establishes the structural
invariant: the forest is empty. -/
theorem mkHeap_heapinv (n : Nat) : HeapInv (mkHeap n) := by
  refine ⟨[], ⟨IsChainF.nil, List.chain'_nil, fun r hr => absurd hr (List.not_mem_nil r)⟩,
    ?_, ?_, ?_⟩
  · intro o ond cl hot hg
    exact Option.noConfusion hg
  · intro i nd hit hg
    exact Option.noConfusion hg
  · intro o1 on1 cl1 o2 on2 cl2 _ _ _ hg1
    exact Option.noConfusion hg1

/-- `update` keeps the node array and the root-list head unchanged, so
the structural invariant is preserved. -/
theorem update_heapinv {h : BHeap} {d : Val} {h' : BHeap}
    (hrun : update h d = Except.ok h') (hinv : HeapInv h) : HeapInv h' := by
  unfold update at hrun
  obtain ⟨index, h1, hrun⟩ := exceptBind_ok hrun
  obtain ⟨nd, h2, hrun⟩ := exceptBind_ok hrun
  obtain ⟨elements, h3, hrun⟩ := exceptBind_ok hrun
  obtain ⟨tr, h4, hrun⟩ := exceptBind_ok hrun
  obtain ⟨ia, h5, hrun⟩ := exceptBind_ok hrun
  obtain ⟨tnn, h6, hrun⟩ := exceptBind_ok hrun
  obtain ⟨tv, h7, hrun⟩ := exceptBind_ok hrun
  have he := Except.ok.inj hrun
  by_cases hc : compare_ d tv = true
  · rw [if_pos hc] at he
    rw [← he]
    exact hinv
  · rw [if_neg hc] at he
    rw [← he]
    exact hinv

/-- The tail of `push` preserves the structural invariant: the fresh
node either starts a one-root forest or is united in as a singleton
root list. -/
theorem pushFinish_heapinv {h1 : BHeap} {data0 : List BHNode} {obj : BHNode}
    {h' : BHeap} {rl : List Nat}
    (hd1 : h1.data_ = data0 ++ [obj])
    (hobjp : obj.parent = none) (hobjc : obj.child = none)
    (hobjr : obj.right_sibling = none) (hobjd : obj.degree = 0)
    (hrun : pushFinish h1 data0.length = Except.ok h')
    (hrw : RootsWF data0 h1.head_ rl)
    (hsl : SepListX data0 rl data0.length)
    (hcwf : ChildWFx data0 data0.length)
    (hcc : SepCCX data0 data0.length) :
    HeapInv h' := by
  have hmem : ∀ r ∈ rl, r < data0.length := chainF_mem_lt hrw.chain
  have hfr : ∀ i, i < data0.length → (data0 ++ [obj]).get? i = data0.get? i :=
    fun i hi => List.get?_append hi
  have hgobj : (data0 ++ [obj]).get? data0.length = some obj :=
    List.get?_concat_length _ _
  have hchain1 : IsChainF BHNode.right_sibling (data0 ++ [obj]) h1.head_ rl :=
    chainF_frame hrw.chain (fun i hi => hfr i (hmem i hi))
  have hstrict1 : List.Chain' (· < ·) (rl.map (degOf (data0 ++ [obj]))) := by
    rw [map_degOf_congr (fun m hm => hfr m (hmem m hm))]
    exact hrw.strict
  have hpar1 : ∀ r ∈ rl, ∃ nd, (data0 ++ [obj]).get? r = some nd ∧
      nd.parent = none := by
    intro r hr
    obtain ⟨nd, hg, hp⟩ := hrw.rootpar r hr
    exact ⟨nd, by rw [hfr r (hmem r hr)]; exact hg, hp⟩
  obtain ⟨hcwf1, hsl1, hcc1⟩ := struct_append hobjc hcwf hsl hcc
  have hchq : IsChainF BHNode.right_sibling (data0 ++ [obj]) (some data0.length)
      [data0.length] := by
    refine IsChainF.cons obj hgobj ?_
    rw [hobjr]
    exact IsChainF.nil
  cases hh : h1.head_ with
  | none =>
    rw [pushFinish_none hh] at hrun
    have he := Except.ok.inj hrun
    rw [← he]
    show ∃ rl2, RootsWF h1.data_ (some data0.length) rl2 ∧
      SepListX h1.data_ rl2 h1.data_.length ∧ ChildWFx h1.data_ h1.data_.length ∧
      SepCCX h1.data_ h1.data_.length
    rw [hd1]
    refine ⟨[data0.length], ⟨hchq, List.chain'_singleton _, ?_⟩, ?_, hcwf1, hcc1⟩
    · intro r hr
      rw [List.mem_singleton] at hr
      subst hr
      exact ⟨obj, hgobj, hobjp⟩
    · refine sepListX_mono hsl1 ?_
      intro a ha
      rw [List.mem_singleton] at ha
      subst ha
      exact List.mem_append_right _ (List.mem_singleton.mpr rfl)
  | some h0 =>
    rw [pushFinish_some hh] at hrun
    obtain ⟨h2, hun, hrun⟩ := exceptBind_ok hrun
    obtain ⟨xn, hxn, hrun⟩ := exceptBind_ok hrun
    obtain ⟨xv, hxv, hrun⟩ := exceptBind_ok hrun
    obtain ⟨tnn, htn, hrun⟩ := exceptBind_ok hrun
    obtain ⟨tvv, htv, hrun⟩ := exceptBind_ok hrun
    have he := Except.ok.inj hrun
    rw [hh] at hchain1
    obtain ⟨rl0, hrleq⟩ : ∃ rl0, rl = h0 :: rl0 := by
      cases hchain1 with
      | cons nd hget hrest => exact ⟨_, rfl⟩
    subst hrleq
    have hnodup : ((h0 :: rl0) ++ [data0.length]).Nodup := by
      refine List.Nodup.append (chain'_map_lt_nodup hstrict1)
        (List.nodup_singleton _) ?_
      intro a ha hb
      rw [List.mem_singleton] at hb
      subst hb
      exact absurd (hmem _ ha) (Nat.lt_irrefl _)
    have hpar2 : ∀ r ∈ (h0 :: rl0) ++ [data0.length], ∃ nd,
        (data0 ++ [obj]).get? r = some nd ∧ nd.parent = none := by
      intro r hr
      rcases List.mem_append.mp hr with hm | hm
      · exact hpar1 r hm
      · rw [List.mem_singleton] at hm
        subst hm
        exact ⟨obj, hgobj, hobjp⟩
    have htpL : (data0 ++ [obj]).length ∉ (h0 :: rl0) ++ [data0.length] := by
      have hlen1 : (data0 ++ [obj]).length = data0.length + 1 := by
        rw [List.length_append, List.length_singleton]
      intro hm
      rcases List.mem_append.mp hm with hm2 | hm2
      · have := hmem _ hm2
        omega
      · rw [List.mem_singleton] at hm2
        omega
    rw [← hd1] at hchain1 hchq hstrict1 hpar2 hcwf1 hsl1 hcc1 htpL
    have hsq : List.Chain' (· < ·) ([data0.length].map (degOf h1.data_)) :=
      List.chain'_singleton _
    obtain ⟨rl', helem, htop, hiaU, hlenU, hfrU, hsubU, hrwU, hcwfU, hslU, hccU⟩ :=
      union_ok_struct hun hh hchain1 hchq hstrict1 hsq hnodup hpar2 htpL
        hcwf1 hsl1 hcc1
    have hfin : HeapInv h2 := by
      show ∃ rl2, RootsWF h2.data_ h2.head_ rl2 ∧
        SepListX h2.data_ rl2 h2.data_.length ∧
        ChildWFx h2.data_ h2.data_.length ∧ SepCCX h2.data_ h2.data_.length
      rw [hlenU]
      exact ⟨rl', hrwU, hslU, hcwfU, hccU⟩
    rw [← he]
    split
    · exact hfin
    · exact hfin

/-- `push` preserves the structural invariant. -/
theorem push_heapinv {h : BHeap} {d : Val} {h' : BHeap}
    (hrun : push h d = Except.ok h') (hinv : HeapInv h) : HeapInv h' := by
  obtain ⟨rl, hrw, hsl, hcwf, hcc⟩ := hinv
  unfold push at hrun
  obtain ⟨ia, hia, hrun⟩ := exceptBind_ok hrun
  simp only [List.length_append, List.length_singleton, Nat.add_sub_cancel] at hrun
  exact @pushFinish_heapinv
    { elements_ := h.elements_ ++ [d], data_ := h.data_ ++ [{ item_index := h.elements_.length, parent := none, child := none, right_sibling := none, degree := 0 }], head_ := h.head_, top_ := h.top_, index_array := ia }
    h.data_
    { item_index := h.elements_.length, parent := none, child := none, right_sibling := none, degree := 0 }
    h' rl rfl rfl rfl rfl rfl hrun hrw hsl hcwf hcc

/-- `pop` preserves the structural invariant: the extracted root's
children are reversed into a well-formed separated root list, the
root-list surgery drops exactly the extracted root, the union
reconsolidates, and the final invalidation repairs the extracted
node's links. -/
theorem pop_heapinv {h h' : BHeap}
    (hrun : pop h = Except.ok h') (hinv : HeapInv h) : HeapInv h' := by
  obtain ⟨rl, hrw, hsl, hcwf, hcc⟩ := hinv
  unfold pop at hrun
  cases hh : h.head_ with
  | none =>
    rw [hh] at hrun
    have he := Except.ok.inj hrun
    rw [← he]
    exact ⟨rl, hrw, hsl, hcwf, hcc⟩
  | some hd =>
    cases ht : h.top_ with
    | none =>
      rw [hh, ht] at hrun
      exact Except.noConfusion hrun
    | some tp =>
      rw [hh, ht] at hrun
      obtain ⟨tn, hgtn0, hrun⟩ := exceptBind_ok hrun
      have hgtn : h.data_.get? tp = some tn := getE_ok hgtn0
      have htplt : tp < h.data_.length := (List.get?_eq_some.mp hgtn).1
      obtain ⟨pr, hpc, hrun⟩ := exceptBind_ok hrun
      obtain ⟨h1, hrl, hrun⟩ := exceptBind_ok hrun
      obtain ⟨cl, hchcl, hdeccl, hbndcl, hlen1, hfr1, hpres1, hchrev, hparrev⟩ :=
        popChildren_ok hpc hgtn hcwf
      have hdeg1 : ∀ i, degOf pr.1 i = degOf h.data_ i :=
        degOf_pres hlen1 (fun i nd' hg => by
          obtain ⟨nd, hgnd, e1, e2, e3⟩ := hpres1 i nd' hg
          exact ⟨nd, hgnd, e2⟩)
      have hclrl : ∀ w ∈ cl, w ∉ rl :=
        hsl tp tn cl (by omega) hgtn hchcl
      have htpcl : tp ∉ cl := by
        intro hm
        have hb := hbndcl tp hm
        rw [degOf_eq hgtn] at hb
        exact Nat.lt_irrefl _ hb
      have havoid : ∀ o ond cl2, o ≠ tp → h.data_.get? o = some ond →
          IsChainF BHNode.right_sibling h.data_ ond.child cl2 →
          ∀ w ∈ cl2, w ∉ cl := by
        intro o ond cl2 hot hg hch2 w hw
        have holt := (List.get?_eq_some.mp hg).1
        exact hcc o ond cl2 tp tn cl (by omega) (by omega) hot hg hch2 hgtn hchcl w hw
      have hcdp : ∀ i nd2, pr.1.get? i = some nd2 → ∃ nd, h.data_.get? i = some nd ∧
          nd2.child = nd.child ∧ nd2.degree = nd.degree := by
        intro i nd2 hg
        obtain ⟨nd, hgnd, e1, e2, e3⟩ := hpres1 i nd2 hg
        exact ⟨nd, hgnd, e3, e2⟩
      have hslW : SepListX h.data_ cl tp := fun o ond cl2 hot hg hch2 w hw =>
        havoid o ond cl2 hot hg hch2 w hw
      obtain ⟨hcwf1, hslcl1, hcc1⟩ := struct_transfer hlen1 hfr1 hcdp
        (childWFx_relax hcwf) hslW (sepCCX_relax hcc)
      have hrlcl : ∀ r ∈ rl, r ∉ cl := fun r hr hm => hclrl r hm hr
      have hrw1 : RootsWF pr.1 h.head_ rl := by
        refine ⟨chainF_frame hrw.chain (fun i hi => hfr1 i (hrlcl i hi)), ?_, ?_⟩
        · rw [map_degOf_congr (fun m hm => hfr1 m (hrlcl m hm))]
          exact hrw.strict
        · intro r hr
          obtain ⟨nd, hgnd, hp⟩ := hrw.rootpar r hr
          exact ⟨nd, by rw [hfr1 r (hrlcl r hr)]; exact hgnd, hp⟩
      have hslrlcl0 : SepListX h.data_ (rl ++ cl) tp := by
        intro o ond cl2 hot hg hch2 w hw hmem
        rcases List.mem_append.mp hmem with hm | hm
        · exact sepListX_relax hsl o ond cl2 hot hg hch2 w hw hm
        · exact havoid o ond cl2 hot hg hch2 w hw hm
      have hslrlcl : SepListX pr.1 (rl ++ cl) tp :=
        sepListX_transfer hfr1 hcdp (childWFx_relax hcwf) hslW hslrlcl0
      have hrevstrict : List.Chain' (· < ·) (cl.reverse.map (degOf pr.1)) := by
        rw [List.map_reverse, List.map_congr_left (fun a ha => hdeg1 a)]
        exact List.chain'_reverse.mpr hdeccl
      have htprev : tp ∉ cl.reverse := fun hm => htpcl (List.mem_reverse.mp hm)
      have hslrev : SepListX pr.1 cl.reverse tp :=
        sepListX_mono hslcl1 (fun a ha => List.mem_reverse.mp ha)
      unfold popRelink at hrl
      obtain ⟨hn, hghn0, hrl⟩ := exceptBind_ok hrl
      have hghn : pr.1.get? hd = some hn := getE_ok hghn0
      have hch0 : IsChainF BHNode.right_sibling pr.1 (some hd) rl := by
        have hc := hrw1.chain
        rw [hh] at hc
        exact hc
      obtain ⟨rl0, hrleq⟩ : ∃ rl0, rl = hd :: rl0 := by
        cases hch0 with
        | cons nd hget hrest => exact ⟨_, rfl⟩
      subst hrleq
      obtain ⟨_, hdn, hghdn, hresthd⟩ := chainF_cons_inv hch0
      have hhdn : hn = hdn := by rw [hghn] at hghdn; exact Option.some.inj hghdn
      subst hhdn
      have hrlnodup : (hd :: rl0).Nodup := chain'_map_lt_nodup hrw1.strict
      cases hrs : hn.right_sibling with
      | none =>
        rw [hrs] at hrl
        have h1e := Except.ok.inj
          (show Except.ok ({ h with data_ := pr.1, head_ := pr.2 } : BHeap) =
            Except.ok h1 from hrl)
        refine popTail hrun ?_ htprev ?_ ?_ ?_
        · rw [← h1e]
          exact ⟨hchrev, hrevstrict, fun a ha => hparrev a ha⟩
        · rw [← h1e]
          exact hcwf1
        · rw [← h1e]
          exact hslrev
        · rw [← h1e]
          exact hcc1
      | some r2 =>
        rw [hrs] at hrl hresthd
        have hrl2 : (if hd = tp then
            binomial_heap_union { h with data_ := pr.1, head_ := some r2 } pr.2
          else do
            let pred ← popScan (pr.1.length + 2) pr.1 hd tp
            let tn2 ← getE "pop: top reread" pr.1 tp
            let data2 ← modifyE "pop: splice" pr.1 pred
              (fun nd => { nd with right_sibling := tn2.right_sibling })
            binomial_heap_union { h with data_ := data2 } pr.2) = Except.ok h1 := hrl
        by_cases hdtp : hd = tp
        · rw [if_pos hdtp] at hrl2
          subst hdtp
          cases hpr2 : pr.2 with
          | none =>
            rw [hpr2] at hrl2
            exact absurd hrl2 (fun hx => union_none_err hx)
          | some q0 =>
            rw [hpr2] at hrl2 hchrev
            rcases hclr : cl.reverse with _ | ⟨q0x, lq0⟩
            · rw [hclr] at hchrev
              cases hchrev
            · rw [hclr] at hchrev hrevstrict htprev hparrev
              obtain ⟨hq0e, qn, hgqn, hrestq⟩ := chainF_cons_inv hchrev
              have hq0x : q0 = q0x := Option.some.inj hq0e
              subst hq0x
              rcases hrl0e : rl0 with _ | ⟨r2x, rl00⟩
              · rw [hrl0e] at hresthd
                exact Option.noConfusion (chainF_nil_inv hresthd)
              · rw [hrl0e] at hresthd hrlnodup
                obtain ⟨hr2e, r2n, hgr2n, hrestr2⟩ := chainF_cons_inv hresthd
                have hr2x : r2 = r2x := Option.some.inj hr2e
                subst hr2x
                have hsp : List.Chain' (· < ·) ((r2 :: rl00).map (degOf pr.1)) := by
                  have hx := hrw1.strict
                  rw [hrl0e] at hx
                  exact hx.tail
                have hndU : ((r2 :: rl00) ++ (q0 :: lq0)).Nodup := by
                  refine List.Nodup.append ?_ ?_ ?_
                  · exact (List.nodup_cons.mp hrlnodup).2
                  · rw [← hclr]
                    exact List.nodup_reverse.mpr (chainF_nodup hchcl)
                  · intro a ha hb
                    have hamem : a ∈ hd :: rl0 := by
                      rw [hrl0e]
                      exact List.mem_cons_of_mem _ ha
                    have hacl : a ∈ cl := by
                      rw [← List.mem_reverse, hclr]
                      exact hb
                    exact hrlcl a hamem hacl
                have hparU : ∀ r ∈ (r2 :: rl00) ++ (q0 :: lq0), ∃ nd,
                    pr.1.get? r = some nd ∧ nd.parent = none := by
                  intro r hr
                  rcases List.mem_append.mp hr with hm | hm
                  · exact hrw1.rootpar r (by rw [hrl0e]; exact List.mem_cons_of_mem _ hm)
                  · exact hparrev r hm
                have htpU : hd ∉ (r2 :: rl00) ++ (q0 :: lq0) := by
                  intro hm
                  rcases List.mem_append.mp hm with hm2 | hm2
                  · exact (List.nodup_cons.mp hrlnodup).1 hm2
                  · exact htprev hm2
                have hslUnion : SepListX pr.1 ((r2 :: rl00) ++ (q0 :: lq0)) hd := by
                  refine sepListX_mono hslrlcl ?_
                  intro a ha
                  rcases List.mem_append.mp ha with hm | hm
                  · exact List.mem_append_left _
                      (by rw [hrl0e]; exact List.mem_cons_of_mem _ hm)
                  · refine List.mem_append_right _ ?_
                    rw [← List.mem_reverse, hclr]
                    exact hm
                obtain ⟨rl', helem, htopU, hiaU, hlenU, hfrU, hsubU, hrwU, hcwfU,
                    hslUo, hccUo⟩ :=
                  union_ok_struct hrl2 rfl hresthd hchrev hsp hrevstrict hndU hparU
                    htpU hcwf1 hslUnion hcc1
                exact popTail hrun hrwU (fun hm => htpU (hsubU _ hm)) hcwfU hslUo hccUo
        · rw [if_neg hdtp] at hrl2
          obtain ⟨pred, hps, hrl2⟩ := exceptBind_ok hrl2
          obtain ⟨tn2, hgtn2e, hrl2⟩ := exceptBind_ok hrl2
          have hgtn2 : pr.1.get? tp = some tn2 := getE_ok hgtn2e
          obtain ⟨data2, hmod, hrl2⟩ := exceptBind_ok hrl2
          obtain ⟨predn, hgpredn0, hd2e0⟩ := modifyE_ok_get hmod
          have hgpredn : pr.1.get? pred = some predn := hgpredn0
          have hd2e : data2 =
              pr.1.set pred { predn with right_sibling := tn2.right_sibling } := hd2e0
          have hpredlt : pred < pr.1.length := (List.get?_eq_some.mp hgpredn).1
          obtain ⟨l1, l2, hsplit⟩ := popScan_ok hps hch0
          have hndsp : (l1 ++ pred :: tp :: l2).Nodup := by
            rw [← hsplit]
            exact hrlnodup
          have hpredmem : pred ∈ hd :: rl0 := by
            rw [hsplit]
            exact List.mem_append_right _ (List.mem_cons_self _ _)
          have hchsp : IsChainF BHNode.right_sibling data2 (some hd)
              (l1 ++ pred :: l2) := by
            rw [hd2e]
            refine chain_splice hgpredn hgtn2 ?_ hndsp
            rw [← hsplit]
            exact hch0
          have hdeg2 : ∀ i, degOf data2 i = degOf pr.1 i := by
            refine degOf_pres ?_ ?_
            · rw [hd2e, List.length_set]
            · intro i nd' hg
              rw [hd2e] at hg
              by_cases hip : i = pred
              · subst hip
                rw [List.get?_set_eq_of_lt _ hpredlt] at hg
                refine ⟨predn, hgpredn, ?_⟩
                rw [← Option.some.inj hg]
              · rw [List.get?_set_ne _ _ (fun hEq => hip hEq.symm)] at hg
                exact ⟨nd', hg, rfl⟩
          have hstrict2 : List.Chain' (· < ·) ((l1 ++ pred :: l2).map (degOf data2)) := by
            have hpre : List.Chain' (· < ·) ((l1 ++ pred :: tp :: l2).map (degOf pr.1)) := by
              rw [← hsplit]
              exact hrw1.strict
            rw [List.map_congr_left (fun a ha => hdeg2 a)]
            exact chain'_lt_append_middle hpre
          have hfr2 : ∀ i, i ≠ pred → data2.get? i = pr.1.get? i := by
            intro i hip
            rw [hd2e]
            exact List.get?_set_ne _ _ (fun hEq => hip hEq.symm)
          have hpar2 : ∀ r ∈ l1 ++ pred :: l2, ∃ nd, data2.get? r = some nd ∧
              nd.parent = none := by
            intro r hr
            have hrmem : r ∈ hd :: rl0 := by
              rw [hsplit]
              rcases List.mem_append.mp hr with hm | hm
              · exact List.mem_append_left _ hm
              · rcases List.mem_cons.mp hm with rfl | hm2
                · exact List.mem_append_right _ (List.mem_cons_self _ _)
                · exact List.mem_append_right _
                    (List.mem_cons_of_mem _ (List.mem_cons_of_mem _ hm2))
            obtain ⟨nd, hgnd, hp⟩ := hrw1.rootpar r hrmem
            by_cases hrp : r = pred
            · subst hrp
              have hng : predn = nd := by
                rw [hgpredn] at hgnd
                exact Option.some.inj hgnd
              refine ⟨{ predn with right_sibling := tn2.right_sibling }, ?_, ?_⟩
              · rw [hd2e]
                exact List.get?_set_eq_of_lt _ hpredlt
              · show predn.parent = none
                rw [hng]
                exact hp
            · exact ⟨nd, by rw [hfr2 r hrp]; exact hgnd, hp⟩
          have hnc1 := List.nodup_append.mp hndsp
          have htpsp : tp ∉ l1 ++ pred :: l2 := by
            intro hm
            rcases List.mem_append.mp hm with hm2 | hm2
            · exact (hnc1.2.2 hm2)
                (List.mem_cons_of_mem _ (List.mem_cons_self _ _))
            · rcases List.mem_cons.mp hm2 with heq | hm3
              · have hnc2 := List.nodup_cons.mp hnc1.2.1
                exact hnc2.1 (by rw [← heq]; exact List.mem_cons_self _ _)
              · have hnc2 := List.nodup_cons.mp hnc1.2.1
                have hnc3 := List.nodup_cons.mp hnc2.2
                exact hnc3.1 hm3
          have hcd2 : ∀ i nd2, data2.get? i = some nd2 → ∃ nd,
              pr.1.get? i = some nd ∧ nd2.child = nd.child ∧
              nd2.degree = nd.degree := by
            intro i nd2 hg
            rw [hd2e] at hg
            by_cases hip : i = pred
            · subst hip
              rw [List.get?_set_eq_of_lt _ hpredlt] at hg
              refine ⟨predn, hgpredn, ?_, ?_⟩
              · rw [← Option.some.inj hg]
              · rw [← Option.some.inj hg]
            · rw [List.get?_set_ne _ _ (fun hEq => hip hEq.symm)] at hg
              exact ⟨nd2, hg, rfl, rfl⟩
          have hfrW : ∀ i, i ∉ [pred] → data2.get? i = pr.1.get? i := by
            intro i hip
            exact hfr2 i (fun hEq => hip (by rw [hEq]; exact List.mem_singleton.mpr rfl))
          have hslpred : SepListX pr.1 [pred] tp := by
            refine sepListX_mono hslrlcl ?_
            intro a ha
            rw [List.mem_singleton] at ha
            subst ha
            exact List.mem_append_left _ hpredmem
          obtain ⟨hcwf2, hslp2, hcc2⟩ := struct_transfer
            (by rw [hd2e, List.length_set]) hfrW hcd2 hcwf1 hslpred hcc1
          have hslrlcl2 : SepListX data2 ((hd :: rl0) ++ cl) tp :=
            sepListX_transfer hfrW hcd2 hcwf1 hslpred hslrlcl
          have hclnp : ∀ w ∈ cl, w ≠ pred := by
            intro w hw hEq
            refine hclrl w hw ?_
            rw [hEq]
            exact hpredmem
          have hchrev2 : IsChainF BHNode.right_sibling data2 pr.2 cl.reverse := by
            refine chainF_frame hchrev ?_
            intro i hi
            exact hfr2 i (hclnp i (List.mem_reverse.mp hi))
          have hparrev2 : ∀ a ∈ cl.reverse, ∃ an, data2.get? a = some an ∧
              an.parent = none := by
            intro a ha
            obtain ⟨an, hga, hpa⟩ := hparrev a ha
            exact ⟨an, by rw [hfr2 a (hclnp a (List.mem_reverse.mp ha))]; exact hga, hpa⟩
          cases hpr2 : pr.2 with
          | none =>
            rw [hpr2] at hrl2
            exact absurd hrl2 (fun hx => union_none_err hx)
          | some q0 =>
            rw [hpr2] at hrl2 hchrev2
            rcases hclr : cl.reverse with _ | ⟨q0x, lq0⟩
            · rw [hclr] at hchrev2
              cases hchrev2
            · rw [hclr] at hchrev2 hrevstrict htprev hparrev2
              obtain ⟨hq0e, qn, hgqn, hrestq⟩ := chainF_cons_inv hchrev2
              have hq0x : q0 = q0x := Option.some.inj hq0e
              subst hq0x
              have hsq2 : List.Chain' (· < ·) ((q0 :: lq0).map (degOf data2)) := by
                rw [List.map_congr_left (fun a ha => hdeg2 a)]
                exact hrevstrict
              obtain ⟨lp0, hlp0⟩ : ∃ lp0, l1 ++ pred :: l2 = hd :: lp0 := by
                cases l1 with
                | nil =>
                  have hhdpred : hd = pred := by
                    have hs := hsplit
                    rw [List.nil_append] at hs
                    exact (List.cons.inj hs).1
                  exact ⟨l2, by rw [List.nil_append, hhdpred]⟩
                | cons a l1x =>
                  have hahd : hd = a := by
                    have hs := hsplit
                    rw [List.cons_append] at hs
                    exact (List.cons.inj hs).1
                  exact ⟨l1x ++ pred :: l2, by rw [List.cons_append, ← hahd]⟩
              rw [hlp0] at hchsp hstrict2 hpar2 htpsp
              have hndU : ((hd :: lp0) ++ (q0 :: lq0)).Nodup := by
                refine List.Nodup.append ?_ ?_ ?_
                · rw [← hlp0]
                  exact List.Nodup.sublist
                    (List.Sublist.append_left
                      (List.Sublist.cons₂ _ (List.sublist_cons_self _ _)) l1) hndsp
                · rw [← hclr]
                  exact List.nodup_reverse.mpr (chainF_nodup hchcl)
                · intro a ha hb
                  have hamem : a ∈ hd :: rl0 := by
                    rw [hsplit]
                    have hax : a ∈ l1 ++ pred :: l2 := by rw [hlp0]; exact ha
                    rcases List.mem_append.mp hax with hm | hm
                    · exact List.mem_append_left _ hm
                    · rcases List.mem_cons.mp hm with rfl | hm2
                      · exact List.mem_append_right _ (List.mem_cons_self _ _)
                      · exact List.mem_append_right _
                          (List.mem_cons_of_mem _ (List.mem_cons_of_mem _ hm2))
                  have hacl : a ∈ cl := by
                    rw [← List.mem_reverse, hclr]
                    exact hb
                  exact hrlcl a hamem hacl
              have hparU : ∀ r ∈ (hd :: lp0) ++ (q0 :: lq0), ∃ nd,
                  data2.get? r = some nd ∧ nd.parent = none := by
                intro r hr
                rcases List.mem_append.mp hr with hm | hm
                · exact hpar2 r hm
                · exact hparrev2 r hm
              have htpU : tp ∉ (hd :: lp0) ++ (q0 :: lq0) := by
                intro hm
                rcases List.mem_append.mp hm with hm2 | hm2
                · exact htpsp hm2
                · exact htprev hm2
              have hslUnion : SepListX data2 ((hd :: lp0) ++ (q0 :: lq0)) tp := by
                refine sepListX_mono hslrlcl2 ?_
                intro a ha
                rcases List.mem_append.mp ha with hm | hm
                · refine List.mem_append_left _ ?_
                  have hax : a ∈ l1 ++ pred :: l2 := by rw [hlp0]; exact hm
                  rw [hsplit]
                  rcases List.mem_append.mp hax with hm2 | hm2
                  · exact List.mem_append_left _ hm2
                  · rcases List.mem_cons.mp hm2 with rfl | hm3
                    · exact List.mem_append_right _ (List.mem_cons_self _ _)
                    · exact List.mem_append_right _
                        (List.mem_cons_of_mem _ (List.mem_cons_of_mem _ hm3))
                · refine List.mem_append_right _ ?_
                  rw [← List.mem_reverse, hclr]
                  exact hm
              obtain ⟨rl', helem, htopU, hiaU, hlenU, hfrU, hsubU, hrwU, hcwfU,
                  hslUo, hccUo⟩ :=
                union_ok_struct hrl2 hh hchsp hchrev2 hstrict2 hsq2 hndU hparU
                  htpU hcwf2 hslUnion hcc2
              exact popTail hrun hrwU (fun hm => htpU (hsubU _ hm)) hcwfU hslUo hccUo

/-- Every heap reachable from the three-argument constructor by a
successful run of public operations satisfies the structural
invariant. -/
theorem runOps_heapinv : ∀ (ops : List Op) (h h' : BHeap),
    HeapInv h → runOps h ops = Except.ok h' → HeapInv h' := by
  intro ops
  induction ops with
  | nil =>
    intro h h' hinv hrun
    have he := Except.ok.inj hrun
    rw [← he]
    exact hinv
  | cons op rest ih =>
    intro h h' hinv hrun
    obtain ⟨h1, hstep, hrun⟩ := exceptBind_ok hrun
    have hinv1 : HeapInv h1 := by
      cases op with
      | pushOp v => exact push_heapinv hstep hinv
      | popOp => exact pop_heapinv hstep hinv
      | updateOp v => exact update_heapinv hstep hinv
    exact ih h1 h' hinv1 hrun

/-- C5: after every union/consolidation (as invoked by insertion and by
extraction) on a reachable heap state, the root list is ordered by
strictly increasing degree, so at most one root of any given degree
exists in it — an invariant preserved by every operation: on every
heap reached by a successful run of public operations from the
constructor, the `right_sibling` chain from `head_` has strictly
increasing degrees, its mapped degree list has no duplicate, and every
root is parentless. -/
theorem C5_root_degree_invariant (n : Nat) (ops : List Op) (h' : BHeap)
    (hrun : runOps (mkHeap n) ops = Except.ok h') :
    ∃ rl, IsChainF BHNode.right_sibling h'.data_ h'.head_ rl ∧
      List.Chain' (· < ·) (rl.map (degOf h'.data_)) ∧
      (rl.map (degOf h'.data_)).Nodup ∧
      ∀ r ∈ rl, ∃ nd, h'.data_.get? r = some nd ∧ nd.parent = none := by
  obtain ⟨rl, hrw, hsl2, hcwf2, hcc2⟩ :=
    runOps_heapinv ops (mkHeap n) h' (mkHeap_heapinv n) hrun
  refine ⟨rl, hrw.chain, hrw.strict, ?_, hrw.rootpar⟩
  exact (List.chain'_iff_pairwise.mp hrw.strict).imp (fun hab => Nat.ne_of_lt hab)

/-- Witness: the run push {0, 1}; push {1, 2}; pop on a capacity-2 heap
succeeds (the two pushes link into one tree, the pop extracts key 1 and
leaves the single root at node 1), and the claim theorem applied to it
yields the strictly-increasing, duplicate-free, parentless root
list. -/
theorem C5_root_degree_invariant_witness :
    ∃ rl, IsChainF BHNode.right_sibling
      [{ item_index := 0, parent := none, child := none, right_sibling := none, degree := 0 }, { item_index := 0, parent := none, child := none, right_sibling := none, degree := 0 }]
      (some 1) rl ∧
      List.Chain' (· < ·) (rl.map (degOf [{ item_index := 0, parent := none, child := none, right_sibling := none, degree := 0 }, { item_index := 0, parent := none, child := none, right_sibling := none, degree := 0 }])) ∧
      (rl.map (degOf [{ item_index := 0, parent := none, child := none, right_sibling := none, degree := 0 }, { item_index := 0, parent := none, child := none, right_sibling := none, degree := 0 }])).Nodup ∧
      ∀ r ∈ rl, ∃ nd,
        ([{ item_index := 0, parent := none, child := none, right_sibling := none, degree := 0 }, { item_index := 0, parent := none, child := none, right_sibling := none, degree := 0 }] : List BHNode).get? r = some nd ∧
        nd.parent = none :=
  C5_root_degree_invariant 2
    [Op.pushOp { id := 0, key := 1 }, Op.pushOp { id := 1, key := 2 }, Op.popOp]
    { elements_ := [{ id := 1, key := 2 }], data_ := [{ item_index := 0, parent := none, child := none, right_sibling := none, degree := 0 }, { item_index := 0, parent := none, child := none, right_sibling := none, degree := 0 }], head_ := some 1, top_ := some 1, index_array := [0, 1] }
    rfl
